import Mathlib

/-!
Verification development for the myRedis repository (Go).

The Go sources are shallowly embedded: byte sequences (`[]byte` / `string`)
become `List Nat` of byte values, maps become association lists, machine
integers become `Int`/`Nat`, wall-clock instants become explicit integer
parameters (milliseconds, matching `time.Time.UnixMilli`), and file /
channel side effects become explicit state (the append-only log is a list
of appended command records).  Each definition is translated from the
corresponding Go function, named after it where Lean allows.
-/

namespace MyRedis

/-- Byte strings: Go `[]byte` / `string` as a list of byte values. -/
abbrev Bytes := List Nat

/-- String literal helper: the bytes of an ASCII string. -/
def bs (s : String) : Bytes := s.data.map Char.toNat

/-! ### Decimal formatting and parsing (model of Go `strconv`) -/

/-- Fuel-indexed digit loop (`n / 10 < n`, so `n` units of fuel always
suffice; structural recursion keeps the definition kernel-reducible). -/
def natDigitsAux : Nat → Nat → Bytes
  | _, 0 => []
  | 0, _ + 1 => []
  | fuel + 1, n + 1 => (48 + (n + 1) % 10) :: natDigitsAux fuel ((n + 1) / 10)

/-- Little-endian decimal digit bytes of `n` (empty for 0);
model of the digit loop inside `strconv.FormatInt`. -/
def natDigitsLE (n : Nat) : Bytes := natDigitsAux n n

theorem natDigitsAux_fuel : ∀ (fuel fuel' n : Nat), n ≤ fuel → n ≤ fuel' →
    natDigitsAux fuel n = natDigitsAux fuel' n := by
  intro fuel
  induction fuel with
  | zero =>
    intro fuel' n h _
    interval_cases n
    cases fuel' <;> rfl
  | succ fuel ih =>
    intro fuel' n h h'
    match n, fuel', h' with
    | 0, fuel', _ => cases fuel' <;> rfl
    | m + 1, f' + 1, h' =>
      rw [natDigitsAux, natDigitsAux]
      have hd : (m + 1) / 10 < m + 1 := Nat.div_lt_self (Nat.succ_pos m) (by omega)
      rw [ih f' ((m + 1) / 10) (by omega) (by omega)]

theorem natDigitsLE_succ (m : Nat) :
    natDigitsLE (m + 1) = (48 + (m + 1) % 10) :: natDigitsLE ((m + 1) / 10) := by
  rw [natDigitsLE, natDigitsLE, natDigitsAux]
  have hd : (m + 1) / 10 < m + 1 := Nat.div_lt_self (Nat.succ_pos m) (by omega)
  rw [natDigitsAux_fuel m ((m + 1) / 10) ((m + 1) / 10) (by omega) (by omega)]

/-- Decimal byte string of a natural number (model of `strconv.Itoa` on naturals). -/
def natToDec (n : Nat) : Bytes := if n = 0 then [48] else (natDigitsLE n).reverse

/-- Decimal byte string of an integer (model of `strconv.FormatInt _ 10`). -/
def intToDec (n : Int) : Bytes :=
  if n < 0 then 45 :: natToDec n.natAbs else natToDec n.toNat

/-- Value of one ASCII digit byte. -/
def digitVal (b : Nat) : Option Nat :=
  if 48 ≤ b ∧ b ≤ 57 then some (b - 48) else none

/-- Accumulating decimal scan over digit bytes. -/
def parseDigitsAux (acc : Nat) : Bytes → Option Nat
  | [] => some acc
  | b :: rest => (digitVal b).bind fun d => parseDigitsAux (acc * 10 + d) rest

/-- Parse a nonempty all-digit byte string, most significant digit first. -/
def parseDigits : Bytes → Option Nat
  | [] => none
  | b :: rest => (digitVal b).bind fun d => parseDigitsAux d rest

/-- Model of `strconv.ParseInt(s, 10, 64)` / `strconv.Atoi`: optional sign,
then at least one digit.  (The int64 range check is not modelled; every
value appearing in this development is far inside that range.) -/
def parseInt (l : Bytes) : Option Int :=
  match l with
  | [] => none
  | b :: rest =>
    if b = 45 then (parseDigits rest).map (fun m => -(m : Int))
    else if b = 43 then (parseDigits rest).map (fun m => (m : Int))
    else (parseDigits (b :: rest)).map (fun m => (m : Int))

/-! ### RESP replies (`resp/reply.go`)

`BulkReply.Arg = none` models a nil `[]byte` (the null bulk `$-1`);
`MultiBulkReply.Args = none` models a nil `[][]byte` (the null array `*-1`). -/

inductive Reply where
  | StatusReply (Status : Bytes)
  | ErrorReply (Status : Bytes)
  | IntReply (Code : Int)
  | BulkReply (Arg : Option Bytes)
  | MultiBulkReply (Args : Option (List (Option Bytes)))
deriving DecidableEq, Repr

def MakeStatusReply (s : Bytes) : Reply := .StatusReply s
def MakeErrReply (s : Bytes) : Reply := .ErrorReply s
def MakeIntReply (n : Int) : Reply := .IntReply n
def MakeBulkReply (a : Option Bytes) : Reply := .BulkReply a
def MakeMultiBulkReply (a : Option (List (Option Bytes))) : Reply := .MultiBulkReply a

def OkReply : Reply := MakeStatusReply (bs "OK")
def NullBulkReply : Reply := MakeBulkReply none

/-- `CRLF` = `"\r\n"`. -/
def CRLF : Bytes := [13, 10]

/-- Serialization of one array element inside `MultiBulkReply.ToBytes`
(`$-1` for a nil element, else a length-prefixed bulk). -/
def bulkElemBytes : Option Bytes → Bytes
  | none => 36 :: 45 :: 49 :: CRLF
  | some a => 36 :: natToDec a.length ++ CRLF ++ a ++ CRLF

/-- `Reply.ToBytes` from `resp/reply.go`: exact serialized byte sequences. -/
def Reply.ToBytes : Reply → Bytes
  | .StatusReply s => 43 :: s ++ CRLF
  | .ErrorReply s => 45 :: s ++ CRLF
  | .IntReply n => 58 :: intToDec n ++ CRLF
  | .BulkReply a => bulkElemBytes a
  | .MultiBulkReply none => 42 :: 45 :: 49 :: CRLF
  | .MultiBulkReply (some args) =>
      42 :: natToDec args.length ++ CRLF ++ (args.map bulkElemBytes).flatten

/-! ### RESP parser (`resp/parser.go`)

The stream is a byte list; `none` models a parse error (or, where noted,
a Go runtime panic on malformed negative lengths).  `parseLine` returns
`some (none, rest)` exactly where the Go parser returns a `nil` reply with
a `nil` error (the `*-1` null array). -/

/-- Bytes before the first LF, and the bytes after it
(model of `bufio.Reader.ReadBytes('\n')`; `none` = EOF before any LF). -/
def takeLine : Bytes → Option (Bytes × Bytes)
  | [] => none
  | b :: rest =>
    if b = 10 then some ([], rest)
    else (takeLine rest).map (fun p => (b :: p.1, p.2))

/-- `readLine` from `resp/parser.go`: read through LF, require the byte
before the LF to be CR, and strip the CRLF. -/
def readLine (input : Bytes) : Option (Bytes × Bytes) :=
  (takeLine input).bind fun p =>
    if p.1.getLast? = some 13 then some (p.1.dropLast, p.2) else none

/-- Read exactly `n` bytes (model of `io.ReadFull`). -/
def readN : Nat → Bytes → Option (Bytes × Bytes)
  | 0, input => some ([], input)
  | _ + 1, [] => none
  | n + 1, b :: rest => (readN n rest).map (fun p => (b :: p.1, p.2))

/-- `parseBulk` from `resp/parser.go`: the header line is `$<len>`;
`-1` yields the nil bulk; otherwise read `len+2` bytes and check the
trailing CRLF.  A length below `-1` makes the Go code index a slice out of
range (runtime panic); modelled as a parse failure. -/
def parseBulk (header : Bytes) (input : Bytes) : Option (Option Bytes × Bytes) :=
  (parseInt (header.drop 1)).bind fun n =>
    if n = -1 then some (none, input)
    else if n < -1 then none
    else (readN (n.toNat + 2) input).bind fun p =>
      if p.1[n.toNat]? = some 13 ∧ p.1[n.toNat + 1]? = some 10 then
        some (some (p.1.take n.toNat), p.2)
      else none

/-- The element loop of `parseArray`: read `n` bulk elements, each one a
`$`-prefixed line followed by its body. -/
def parseNBulks : Nat → Bytes → Option (List (Option Bytes) × Bytes)
  | 0, input => some ([], input)
  | n + 1, input =>
    (readLine input).bind fun p =>
      match p.1 with
      | 36 :: _ =>
        (parseBulk p.1 p.2).bind fun q =>
          (parseNBulks n q.2).map (fun r => (q.1 :: r.1, r.2))
      | _ => none

/-- `parseArray` from `resp/parser.go`: header `*<n>`; `-1` yields the
nil payload; a count below `-1` makes the Go code call `make` with a
negative capacity (runtime panic), modelled as failure. -/
def parseArray (header : Bytes) (input : Bytes) :
    Option (Option Reply × Bytes) :=
  (parseInt (header.drop 1)).bind fun n =>
    if n = -1 then some (none, input)
    else if n < -1 then none
    else (parseNBulks n.toNat input).map
      (fun p => (some (.MultiBulkReply (some p.1)), p.2))

/-- `parseLine` from `resp/parser.go`: dispatch on the first byte of the
line (`*` array, `$` bulk, `+` status, `-` error, `:` integer). -/
def parseLine (line : Bytes) (input : Bytes) : Option (Option Reply × Bytes) :=
  match line with
  | [] => none
  | b :: rest =>
    if b = 42 then parseArray line input
    else if b = 36 then (parseBulk line input).map (fun p => (some (.BulkReply p.1), p.2))
    else if b = 43 then some (some (.StatusReply rest), input)
    else if b = 45 then some (some (.ErrorReply rest), input)
    else if b = 58 then (parseInt rest).map (fun n => (some (.IntReply n), input))
    else none

/-- One iteration of `parse0`: read a line, then parse the frame it starts.
Returns the payload and the unconsumed bytes. -/
def parseOne (input : Bytes) : Option (Option Reply × Bytes) :=
  (readLine input).bind fun p => parseLine p.1 p.2

/-! ### Round-trip lemmas for the decimal codec -/

theorem parseDigitsAux_append (acc : Nat) (xs ys : Bytes) :
    parseDigitsAux acc (xs ++ ys) =
      (parseDigitsAux acc xs).bind fun a => parseDigitsAux a ys := by
  induction xs generalizing acc with
  | nil => simp [parseDigitsAux]
  | cons b rest ih =>
    simp only [List.cons_append, parseDigitsAux]
    cases digitVal b with
    | none => simp
    | some d => simp [ih]

theorem natDigitsLE_bounds {n b : Nat} (h : b ∈ natDigitsLE n) : 48 ≤ b ∧ b ≤ 57 := by
  induction n using Nat.strong_induction_on with
  | _ n ih =>
    match n, h with
    | 0, h => simp [natDigitsLE, natDigitsAux] at h
    | m + 1, h =>
      rw [natDigitsLE_succ] at h
      rcases List.mem_cons.mp h with h | h
      · subst h
        have := Nat.mod_lt m.succ (y := 10) (by omega)
        omega
      · exact ih ((m + 1) / 10) (Nat.div_lt_self (Nat.succ_pos m) (by omega)) h

theorem parseDigitsAux_natDigitsLE (n : Nat) : ∀ acc : Nat,
    parseDigitsAux acc (natDigitsLE n).reverse =
      some (acc * 10 ^ (natDigitsLE n).length + n) := by
  induction n using Nat.strong_induction_on with
  | _ n ih =>
    intro acc
    match n with
    | 0 => simp [natDigitsLE, natDigitsAux, parseDigitsAux]
    | m + 1 =>
      rw [natDigitsLE_succ]
      simp only [List.reverse_cons, List.length_cons]
      rw [parseDigitsAux_append, ih ((m + 1) / 10) (Nat.div_lt_self (Nat.succ_pos m) (by omega))]
      have hd : digitVal (48 + (m + 1) % 10) = some ((m + 1) % 10) := by
        have hm : (m + 1) % 10 < 10 := Nat.mod_lt _ (by omega)
        rw [digitVal, if_pos (by omega)]
        congr 1
        omega
      simp only [Option.some_bind, parseDigitsAux, hd, Option.bind_some]
      congr 1
      have h1 : 10 * ((m + 1) / 10) + (m + 1) % 10 = m + 1 := Nat.div_add_mod (m + 1) 10
      calc (acc * 10 ^ (natDigitsLE ((m + 1) / 10)).length + (m + 1) / 10) * 10 + (m + 1) % 10
          = acc * (10 ^ (natDigitsLE ((m + 1) / 10)).length * 10)
              + (10 * ((m + 1) / 10) + (m + 1) % 10) := by ring
        _ = acc * 10 ^ ((natDigitsLE ((m + 1) / 10)).length + 1) + (m + 1) := by
              rw [h1, pow_succ]

theorem parseDigits_natToDec (n : Nat) : parseDigits (natToDec n) = some n := by
  by_cases h : n = 0
  · subst h; decide
  · rw [natToDec, if_neg h]
    have hne : (natDigitsLE n).reverse ≠ [] := by
      match n with
      | m + 1 => rw [natDigitsLE_succ]; simp
    match hl : (natDigitsLE n).reverse with
    | [] => exact absurd hl hne
    | b :: rest =>
      have := parseDigitsAux_natDigitsLE n 0
      rw [hl] at this
      simp only [parseDigitsAux] at this
      simpa [parseDigits, Nat.zero_mul, Nat.zero_add] using this

theorem natToDec_digit {n b : Nat} (h : b ∈ natToDec n) : 48 ≤ b ∧ b ≤ 57 := by
  rw [natToDec] at h
  by_cases h0 : n = 0
  · simp [h0] at h; omega
  · rw [if_neg h0, List.mem_reverse] at h
    exact natDigitsLE_bounds h

theorem parseInt_natToDec (n : Nat) : parseInt (natToDec n) = some (n : Int) := by
  match hl : natToDec n with
  | [] =>
    exfalso
    rw [natToDec] at hl
    by_cases h0 : n = 0
    · simp [h0] at hl
    · rw [if_neg h0] at hl
      match n with
      | m + 1 => rw [natDigitsLE_succ] at hl; simp at hl
  | b :: rest =>
    have hb : 48 ≤ b ∧ b ≤ 57 := natToDec_digit (hl ▸ List.mem_cons_self b rest)
    have := parseDigits_natToDec n
    rw [hl] at this
    rw [parseInt, if_neg (by omega), if_neg (by omega), this]
    rfl

theorem parseInt_intToDec (n : Int) : parseInt (intToDec n) = some n := by
  rw [intToDec]
  by_cases h : n < 0
  · rw [if_pos h]
    simp [parseInt, parseDigits_natToDec]
    rw [abs_of_neg h]
    ring
  · rw [if_neg h, parseInt_natToDec]
    simp only [Option.some.injEq]
    omega

theorem natToDec_no_lf (n : Nat) : 10 ∉ natToDec n := by
  intro h; have := natToDec_digit h; omega

theorem intToDec_no_lf (n : Int) : 10 ∉ intToDec n := by
  rw [intToDec]
  by_cases h : n < 0
  · rw [if_pos h]
    intro hc
    rcases List.mem_cons.mp hc with hc | hc
    · omega
    · exact natToDec_no_lf _ hc
  · rw [if_neg h]; exact natToDec_no_lf _

/-! ### Round-trip lemmas for the RESP parser -/

theorem takeLine_append {l : Bytes} (h : 10 ∉ l) (rest : Bytes) :
    takeLine (l ++ 10 :: rest) = some (l, rest) := by
  induction l with
  | nil => simp [takeLine]
  | cons b tl ih =>
    have hb : b ≠ 10 := fun hc => h (hc ▸ List.mem_cons_self b tl)
    simp [takeLine, hb, ih (fun hc => h (List.mem_cons_of_mem b hc))]

theorem readLine_append {l : Bytes} (h : 10 ∉ l) (rest : Bytes) :
    readLine (l ++ 13 :: 10 :: rest) = some (l, rest) := by
  have h13 : 10 ∉ l ++ [13] := by
    intro hc
    rcases List.mem_append.mp hc with hc | hc
    · exact h hc
    · simp at hc
  have ht : takeLine ((l ++ [13]) ++ 10 :: rest) = some (l ++ [13], rest) :=
    takeLine_append h13 rest
  rw [readLine]
  have : l ++ 13 :: 10 :: rest = (l ++ [13]) ++ 10 :: rest := by simp
  rw [this, ht]
  simp [List.getLast?_concat, List.dropLast_concat]

theorem readN_exact (xs rest : Bytes) : readN xs.length (xs ++ rest) = some (xs, rest) := by
  induction xs with
  | nil => simp [readN]
  | cons b tl ih => simp [readN, ih]

theorem parseBulk_roundtrip (a rest : Bytes) :
    parseBulk (36 :: natToDec a.length) (a ++ 13 :: 10 :: rest) = some (some a, rest) := by
  rw [parseBulk]
  simp only [List.drop_succ_cons, List.drop_zero, parseInt_natToDec, Option.some_bind]
  rw [if_neg (by omega), if_neg (by omega)]
  have hn : ((a.length : Int)).toNat = a.length := Int.toNat_natCast _
  have hlen : (a ++ [13, 10]).length = a.length + 2 := by simp
  have hrn : readN (a.length + 2) ((a ++ [13, 10]) ++ rest) = some (a ++ [13, 10], rest) := by
    rw [← hlen]; exact readN_exact _ _
  have heq : a ++ 13 :: 10 :: rest = (a ++ [13, 10]) ++ rest := by simp
  rw [hn, heq, hrn]
  simp only [Option.some_bind]
  rw [if_pos]
  · rw [List.take_left]
  · constructor
    · rw [List.getElem?_append_right (Nat.le_refl _)]
      simp
    · rw [List.getElem?_append_right (Nat.le_succ_of_le (Nat.le_refl _))]
      simp

theorem parseNBulks_elem (arg : Option Bytes) (rest : Bytes) :
    (readLine (bulkElemBytes arg ++ rest)) =
      some (match arg with
        | none => [36, 45, 49]
        | some a => 36 :: natToDec a.length, match arg with
        | none => rest
        | some a => a ++ 13 :: 10 :: rest) := by
  cases arg with
  | none =>
    have : bulkElemBytes none ++ rest = [36, 45] ++ [49] ++ 13 :: 10 :: rest := by
      simp [bulkElemBytes, CRLF]
    rw [this]
    have h : (10 : Nat) ∉ [36, 45, 49] := by decide
    simpa using readLine_append h rest
  | some a =>
    have : bulkElemBytes (some a) ++ rest =
        (36 :: natToDec a.length) ++ 13 :: 10 :: (a ++ 13 :: 10 :: rest) := by
      simp [bulkElemBytes, CRLF]
    rw [this]
    have h : (10 : Nat) ∉ 36 :: natToDec a.length := by
      intro hc
      rcases List.mem_cons.mp hc with hc | hc
      · omega
      · exact natToDec_no_lf _ hc
    exact readLine_append h _

theorem parseNBulks_roundtrip (args : List (Option Bytes)) (rest : Bytes) :
    parseNBulks args.length ((args.map bulkElemBytes).flatten ++ rest) =
      some (args, rest) := by
  induction args generalizing rest with
  | nil => simp [parseNBulks]
  | cons arg tl ih =>
    simp only [List.length_cons, List.map_cons, List.flatten_cons, List.append_assoc]
    rw [parseNBulks, parseNBulks_elem arg ((tl.map bulkElemBytes).flatten ++ rest)]
    cases arg with
    | none =>
      simp only [Option.some_bind]
      have hpb : parseBulk [36, 45, 49] ((tl.map bulkElemBytes).flatten ++ rest) =
          some (none, (tl.map bulkElemBytes).flatten ++ rest) := by
        rw [parseBulk]
        have : parseInt ([36, 45, 49].drop 1) = some (-1) := by decide
        rw [this]
        simp
      rw [hpb]
      simp [ih rest]
    | some a =>
      simp only [Option.some_bind]
      rw [parseBulk_roundtrip a ((tl.map bulkElemBytes).flatten ++ rest)]
      simp [ih rest]

/-- Well-formedness of a reply for the round-trip property: status and
error text contains no LF byte; the array shape is one of the claim's
shapes (nil bulk, empty or non-empty array, status, error, integer) —
the null array `*-1` is excluded because the Go parser returns it as a
`nil` payload, not as a `MultiBulkReply` value. -/
def Reply.wfShape : Reply → Prop
  | .StatusReply s => 10 ∉ s
  | .ErrorReply s => 10 ∉ s
  | .IntReply _ => True
  | .BulkReply _ => True
  | .MultiBulkReply o => o.isSome

/-- C9: for every well-formed reply of the shapes nil bulk, empty array,
non-empty array of bulks, status, error and integer, parsing the bytes
produced by serializing the reply yields the reply back (and consumes
exactly that reply's bytes): `Parse ∘ Serialize` is the identity. -/
theorem C9_parse_serialize_identity (r : Reply) (rest : Bytes) (h : r.wfShape) :
    parseOne (r.ToBytes ++ rest) = some (some r, rest) := by
  cases r with
  | StatusReply s =>
    have h10 : (10 : Nat) ∉ 43 :: s := by
      intro hc
      rcases List.mem_cons.mp hc with hc | hc
      · omega
      · exact h hc
    have heq : Reply.ToBytes (.StatusReply s) ++ rest = (43 :: s) ++ 13 :: 10 :: rest := by
      simp [Reply.ToBytes, CRLF]
    rw [parseOne, heq, readLine_append h10]
    simp [parseLine]
  | ErrorReply s =>
    have h10 : (10 : Nat) ∉ 45 :: s := by
      intro hc
      rcases List.mem_cons.mp hc with hc | hc
      · omega
      · exact h hc
    have heq : Reply.ToBytes (.ErrorReply s) ++ rest = (45 :: s) ++ 13 :: 10 :: rest := by
      simp [Reply.ToBytes, CRLF]
    rw [parseOne, heq, readLine_append h10]
    simp [parseLine]
  | IntReply n =>
    have h10 : (10 : Nat) ∉ 58 :: intToDec n := by
      intro hc
      rcases List.mem_cons.mp hc with hc | hc
      · omega
      · exact intToDec_no_lf n hc
    have heq : Reply.ToBytes (.IntReply n) ++ rest = (58 :: intToDec n) ++ 13 :: 10 :: rest := by
      simp [Reply.ToBytes, CRLF]
    rw [parseOne, heq, readLine_append h10]
    simp [parseLine, parseInt_intToDec]
  | BulkReply arg =>
    have heq : Reply.ToBytes (.BulkReply arg) ++ rest = bulkElemBytes arg ++ rest := rfl
    rw [parseOne, heq, parseNBulks_elem arg rest]
    cases arg with
    | none =>
      have hpb : parseBulk [36, 45, 49] rest = some (none, rest) := by
        rw [parseBulk]
        have : parseInt ([36, 45, 49].drop 1) = some (-1) := by decide
        rw [this]
        simp
      simp [parseLine, hpb]
    | some a =>
      simp [parseLine, parseBulk_roundtrip]
  | MultiBulkReply o =>
    cases o with
    | none => simp [Reply.wfShape] at h
    | some args =>
      have h10 : (10 : Nat) ∉ 42 :: natToDec args.length := by
        intro hc
        rcases List.mem_cons.mp hc with hc | hc
        · omega
        · exact natToDec_no_lf _ hc
      have heq : Reply.ToBytes (.MultiBulkReply (some args)) ++ rest =
          (42 :: natToDec args.length) ++
            13 :: 10 :: ((args.map bulkElemBytes).flatten ++ rest) := by
        simp [Reply.ToBytes, CRLF]
      rw [parseOne, heq, readLine_append h10]
      simp only [Option.some_bind]
      have hdisp : parseLine (42 :: natToDec args.length)
            ((args.map bulkElemBytes).flatten ++ rest) =
          parseArray (42 :: natToDec args.length)
            ((args.map bulkElemBytes).flatten ++ rest) := by
        simp [parseLine]
      rw [hdisp, parseArray]
      simp only [List.drop_succ_cons, List.drop_zero, parseInt_natToDec, Option.some_bind]
      rw [if_neg (by omega), if_neg (by omega), Int.toNat_natCast,
        parseNBulks_roundtrip]
      rfl

/-- Witness for C9 at a concrete non-empty array of bulks. -/
theorem C9_parse_serialize_identity_witness :
    (Reply.MultiBulkReply (some [some (bs "foo"), none])).wfShape ∧
      parseOne ((Reply.MultiBulkReply (some [some (bs "foo"), none])).ToBytes ++ bs "x") =
        some (some (Reply.MultiBulkReply (some [some (bs "foo"), none])), bs "x") :=
  ⟨by simp [Reply.wfShape],
   C9_parse_serialize_identity (Reply.MultiBulkReply (some [some (bs "foo"), none]))
     (bs "x") (by simp [Reply.wfShape])⟩

/-! ### Value variants (`db/types.go`)

Go's `HashData` (`map[string][]byte`) and `SetData` (`map[string]struct{}`)
are modelled as association lists / lists in insertion order; Go map
iteration order is unspecified, and every byte-level consumer in the
sources sorts before emitting, so the list order never reaches an output. -/

inductive DataEntity where
  | StringData (s : Bytes)
  | ListData (l : List Bytes)
  | HashData (h : List (Bytes × Bytes))
  | SetData (s : List Bytes)
deriving DecidableEq, Repr

/-- `Len` from `db/types.go`: the size estimate of a value (string: byte
length; containers: content bytes plus 16 bytes per element overhead). -/
def DataEntity.Len : DataEntity → Nat
  | .StringData s => s.length
  | .ListData l => (l.map (fun b => b.length + 16)).sum
  | .HashData h => (h.map (fun p => p.1.length + p.2.length + 16)).sum
  | .SetData s => (s.map (fun k => k.length + 16)).sum

/-! ### Eviction cache contract (`pkg/lru` interface file) -/

inductive RemoveReason where
  | RemoveReasonEvicted
  | RemoveReasonExpired
  | RemoveReasonDeleted
  | RemoveReasonCleared
deriving DecidableEq, Repr

/-- One firing of the removal callback `OnRemoveFunc` (key and reason; the
value argument is unused by the database's callback `onEvicted`). -/
abbrev RemovalEvent := Bytes × RemoveReason

/-! ### LRU cache (`pkg/lru` LRU implementation)

The doubly linked recency list plus key map become a single list of
entries, most recently used first; `nbytes` is carried explicitly exactly
as in the source.  Cache operations return the list of removal-callback
events they fired, in order, instead of invoking a Go closure.  The
background `expirationLoop` goroutine (internal TTL heap) is a separate
thread and is not part of the single-writer execution modelled here; the
in-line lazy checks on `expiresAt` in `Get`/`Peek` are modelled. -/

structure LruEntry where
  key : Bytes
  value : DataEntity
  expiresAt : Int
deriving DecidableEq, Repr

namespace Lru

structure Cache where
  maxBytes : Int
  nbytes : Int
  entries : List LruEntry
deriving DecidableEq, Repr

/-- `lru.New`: empty cache with the given byte budget. -/
def New (maxBytes : Int) : Cache := ⟨maxBytes, 0, []⟩

/-- The bytes charged for one entry (`len(key) + value.Len()`). -/
def entrySize (e : LruEntry) : Int := e.key.length + e.value.Len

/-- `removeEntry` acting on the entry holding `key`: unlink, subtract its
size, and fire the callback with the given reason. -/
def Cache.removeKey (c : Cache) (key : Bytes) (reason : RemoveReason) :
    Cache × List RemovalEvent :=
  match c.entries.find? (fun e => e.key == key) with
  | none => (c, [])
  | some e =>
    ({ c with entries := c.entries.eraseP (fun e => e.key == key),
              nbytes := c.nbytes - entrySize e }, [(key, reason)])

/-- `RemoveOldest`: drop the entry at the back of the recency list,
firing the callback with reason *evicted*. -/
def Cache.RemoveOldest (c : Cache) : Cache × List RemovalEvent :=
  match c.entries.getLast? with
  | none => (c, [])
  | some e =>
    ({ c with entries := c.entries.dropLast, nbytes := c.nbytes - entrySize e },
     [(e.key, .RemoveReasonEvicted)])

/-- The `for c.maxBytes != 0 && c.maxBytes < c.nbytes { c.RemoveOldest() }`
loop at the end of `Add`, unrolled on fuel (each iteration removes one
entry, so `entries.length` units of fuel are always enough; with an empty
cache the Go loop would spin forever, which is unreachable because
`nbytes` is then 0). -/
def Cache.evictLoopFuel : Nat → Cache → Cache × List RemovalEvent
  | 0, c => (c, [])
  | fuel + 1, c =>
    if c.maxBytes ≠ 0 ∧ c.maxBytes < c.nbytes then
      match c.entries.getLast? with
      | none => (c, [])
      | some _ =>
        let p := c.RemoveOldest
        let q := Cache.evictLoopFuel fuel p.1
        (q.1, p.2 ++ q.2)
    else (c, [])

def Cache.evictLoop (c : Cache) : Cache × List RemovalEvent :=
  Cache.evictLoopFuel c.entries.length c

/-- `Add` from the LRU implementation: update-and-move-to-front or insert
at front, adjust `nbytes`, then evict while over budget. -/
def Cache.Add (c : Cache) (key : Bytes) (value : DataEntity) (ttl : Int) (now : Int) :
    Cache × List RemovalEvent :=
  let expiresAt : Int := if ttl > 0 then now + ttl else 0
  let c1 :=
    match c.entries.find? (fun e => e.key == key) with
    | some e =>
      { c with
        entries := ⟨key, value, expiresAt⟩ :: c.entries.eraseP (fun e => e.key == key),
        nbytes := c.nbytes + (value.Len : Int) - (e.value.Len : Int) }
    | none =>
      { c with
        entries := ⟨key, value, expiresAt⟩ :: c.entries,
        nbytes := c.nbytes + (key.length : Int) + (value.Len : Int) }
  c1.evictLoop

/-- `Get`: lookup with lazy internal expiry and move-to-front. -/
def Cache.Get (c : Cache) (key : Bytes) (now : Int) :
    Option DataEntity × Cache × List RemovalEvent :=
  match c.entries.find? (fun e => e.key == key) with
  | none => (none, c, [])
  | some e =>
    if e.expiresAt > 0 ∧ e.expiresAt < now then
      let p := c.removeKey key .RemoveReasonExpired
      (none, p.1, p.2)
    else
      (some e.value,
       { c with entries := e :: c.entries.eraseP (fun x => x.key == key) }, [])

/-- `Peek`: lookup with lazy internal expiry, without touching the
recency order. -/
def Cache.Peek (c : Cache) (key : Bytes) (now : Int) :
    Option DataEntity × Cache × List RemovalEvent :=
  match c.entries.find? (fun e => e.key == key) with
  | none => (none, c, [])
  | some e =>
    if e.expiresAt > 0 ∧ e.expiresAt < now then
      let p := c.removeKey key .RemoveReasonExpired
      (none, p.1, p.2)
    else
      (some e.value, c, [])

/-- `Remove`: explicit removal, callback reason *deleted*. -/
def Cache.Remove (c : Cache) (key : Bytes) : Cache × List RemovalEvent :=
  c.removeKey key .RemoveReasonDeleted

/-- `Len`. -/
def Cache.Len (c : Cache) : Nat := c.entries.length

/-- Tracked-total correctness: `nbytes` equals the sum of the entries'
charged sizes. -/
def Cache.SizeInv (c : Cache) : Prop := c.nbytes = (c.entries.map entrySize).sum

end Lru

/-! ### Generic list accounting lemmas -/

theorem sum_map_eraseP {α} (f : α → Int) (p : α → Bool) :
    ∀ (l : List α) (e : α), l.find? p = some e →
      (l.map f).sum = f e + ((l.eraseP p).map f).sum := by
  intro l
  induction l with
  | nil => intro e h; simp [List.find?] at h
  | cons a tl ih =>
    intro e h
    by_cases hp : p a
    · rw [List.find?_cons_of_pos _ hp] at h
      cases h
      rw [List.eraseP_cons_of_pos hp]
      simp
    · rw [List.find?_cons_of_neg _ hp] at h
      rw [List.eraseP_cons_of_neg hp]
      simp only [List.map_cons, List.sum_cons, ih e h]
      ring

theorem length_eraseP_of_find? {α} {p : α → Bool} {l : List α} {e : α}
    (h : l.find? p = some e) : (l.eraseP p).length + 1 = l.length := by
  have hm := List.mem_of_find?_eq_some h
  have hp := List.find?_some h
  have := List.length_eraseP_of_mem hm hp
  have hpos : 0 < l.length := List.length_pos.mpr (by rintro rfl; simp at hm)
  omega

namespace Lru

theorem entrySize_nonneg (e : LruEntry) : 0 ≤ entrySize e := by
  simp only [entrySize]
  positivity

theorem sum_entries_nonneg (l : List LruEntry) : 0 ≤ (l.map entrySize).sum := by
  apply List.sum_nonneg
  intro x hx
  rcases List.mem_map.mp hx with ⟨e, _, rfl⟩
  exact entrySize_nonneg e

theorem removeKey_sizeInv {c : Cache} (h : c.SizeInv) (key : Bytes)
    (reason : RemoveReason) : (c.removeKey key reason).1.SizeInv := by
  rw [Cache.removeKey]
  cases hf : c.entries.find? (fun e => e.key == key) with
  | none => exact h
  | some e =>
    simp only [Cache.SizeInv] at h ⊢
    rw [h, sum_map_eraseP entrySize _ c.entries e hf]
    ring

theorem removeKey_maxBytes (c : Cache) (key : Bytes) (reason : RemoveReason) :
    (c.removeKey key reason).1.maxBytes = c.maxBytes := by
  rw [Cache.removeKey]
  cases c.entries.find? (fun e => e.key == key) with
  | none => rfl
  | some _ => rfl

theorem RemoveOldest_sizeInv {c : Cache} (h : c.SizeInv) :
    (c.RemoveOldest).1.SizeInv := by
  rw [Cache.RemoveOldest]
  cases hl : c.entries.getLast? with
  | none => exact h
  | some e =>
    have hne : c.entries ≠ [] := by
      intro hc; rw [hc] at hl; simp at hl
    have hsplit : c.entries.dropLast ++ [c.entries.getLast hne] = c.entries :=
      List.dropLast_append_getLast hne
    have he : c.entries.getLast hne = e := by
      have := List.getLast?_eq_getLast c.entries hne
      rw [this] at hl
      exact (Option.some.injEq _ _ ▸ hl :)
    simp only [Cache.SizeInv] at h ⊢
    rw [h]
    conv_lhs => rw [← hsplit]
    rw [he]
    simp

theorem RemoveOldest_maxBytes (c : Cache) :
    (c.RemoveOldest).1.maxBytes = c.maxBytes := by
  rw [Cache.RemoveOldest]
  cases c.entries.getLast? with
  | none => rfl
  | some _ => rfl

theorem evictLoopFuel_sizeInv : ∀ (fuel : Nat) (c : Cache), c.SizeInv →
    (Cache.evictLoopFuel fuel c).1.SizeInv := by
  intro fuel
  induction fuel with
  | zero => intro c h; exact h
  | succ fuel ih =>
    intro c h
    rw [Cache.evictLoopFuel]
    split
    · cases hl : c.entries.getLast? with
      | none => exact h
      | some e => exact ih _ (RemoveOldest_sizeInv h)
    · exact h

theorem evictLoopFuel_maxBytes : ∀ (fuel : Nat) (c : Cache),
    (Cache.evictLoopFuel fuel c).1.maxBytes = c.maxBytes := by
  intro fuel
  induction fuel with
  | zero => intro c; rfl
  | succ fuel ih =>
    intro c
    rw [Cache.evictLoopFuel]
    split
    · cases hl : c.entries.getLast? with
      | none => rfl
      | some e => rw [ih, RemoveOldest_maxBytes]
    · rfl

theorem evictLoopFuel_budget : ∀ (fuel : Nat) (c : Cache),
    c.entries.length ≤ fuel → c.SizeInv → 0 < c.maxBytes →
    (Cache.evictLoopFuel fuel c).1.nbytes ≤ c.maxBytes := by
  intro fuel
  induction fuel with
  | zero =>
    intro c hlen h hpos
    have hnil : c.entries = [] := by
      cases hc : c.entries with
      | nil => rfl
      | cons a tl => rw [hc] at hlen; simp at hlen
    rw [Cache.SizeInv, hnil] at h
    simp at h
    show c.nbytes ≤ c.maxBytes
    omega
  | succ fuel ih =>
    intro c hlen h hpos
    rw [Cache.evictLoopFuel]
    split
    · rename_i hcond
      cases hl : c.entries.getLast? with
      | none =>
        exfalso
        have hnil : c.entries = [] := by
          cases hc : c.entries with
          | nil => rfl
          | cons a tl => rw [hc] at hl; simp [List.getLast?] at hl
        rw [Cache.SizeInv, hnil] at h
        simp at h
        omega
      | some e =>
        have hne : c.entries ≠ [] := by
          intro hc; rw [hc] at hl; simp at hl
        have hlt : (c.RemoveOldest).1.entries.length + 1 = c.entries.length := by
          rw [Cache.RemoveOldest, hl]
          simp only [List.length_dropLast]
          have : 0 < c.entries.length := List.length_pos.mpr hne
          omega
        have := ih _ (by omega) (RemoveOldest_sizeInv h)
          (by rw [RemoveOldest_maxBytes]; exact hpos)
        rw [RemoveOldest_maxBytes] at this
        exact this
    · rename_i hcond
      push_neg at hcond
      exact hcond (by omega)

theorem evictLoop_sizeInv {c : Cache} (h : c.SizeInv) : (c.evictLoop).1.SizeInv :=
  evictLoopFuel_sizeInv _ _ h

theorem evictLoop_maxBytes (c : Cache) : (c.evictLoop).1.maxBytes = c.maxBytes :=
  evictLoopFuel_maxBytes _ _

theorem evictLoop_budget {c : Cache} (h : c.SizeInv) (hpos : 0 < c.maxBytes) :
    (c.evictLoop).1.nbytes ≤ c.maxBytes :=
  evictLoopFuel_budget _ _ (Nat.le_refl _) h hpos

/-- After `Add` with a positive byte budget, the tracked total is within
the budget (the body either already fits or is evicted down to fit; an
over-budget singleton is evicted too, leaving the empty cache at 0). -/
theorem Add_budget {c : Cache} (h : c.SizeInv) (hpos : 0 < c.maxBytes)
    (key : Bytes) (value : DataEntity) (ttl now : Int) :
    ((c.Add key value ttl now).1).nbytes ≤ c.maxBytes := by
  rw [Cache.Add]
  cases hf : c.entries.find? (fun e => e.key == key) with
  | some e =>
    apply evictLoop_budget
    · simp only [Cache.SizeInv] at h ⊢
      simp only [List.map_cons, List.sum_cons]
      rw [h, sum_map_eraseP entrySize _ c.entries e hf]
      have hk : e.key = key := by
        have := List.find?_some hf
        simpa using this
      simp only [entrySize, ← hk]
      ring
    · exact hpos
  | none =>
    apply evictLoop_budget
    · simp only [Cache.SizeInv] at h ⊢
      simp only [List.map_cons, List.sum_cons]
      rw [h]
      simp only [entrySize]
      ring
    · exact hpos

theorem Add_sizeInv {c : Cache} (h : c.SizeInv) (key : Bytes)
    (value : DataEntity) (ttl now : Int) : ((c.Add key value ttl now).1).SizeInv := by
  rw [Cache.Add]
  cases hf : c.entries.find? (fun e => e.key == key) with
  | some e =>
    apply evictLoop_sizeInv
    simp only [Cache.SizeInv] at h ⊢
    simp only [List.map_cons, List.sum_cons]
    rw [h, sum_map_eraseP entrySize _ c.entries e hf]
    have hk : e.key = key := by
      have := List.find?_some hf
      simpa using this
    simp only [entrySize, ← hk]
    ring
  | none =>
    apply evictLoop_sizeInv
    simp only [Cache.SizeInv] at h ⊢
    simp only [List.map_cons, List.sum_cons]
    rw [h]
    simp only [entrySize]
    ring

theorem Get_sizeInv {c : Cache} (h : c.SizeInv) (key : Bytes) (now : Int) :
    ((c.Get key now).2.1).SizeInv := by
  rw [Cache.Get]
  cases hf : c.entries.find? (fun e => e.key == key) with
  | none => exact h
  | some e =>
    dsimp only
    by_cases hexp : e.expiresAt > 0 ∧ e.expiresAt < now
    · rw [if_pos hexp]
      exact removeKey_sizeInv h key .RemoveReasonExpired
    · rw [if_neg hexp]
      simp only [Cache.SizeInv] at h ⊢
      simp only [List.map_cons, List.sum_cons]
      rw [h, sum_map_eraseP entrySize _ c.entries e hf]

theorem Peek_sizeInv {c : Cache} (h : c.SizeInv) (key : Bytes) (now : Int) :
    ((c.Peek key now).2.1).SizeInv := by
  rw [Cache.Peek]
  cases hf : c.entries.find? (fun e => e.key == key) with
  | none => exact h
  | some e =>
    dsimp only
    by_cases hexp : e.expiresAt > 0 ∧ e.expiresAt < now
    · rw [if_pos hexp]
      exact removeKey_sizeInv h key .RemoveReasonExpired
    · rw [if_neg hexp]
      exact h

theorem Remove_sizeInv {c : Cache} (h : c.SizeInv) (key : Bytes) :
    ((c.Remove key).1).SizeInv := removeKey_sizeInv h key .RemoveReasonDeleted

/-- Cache states reachable from `New` through the public operations. -/
inductive Reachable : Cache → Prop where
  | new : ∀ maxBytes, Reachable (New maxBytes)
  | add : ∀ c key value ttl now, Reachable c → Reachable ((c.Add key value ttl now).1)
  | get : ∀ c key now, Reachable c → Reachable ((c.Get key now).2.1)
  | peek : ∀ c key now, Reachable c → Reachable ((c.Peek key now).2.1)
  | remove : ∀ c key, Reachable c → Reachable ((c.Remove key).1)

theorem reachable_sizeInv {c : Cache} (h : Reachable c) : c.SizeInv := by
  induction h with
  | new maxBytes => rfl
  | add c key value ttl now _ ih => exact Add_sizeInv ih key value ttl now
  | get c key now _ ih => exact Get_sizeInv ih key now
  | peek c key now _ ih => exact Peek_sizeInv ih key now
  | remove c key _ ih => exact Remove_sizeInv ih key

end Lru

/-! ### LFU cache (`LFUCache`)

The Go implementation keeps one doubly linked list per frequency
(`buckets : map[int]*list.List`) with the most recently touched entry at
the bucket front, plus a `minFreq` cursor.  An entry sits at the front of
its bucket exactly when it was touched (inserted or incremented) most
recently among that bucket's entries, so the buckets are modelled by one
global list ordered by last touch (front = most recent); the bucket for
frequency `f` is the subsequence of items with `freq = f`, with the same
relative order as the Go bucket list.  `nbytes` and `minFreq` are carried
exactly as in the source. -/

structure LfuEntry where
  key : Bytes
  value : DataEntity
  freq : Nat
  expiresAt : Int
deriving DecidableEq, Repr

structure LFUCache where
  maxBytes : Int
  nbytes : Int
  items : List LfuEntry
  minFreq : Nat
deriving DecidableEq, Repr

/-- `NewLFU`. -/
def NewLFU (maxBytes : Int) : LFUCache := ⟨maxBytes, 0, [], 0⟩

/-- Bytes charged for one LFU entry (`len(key) + value.Len()`). -/
def lfuEntrySize (e : LfuEntry) : Int := e.key.length + e.value.Len

/-- The bucket for frequency `f`: items with that frequency, most
recently touched first. -/
def LFUCache.bucket (c : LFUCache) (f : Nat) : List LfuEntry :=
  c.items.filter (fun x => x.freq == f)

/-- `recalculateMinFreq`: fold Go's
`if c.minFreq == 0 || f < c.minFreq { c.minFreq = f }` over the
(nonempty) buckets; in the flattened model every item's frequency is
offered (duplicates do not change the result). -/
def recalculateMinFreq (items : List LfuEntry) : Nat :=
  items.foldl (fun acc e => if acc = 0 ∨ e.freq < acc then e.freq else acc) 0

/-- `increment`: move the entry for `key` from bucket `f` to the front of
bucket `f+1`; if its old bucket empties while `minFreq` pointed there,
advance `minFreq`. -/
def LFUCache.increment (c : LFUCache) (key : Bytes) : LFUCache :=
  match c.items.find? (fun x => x.key == key) with
  | none => c
  | some e =>
    let rest := c.items.eraseP (fun x => x.key == key)
    let minFreq' :=
      if (rest.filter (fun x => x.freq == e.freq)).isEmpty ∧ c.minFreq = e.freq then
        e.freq + 1
      else c.minFreq
    { c with items := { e with freq := e.freq + 1 } :: rest, minFreq := minFreq' }

/-- `removeEntry`: unlink the entry for `key` from its bucket and the item
map, fix up `minFreq` as the source does, subtract its size, and fire the
callback with the given reason. -/
def LFUCache.removeEntry (c : LFUCache) (key : Bytes) (reason : RemoveReason) :
    LFUCache × List RemovalEvent :=
  match c.items.find? (fun x => x.key == key) with
  | none => (c, [])
  | some e =>
    let rest := c.items.eraseP (fun x => x.key == key)
    let minFreq' :=
      if (rest.filter (fun x => x.freq == e.freq)).isEmpty ∧ c.minFreq = e.freq then
        if c.items.length = 1 then 0
        else if (rest.filter (fun x => x.freq == e.freq + 1)).isEmpty then
          recalculateMinFreq rest
        else e.freq + 1
      else c.minFreq
    ({ c with items := rest, nbytes := c.nbytes - lfuEntrySize e, minFreq := minFreq' },
     [(key, reason)])

/-- The `minFreq` walk in `evictOne`: step upward while the bucket is
empty; after more than 1,000,000 steps the source bails out to
`recalculateMinFreq` (defensive guard against a dead cursor). -/
def bucketSearchAux (items : List LfuEntry) : Nat → Nat → Nat
  | _, 0 => recalculateMinFreq items
  | f, fuel + 1 =>
    if (items.filter (fun x => x.freq == f)).isEmpty then
      bucketSearchAux items (f + 1) fuel
    else f

/-- `evictOne`: evict the least recently used entry of the lowest
nonempty frequency bucket (reason *evicted*). -/
def LFUCache.evictOne (c : LFUCache) : LFUCache × List RemovalEvent :=
  if c.items.isEmpty then ({ c with minFreq := 0 }, [])
  else
    let f := bucketSearchAux c.items c.minFreq 1000001
    let c' := { c with minFreq := f }
    match (c'.bucket f).getLast? with
    | none => (c', [])
    | some e => c'.removeEntry e.key .RemoveReasonEvicted

/-- The `for c.maxBytes != 0 && c.nbytes > c.maxBytes { c.evictOne() }`
loop at the end of `Add`, unrolled on fuel (under the cache invariant
`evictOne` removes one item per iteration while the condition holds, so
`items.length` units of fuel are always enough, and exhausted fuel means
the Go loop would spin forever on a state this model proves unreachable). -/
def LFUCache.lfuEvictLoopFuel : Nat → LFUCache → LFUCache × List RemovalEvent
  | 0, c => (c, [])
  | fuel + 1, c =>
    if c.maxBytes ≠ 0 ∧ c.maxBytes < c.nbytes then
      let p := c.evictOne
      let q := LFUCache.lfuEvictLoopFuel fuel p.1
      (q.1, p.2 ++ q.2)
    else (c, [])

def LFUCache.lfuEvictLoop (c : LFUCache) : LFUCache × List RemovalEvent :=
  LFUCache.lfuEvictLoopFuel c.items.length c

/-- `LFUCache.Add`: update value (a write also counts as a touch, so the
frequency is incremented) or insert at frequency 1, adjust `nbytes`,
then evict while over budget. -/
def LFUCache.Add (c : LFUCache) (key : Bytes) (value : DataEntity) (ttl now : Int) :
    LFUCache × List RemovalEvent :=
  let expiresAt : Int := if ttl > 0 then now + ttl else 0
  let c1 :=
    match c.items.find? (fun x => x.key == key) with
    | some e =>
      ({ c with
         nbytes := c.nbytes + (value.Len : Int) - (e.value.Len : Int),
         items := c.items.map (fun x : LfuEntry =>
           if x.key == key then { x with value := value, expiresAt := expiresAt } else x)
       }).increment key
    | none =>
      { c with
        items := ⟨key, value, 1, expiresAt⟩ :: c.items,
        nbytes := c.nbytes + (key.length : Int) + (value.Len : Int),
        minFreq := 1 }
  c1.lfuEvictLoop

/-- `LFUCache.Get`: lookup with lazy expiry; a hit increments the
frequency. -/
def LFUCache.Get (c : LFUCache) (key : Bytes) (now : Int) :
    Option DataEntity × LFUCache × List RemovalEvent :=
  match c.items.find? (fun x => x.key == key) with
  | none => (none, c, [])
  | some e =>
    if e.expiresAt > 0 ∧ e.expiresAt < now then
      let p := c.removeEntry key .RemoveReasonExpired
      (none, p.1, p.2)
    else (some e.value, c.increment key, [])

/-- `LFUCache.Peek`: lookup without touching frequency or order. -/
def LFUCache.Peek (c : LFUCache) (key : Bytes) (now : Int) :
    Option DataEntity × LFUCache × List RemovalEvent :=
  match c.items.find? (fun x => x.key == key) with
  | none => (none, c, [])
  | some e =>
    if e.expiresAt > 0 ∧ e.expiresAt < now then
      let p := c.removeEntry key .RemoveReasonExpired
      (none, p.1, p.2)
    else (some e.value, c, [])

/-- `LFUCache.Remove`: explicit removal, reason *deleted*. -/
def LFUCache.Remove (c : LFUCache) (key : Bytes) : LFUCache × List RemovalEvent :=
  c.removeEntry key .RemoveReasonDeleted

/-- `LFUCache.Len`. -/
def LFUCache.Len (c : LFUCache) : Nat := c.items.length

/-- Tracked-total correctness for the LFU cache. -/
def LFUCache.SizeInv (c : LFUCache) : Prop :=
  c.nbytes = (c.items.map lfuEntrySize).sum

/-- Structural invariant: the byte total is the sum of the entry sizes,
keys are distinct (the Go item map), and frequencies start at 1. -/
def LFUCache.Inv (c : LFUCache) : Prop :=
  c.SizeInv ∧ c.items.Pairwise (fun a b => a.key ≠ b.key) ∧ ∀ e ∈ c.items, 1 ≤ e.freq

theorem lfuEntrySize_nonneg (e : LfuEntry) : 0 ≤ lfuEntrySize e := by
  simp only [lfuEntrySize]
  positivity

theorem lfu_sum_nonneg (l : List LfuEntry) : 0 ≤ (l.map lfuEntrySize).sum := by
  apply List.sum_nonneg
  intro x hx
  rcases List.mem_map.mp hx with ⟨e, _, rfl⟩
  exact lfuEntrySize_nonneg e

/-- Erasing the first entry with key `k` from a duplicate-free list
leaves no entry with key `k`. -/
theorem eraseP_no_key {l : List LfuEntry} {k : Bytes}
    (hp : l.Pairwise (fun a b => a.key ≠ b.key)) :
    ∀ x ∈ l.eraseP (fun x => x.key == k), x.key ≠ k ∨
      l.find? (fun x => x.key == k) = none := by
  induction l with
  | nil => intro x hx; simp at hx
  | cons a tl ih =>
    intro x hx
    by_cases ha : a.key = k
    · rw [List.eraseP_cons_of_pos (by simpa using ha)] at hx
      left
      have := (List.pairwise_cons.mp hp).1 x hx
      rw [ha] at this
      exact fun hc => this hc.symm
    · rw [List.eraseP_cons_of_neg (by simpa using ha)] at hx
      rcases List.mem_cons.mp hx with rfl | hx
      · exact .inl ha
      · rcases ih (List.pairwise_cons.mp hp).2 x hx with h | h
        · exact .inl h
        · right
          rw [List.find?_cons_of_neg _ (by simpa using ha)]
          exact h

/-- In a duplicate-free list where `find?` located `e`, the erased list
has no entry with the searched key. -/
theorem eraseP_no_key_of_find? {l : List LfuEntry} {k : Bytes} {e : LfuEntry}
    (hp : l.Pairwise (fun a b => a.key ≠ b.key))
    (hf : l.find? (fun x => x.key == k) = some e) :
    ∀ x ∈ l.eraseP (fun x => x.key == k), x.key ≠ k := by
  intro x hx
  rcases eraseP_no_key hp x hx with h | h
  · exact h
  · rw [hf] at h; cases h

theorem increment_sizeInv {c : LFUCache} (h : c.SizeInv) (k : Bytes) :
    (c.increment k).SizeInv := by
  rw [LFUCache.increment]
  cases hf : c.items.find? (fun x => x.key == k) with
  | none => exact h
  | some e =>
    simp only [LFUCache.SizeInv] at h ⊢
    simp only [List.map_cons, List.sum_cons]
    rw [h, sum_map_eraseP lfuEntrySize _ c.items e hf]
    simp [lfuEntrySize]

theorem increment_inv {c : LFUCache} (h : c.Inv) (k : Bytes) :
    (c.increment k).Inv := by
  obtain ⟨hs, hp, hfreq⟩ := h
  rw [LFUCache.increment]
  cases hf : c.items.find? (fun x => x.key == k) with
  | none => exact ⟨hs, hp, hfreq⟩
  | some e =>
    refine ⟨?_, ?_, ?_⟩
    · simp only [LFUCache.SizeInv] at hs ⊢
      simp only [List.map_cons, List.sum_cons]
      rw [hs, sum_map_eraseP lfuEntrySize _ c.items e hf]
      simp [lfuEntrySize]
    · refine List.pairwise_cons.mpr ⟨?_, ?_⟩
      · intro x hx
        have hx' := eraseP_no_key_of_find? hp hf x hx
        have hek : e.key = k := by simpa using List.find?_some hf
        simp only [hek]
        exact fun hc => hx' hc.symm
      · exact List.Pairwise.sublist (List.eraseP_sublist _) hp
    · intro x hx
      rcases List.mem_cons.mp hx with rfl | hx
      · simp
      · exact hfreq x (List.mem_of_mem_eraseP hx)

theorem increment_nbytes (c : LFUCache) (k : Bytes) :
    (c.increment k).nbytes = c.nbytes := by
  rw [LFUCache.increment]
  cases c.items.find? (fun x => x.key == k) with
  | none => rfl
  | some e => rfl

theorem increment_maxBytes (c : LFUCache) (k : Bytes) :
    (c.increment k).maxBytes = c.maxBytes := by
  rw [LFUCache.increment]
  cases c.items.find? (fun x => x.key == k) with
  | none => rfl
  | some e => rfl

theorem removeEntry_inv {c : LFUCache} (h : c.Inv) (k : Bytes) (reason : RemoveReason) :
    ((c.removeEntry k reason).1).Inv := by
  obtain ⟨hs, hp, hfreq⟩ := h
  rw [LFUCache.removeEntry]
  cases hf : c.items.find? (fun x => x.key == k) with
  | none => exact ⟨hs, hp, hfreq⟩
  | some e =>
    refine ⟨?_, ?_, ?_⟩
    · simp only [LFUCache.SizeInv] at hs ⊢
      rw [hs, sum_map_eraseP lfuEntrySize _ c.items e hf]
      ring
    · exact List.Pairwise.sublist (List.eraseP_sublist _) hp
    · intro x hx
      exact hfreq x (List.mem_of_mem_eraseP hx)

theorem removeEntry_maxBytes (c : LFUCache) (k : Bytes) (reason : RemoveReason) :
    ((c.removeEntry k reason).1).maxBytes = c.maxBytes := by
  rw [LFUCache.removeEntry]
  cases c.items.find? (fun x => x.key == k) with
  | none => rfl
  | some e => rfl

theorem recalc_fold_spec (l : List LfuEntry) (hfreq : ∀ e ∈ l, 1 ≤ e.freq) :
    ∀ acc : Nat, 1 ≤ acc →
    l.foldl (fun acc e => if acc = 0 ∨ e.freq < acc then e.freq else acc) acc = acc ∨
      ∃ e ∈ l, l.foldl (fun acc e => if acc = 0 ∨ e.freq < acc then e.freq else acc) acc
        = e.freq := by
  induction l with
  | nil => intro acc _; left; rfl
  | cons a tl ih =>
    intro acc hacc
    have hftl : ∀ e ∈ tl, 1 ≤ e.freq := fun e he => hfreq e (by simp [he])
    have hfa : 1 ≤ a.freq := hfreq a (by simp)
    simp only [List.foldl_cons]
    by_cases hc : acc = 0 ∨ a.freq < acc
    · rw [if_pos hc]
      rcases ih hftl a.freq hfa with h | ⟨e, he, h⟩
      · right; exact ⟨a, by simp, h⟩
      · right; exact ⟨e, by simp [he], h⟩
    · rw [if_neg hc]
      rcases ih hftl acc hacc with h | ⟨e, he, h⟩
      · left; exact h
      · right; exact ⟨e, by simp [he], h⟩

/-- On a nonempty item list with positive frequencies,
`recalculateMinFreq` returns the frequency of some item, so that item's
bucket is nonempty. -/
theorem recalc_mem {l : List LfuEntry} (hne : l ≠ [])
    (hfreq : ∀ e ∈ l, 1 ≤ e.freq) :
    ∃ e ∈ l, recalculateMinFreq l = e.freq := by
  match l, hne with
  | a :: tl, _ =>
    have hfa : 1 ≤ a.freq := hfreq a (by simp)
    have hftl : ∀ e ∈ tl, 1 ≤ e.freq := fun e he => hfreq e (by simp [he])
    rw [recalculateMinFreq]
    simp only [List.foldl_cons, if_pos (Or.inl rfl)]
    rcases recalc_fold_spec tl hftl a.freq hfa with h | ⟨e, he, h⟩
    · exact ⟨a, by simp, h⟩
    · exact ⟨e, by simp [he], h⟩

/-- The `minFreq` walk always lands on a nonempty bucket when there are
items (the fuel-exhausted fallback recalculates the true minimum). -/
theorem bucketSearch_nonempty {l : List LfuEntry} (hne : l ≠ [])
    (hfreq : ∀ e ∈ l, 1 ≤ e.freq) :
    ∀ (fuel f : Nat), l.filter (fun x => x.freq == bucketSearchAux l f fuel) ≠ [] := by
  intro fuel
  induction fuel with
  | zero =>
    intro f
    rw [bucketSearchAux]
    rcases recalc_mem hne hfreq with ⟨e, he, hr⟩
    intro hc
    have : e ∈ l.filter (fun x => x.freq == recalculateMinFreq l) :=
      List.mem_filter.mpr ⟨he, by simp [hr]⟩
    rw [hc] at this
    simp at this
  | succ fuel ih =>
    intro f
    rw [bucketSearchAux]
    by_cases hc : (l.filter (fun x => x.freq == f)).isEmpty
    · rw [if_pos hc]
      exact ih (f + 1)
    · rw [if_neg hc]
      intro hnil
      exact hc (by simp [List.isEmpty_iff, hnil])

theorem evictOne_inv {c : LFUCache} (h : c.Inv) : ((c.evictOne).1).Inv := by
  rw [LFUCache.evictOne]
  by_cases he : c.items.isEmpty
  · rw [if_pos he]
    exact h
  · rw [if_neg he]
    dsimp only
    cases hl : (LFUCache.bucket { c with minFreq := bucketSearchAux c.items c.minFreq 1000001 }
        (bucketSearchAux c.items c.minFreq 1000001)).getLast? with
    | none => exact h
    | some e =>
      exact removeEntry_inv
        (c := { c with minFreq := bucketSearchAux c.items c.minFreq 1000001 })
        h e.key .RemoveReasonEvicted

theorem evictOne_maxBytes (c : LFUCache) : ((c.evictOne).1).maxBytes = c.maxBytes := by
  rw [LFUCache.evictOne]
  by_cases he : c.items.isEmpty
  · rw [if_pos he]
  · rw [if_neg he]
    dsimp only
    cases hl : (LFUCache.bucket { c with minFreq := bucketSearchAux c.items c.minFreq 1000001 }
        (bucketSearchAux c.items c.minFreq 1000001)).getLast? with
    | none => rfl
    | some e => exact removeEntry_maxBytes _ e.key .RemoveReasonEvicted

theorem removeEntry_shrinks {c : LFUCache} {k : Bytes} {e : LfuEntry}
    (hf : c.items.find? (fun x => x.key == k) = some e) (reason : RemoveReason) :
    ((c.removeEntry k reason).1).items.length + 1 = c.items.length := by
  rw [LFUCache.removeEntry, hf]
  exact length_eraseP_of_find? hf

/-- While the cache is nonempty, `evictOne` removes exactly one entry. -/
theorem evictOne_shrinks {c : LFUCache} (hne : c.items ≠ [])
    (hfreq : ∀ e ∈ c.items, 1 ≤ e.freq) :
    ((c.evictOne).1).items.length + 1 = c.items.length := by
  rw [LFUCache.evictOne]
  rw [if_neg (by simp [List.isEmpty_iff, hne])]
  dsimp only
  have hbne : c.items.filter
      (fun x => x.freq == bucketSearchAux c.items c.minFreq 1000001) ≠ [] :=
    bucketSearch_nonempty hne hfreq 1000001 c.minFreq
  cases hl : (LFUCache.bucket { c with minFreq := bucketSearchAux c.items c.minFreq 1000001 }
      (bucketSearchAux c.items c.minFreq 1000001)).getLast? with
  | none =>
    exfalso
    rw [LFUCache.bucket] at hl
    have := List.getLast?_eq_getLast _ hbne
    rw [this] at hl
    cases hl
  | some e =>
    have hmem : e ∈ c.items := by
      have : e ∈ c.items.filter
          (fun x => x.freq == bucketSearchAux c.items c.minFreq 1000001) := by
        rw [LFUCache.bucket] at hl
        have := List.getLast?_eq_getLast _ hbne
        rw [this] at hl
        cases hl
        exact List.getLast_mem _
      exact (List.mem_filter.mp this).1
    cases hf : c.items.find? (fun x => x.key == e.key) with
    | none =>
      exfalso
      have : (c.items.find? (fun x => x.key == e.key)).isSome :=
        List.find?_isSome.mpr ⟨e, hmem, by simp⟩
      rw [hf] at this
      cases this
    | some e' =>
      exact removeEntry_shrinks
        (c := { c with minFreq := bucketSearchAux c.items c.minFreq 1000001 })
        hf .RemoveReasonEvicted

theorem lfuEvictLoopFuel_inv : ∀ (fuel : Nat) (c : LFUCache), c.Inv →
    ((LFUCache.lfuEvictLoopFuel fuel c).1).Inv := by
  intro fuel
  induction fuel with
  | zero => intro c h; exact h
  | succ fuel ih =>
    intro c h
    rw [LFUCache.lfuEvictLoopFuel]
    split
    · exact ih _ (evictOne_inv h)
    · exact h

theorem lfuEvictLoopFuel_maxBytes : ∀ (fuel : Nat) (c : LFUCache),
    ((LFUCache.lfuEvictLoopFuel fuel c).1).maxBytes = c.maxBytes := by
  intro fuel
  induction fuel with
  | zero => intro c; rfl
  | succ fuel ih =>
    intro c
    rw [LFUCache.lfuEvictLoopFuel]
    split
    · rw [ih, evictOne_maxBytes]
    · rfl

theorem lfuEvictLoopFuel_budget : ∀ (fuel : Nat) (c : LFUCache),
    c.items.length ≤ fuel → c.Inv → 0 < c.maxBytes →
    ((LFUCache.lfuEvictLoopFuel fuel c).1).nbytes ≤ c.maxBytes := by
  intro fuel
  induction fuel with
  | zero =>
    intro c hlen h hpos
    have hnil : c.items = [] := by
      cases hc : c.items with
      | nil => rfl
      | cons a tl => rw [hc] at hlen; simp at hlen
    have hs := h.1
    rw [LFUCache.SizeInv, hnil] at hs
    simp at hs
    show c.nbytes ≤ c.maxBytes
    omega
  | succ fuel ih =>
    intro c hlen h hpos
    rw [LFUCache.lfuEvictLoopFuel]
    split
    · rename_i hcond
      have hne : c.items ≠ [] := by
        intro hnil
        have hs := h.1
        rw [LFUCache.SizeInv, hnil] at hs
        simp at hs
        omega
      have hshrink := evictOne_shrinks hne h.2.2
      have := ih _ (by omega) (evictOne_inv h)
        (by rw [evictOne_maxBytes]; exact hpos)
      rw [evictOne_maxBytes] at this
      exact this
    · rename_i hcond
      push_neg at hcond
      exact hcond (by omega)

theorem lfuEvictLoop_inv {c : LFUCache} (h : c.Inv) : ((c.lfuEvictLoop).1).Inv :=
  lfuEvictLoopFuel_inv _ _ h

theorem lfuEvictLoop_maxBytes (c : LFUCache) :
    ((c.lfuEvictLoop).1).maxBytes = c.maxBytes :=
  lfuEvictLoopFuel_maxBytes _ _

theorem lfuEvictLoop_budget {c : LFUCache} (h : c.Inv) (hpos : 0 < c.maxBytes) :
    ((c.lfuEvictLoop).1).nbytes ≤ c.maxBytes :=
  lfuEvictLoopFuel_budget _ _ (Nat.le_refl _) h hpos

/-- The key is untouched by the update function of `Add`'s existing-entry
branch. -/
theorem mapUpdate_key (k : Bytes) (v : DataEntity) (ea : Int) (x : LfuEntry) :
    ((fun x : LfuEntry =>
      if x.key == k then { x with value := v, expiresAt := ea } else x) x).key = x.key := by
  by_cases h : x.key == k
  · simp [h]
  · simp [h]

theorem mapUpdate_freq (k : Bytes) (v : DataEntity) (ea : Int) (x : LfuEntry) :
    ((fun x : LfuEntry =>
      if x.key == k then { x with value := v, expiresAt := ea } else x) x).freq = x.freq := by
  by_cases h : x.key == k
  · simp [h]
  · simp [h]

theorem mapUpdate_no_key {l : List LfuEntry} {k : Bytes} (v : DataEntity) (ea : Int)
    (h : ∀ x ∈ l, x.key ≠ k) :
    l.map (fun x : LfuEntry =>
      if x.key == k then { x with value := v, expiresAt := ea } else x) = l := by
  induction l with
  | nil => rfl
  | cons a tl ih =>
    simp only [List.map_cons]
    rw [if_neg (by simpa using h a (by simp))]
    rw [ih (fun x hx => h x (by simp [hx]))]

theorem find?_mapUpdate {l : List LfuEntry} {k : Bytes} {e : LfuEntry}
    (v : DataEntity) (ea : Int)
    (hf : l.find? (fun x => x.key == k) = some e) :
    (l.map (fun x : LfuEntry =>
        if x.key == k then { x with value := v, expiresAt := ea } else x)).find?
      (fun x => x.key == k) = some { e with value := v, expiresAt := ea } := by
  induction l with
  | nil => simp at hf
  | cons a tl ih =>
    by_cases ha : a.key == k
    · rw [List.find?_cons_of_pos (p := fun x : LfuEntry => x.key == k) _ ha] at hf
      cases hf
      simp only [List.map_cons, if_pos ha]
      exact List.find?_cons_of_pos (p := fun x : LfuEntry => x.key == k) _ (by simpa using ha)
    · rw [List.find?_cons_of_neg (p := fun x : LfuEntry => x.key == k) _ ha] at hf
      simp only [List.map_cons, if_neg ha]
      rw [List.find?_cons_of_neg (p := fun x : LfuEntry => x.key == k) _ (by simpa using ha)]
      exact ih hf

theorem eraseP_mapUpdate {l : List LfuEntry} {k : Bytes} {e : LfuEntry}
    (v : DataEntity) (ea : Int)
    (hp : l.Pairwise (fun a b => a.key ≠ b.key))
    (hf : l.find? (fun x => x.key == k) = some e) :
    (l.map (fun x : LfuEntry =>
        if x.key == k then { x with value := v, expiresAt := ea } else x)).eraseP
      (fun x => x.key == k) = l.eraseP (fun x => x.key == k) := by
  induction l with
  | nil => rfl
  | cons a tl ih =>
    by_cases ha : a.key == k
    · simp only [List.map_cons, if_pos ha]
      rw [List.eraseP_cons_of_pos (p := fun x : LfuEntry => x.key == k) (by simpa using ha),
        List.eraseP_cons_of_pos (p := fun x : LfuEntry => x.key == k) ha]
      apply mapUpdate_no_key
      intro x hx
      have := (List.pairwise_cons.mp hp).1 x hx
      have hak : a.key = k := by simpa using ha
      rw [hak] at this
      exact fun hc => this hc.symm
    · rw [List.find?_cons_of_neg (p := fun x : LfuEntry => x.key == k) _ ha] at hf
      simp only [List.map_cons, if_neg ha]
      rw [List.eraseP_cons_of_neg (p := fun x : LfuEntry => x.key == k)
          (by simpa using ha),
        List.eraseP_cons_of_neg (p := fun x : LfuEntry => x.key == k) ha]
      rw [ih (List.pairwise_cons.mp hp).2 hf]

theorem lfu_Add_inv {c : LFUCache} (h : c.Inv) (key : Bytes) (value : DataEntity)
    (ttl now : Int) : ((c.Add key value ttl now).1).Inv := by
  rw [LFUCache.Add]
  cases hf : c.items.find? (fun x => x.key == key) with
  | some e =>
    apply lfuEvictLoop_inv
    apply increment_inv
    obtain ⟨hs, hp, hfreq⟩ := h
    set ea : Int := if ttl > 0 then now + ttl else 0 with hea
    refine ⟨?_, ?_, ?_⟩
    · simp only [LFUCache.SizeInv] at hs ⊢
      rw [sum_map_eraseP lfuEntrySize _ _ { e with value := value, expiresAt := ea }
          (find?_mapUpdate value ea hf),
        eraseP_mapUpdate value ea hp hf, hs,
        sum_map_eraseP lfuEntrySize _ c.items e hf]
      simp only [lfuEntrySize]
      ring
    · exact List.Pairwise.map _ (fun a b hab => by
        rw [mapUpdate_key key value ea a, mapUpdate_key key value ea b]; exact hab) hp
    · intro x hx
      rcases List.mem_map.mp hx with ⟨y, hy, rfl⟩
      rw [mapUpdate_freq key value ea y]
      exact hfreq y hy
  | none =>
    apply lfuEvictLoop_inv
    obtain ⟨hs, hp, hfreq⟩ := h
    refine ⟨?_, ?_, ?_⟩
    · simp only [LFUCache.SizeInv] at hs ⊢
      simp only [List.map_cons, List.sum_cons]
      rw [hs]
      simp only [lfuEntrySize]
      ring
    · refine List.pairwise_cons.mpr ⟨?_, hp⟩
      intro x hx
      have := List.find?_eq_none.mp hf x hx
      simp only [beq_iff_eq] at this
      exact fun hc => this (hc ▸ rfl)
    · intro x hx
      rcases List.mem_cons.mp hx with rfl | hx
      · simp
      · exact hfreq x hx

/-- After `LFUCache.Add` with a positive byte budget, the tracked total
is within the budget. -/
theorem lfu_Add_budget {c : LFUCache} (h : c.Inv) (hpos : 0 < c.maxBytes)
    (key : Bytes) (value : DataEntity) (ttl now : Int) :
    ((c.Add key value ttl now).1).nbytes ≤ c.maxBytes := by
  rw [LFUCache.Add]
  cases hf : c.items.find? (fun x => x.key == key) with
  | some e =>
    set ea : Int := if ttl > 0 then now + ttl else 0 with hea
    set c2 : LFUCache :=
      { c with
        nbytes := c.nbytes + (value.Len : Int) - (e.value.Len : Int),
        items := c.items.map (fun x : LfuEntry =>
          if x.key == key then { x with value := value, expiresAt := ea } else x) } with hc2
    have h2 : c2.Inv := by
      obtain ⟨hs, hp, hfreq⟩ := h
      refine ⟨?_, ?_, ?_⟩
      · simp only [LFUCache.SizeInv, hc2] at hs ⊢
        rw [sum_map_eraseP lfuEntrySize _ _ { e with value := value, expiresAt := ea }
            (find?_mapUpdate value ea hf),
          eraseP_mapUpdate value ea hp hf, hs,
          sum_map_eraseP lfuEntrySize _ c.items e hf]
        simp only [lfuEntrySize]
        ring
      · exact List.Pairwise.map _ (fun a b hab => by
          rw [mapUpdate_key key value ea a, mapUpdate_key key value ea b]; exact hab) hp
      · intro x hx
        rcases List.mem_map.mp hx with ⟨y, hy, rfl⟩
        rw [mapUpdate_freq key value ea y]
        exact hfreq y hy
    have := lfuEvictLoop_budget (increment_inv h2 key)
      (by rw [increment_maxBytes]; exact hpos)
    rw [increment_maxBytes] at this
    exact this
  | none =>
    apply lfuEvictLoop_budget
    · obtain ⟨hs, hp, hfreq⟩ := h
      refine ⟨?_, ?_, ?_⟩
      · simp only [LFUCache.SizeInv] at hs ⊢
        simp only [List.map_cons, List.sum_cons]
        rw [hs]
        simp only [lfuEntrySize]
        ring
      · refine List.pairwise_cons.mpr ⟨?_, hp⟩
        intro x hx
        have := List.find?_eq_none.mp hf x hx
        simp only [beq_iff_eq] at this
        exact fun hc => this (hc ▸ rfl)
      · intro x hx
        rcases List.mem_cons.mp hx with rfl | hx
        · simp
        · exact hfreq x hx
    · exact hpos

theorem lfu_Get_inv {c : LFUCache} (h : c.Inv) (key : Bytes) (now : Int) :
    ((c.Get key now).2.1).Inv := by
  rw [LFUCache.Get]
  cases hf : c.items.find? (fun x => x.key == key) with
  | none => exact h
  | some e =>
    dsimp only
    by_cases hexp : e.expiresAt > 0 ∧ e.expiresAt < now
    · rw [if_pos hexp]
      exact removeEntry_inv h key .RemoveReasonExpired
    · rw [if_neg hexp]
      exact increment_inv h key

theorem lfu_Peek_inv {c : LFUCache} (h : c.Inv) (key : Bytes) (now : Int) :
    ((c.Peek key now).2.1).Inv := by
  rw [LFUCache.Peek]
  cases hf : c.items.find? (fun x => x.key == key) with
  | none => exact h
  | some e =>
    dsimp only
    by_cases hexp : e.expiresAt > 0 ∧ e.expiresAt < now
    · rw [if_pos hexp]
      exact removeEntry_inv h key .RemoveReasonExpired
    · rw [if_neg hexp]
      exact h

theorem lfu_Remove_inv {c : LFUCache} (h : c.Inv) (key : Bytes) :
    ((c.Remove key).1).Inv := removeEntry_inv h key .RemoveReasonDeleted

/-- LFU cache states reachable from `NewLFU` through the public
operations. -/
inductive LfuReachable : LFUCache → Prop where
  | new : ∀ maxBytes, LfuReachable (NewLFU maxBytes)
  | add : ∀ c key value ttl now, LfuReachable c →
      LfuReachable ((c.Add key value ttl now).1)
  | get : ∀ c key now, LfuReachable c → LfuReachable ((c.Get key now).2.1)
  | peek : ∀ c key now, LfuReachable c → LfuReachable ((c.Peek key now).2.1)
  | remove : ∀ c key, LfuReachable c → LfuReachable ((c.Remove key).1)

theorem lfuReachable_inv {c : LFUCache} (h : LfuReachable c) : c.Inv := by
  induction h with
  | new maxBytes => exact ⟨rfl, by simp [NewLFU], by simp [NewLFU]⟩
  | add c key value ttl now _ ih => exact lfu_Add_inv ih key value ttl now
  | get c key now _ ih => exact lfu_Get_inv ih key now
  | peek c key now _ ih => exact lfu_Peek_inv ih key now
  | remove c key _ ih => exact lfu_Remove_inv ih key

/-- C7: for both the LRU and the LFU cache, in every state reachable
through the cache operations the tracked byte total equals the sum of the
entries' size estimates (the bytes charged per entry,
`len(key) + value.Len()`), and after any `Add` with a nonzero (positive)
byte budget the tracked total does not exceed the budget — entries are
evicted until it no longer exceeds it.  (With a negative "budget" the Go
eviction loop would never terminate, so `Add` would not return; the
budget statement is therefore about positive budgets, and the
constructors force a positive budget in the database.) -/
theorem C7_cache_accounting_and_budget :
    (∀ c : Lru.Cache, Lru.Reachable c →
      c.nbytes = (c.entries.map Lru.entrySize).sum) ∧
    (∀ c : LFUCache, LfuReachable c →
      c.nbytes = (c.items.map lfuEntrySize).sum) ∧
    (∀ (c : Lru.Cache) (key : Bytes) (value : DataEntity) (ttl now : Int),
      Lru.Reachable c → 0 < c.maxBytes →
      ((c.Add key value ttl now).1).nbytes ≤ c.maxBytes) ∧
    (∀ (c : LFUCache) (key : Bytes) (value : DataEntity) (ttl now : Int),
      LfuReachable c → 0 < c.maxBytes →
      ((c.Add key value ttl now).1).nbytes ≤ c.maxBytes) :=
  ⟨fun _ h => Lru.reachable_sizeInv h,
   fun _ h => (lfuReachable_inv h).1,
   fun _ key value ttl now h hpos =>
     Lru.Add_budget (Lru.reachable_sizeInv h) hpos key value ttl now,
   fun _ key value ttl now h hpos =>
     lfu_Add_budget (lfuReachable_inv h) hpos key value ttl now⟩

/-- Witness for C7: the repository's own eviction scenario
(`max-bytes = 20`, two 12-byte entries) on both caches — the second `Add`
stays within budget — plus the accounting equation at those states. -/
theorem C7_cache_accounting_and_budget_witness :
    ((((Lru.New 20).Add (bs "k1") (.StringData (bs "0123456789")) 0 0).1.Add
        (bs "k2") (.StringData (bs "abcdefghij")) 0 0).1).nbytes ≤
      (((Lru.New 20).Add (bs "k1") (.StringData (bs "0123456789")) 0 0).1).maxBytes ∧
    ((((NewLFU 20).Add (bs "k1") (.StringData (bs "0123456789")) 0 0).1.Add
        (bs "k2") (.StringData (bs "abcdefghij")) 0 0).1).nbytes ≤
      (((NewLFU 20).Add (bs "k1") (.StringData (bs "0123456789")) 0 0).1).maxBytes ∧
    (((Lru.New 20).Add (bs "k1") (.StringData (bs "0123456789")) 0 0).1).nbytes =
      (((((Lru.New 20).Add (bs "k1") (.StringData (bs "0123456789")) 0 0).1).entries.map
        Lru.entrySize).sum) :=
  ⟨C7_cache_accounting_and_budget.2.2.1 _ (bs "k2")
      (.StringData (bs "abcdefghij")) 0 0
      (Lru.Reachable.add _ _ _ _ _ (Lru.Reachable.new 20)) (by decide),
   C7_cache_accounting_and_budget.2.2.2 _ (bs "k2")
      (.StringData (bs "abcdefghij")) 0 0
      (LfuReachable.add _ _ _ _ _ (LfuReachable.new 20)) (by decide),
   C7_cache_accounting_and_budget.1 _
      (Lru.Reachable.add _ _ _ _ _ (Lru.Reachable.new 20))⟩

/-! ### Snapshot entries (`rdb` package) -/

namespace rdb

inductive EntryType where
  | TypeString
  | TypeList
  | TypeHash
  | TypeSet
deriving DecidableEq, Repr

/-- `rdb.Entry`: one key of the snapshot.  `ExpireAtUnixMs = 0` means no
expiry.  The unused per-type fields stay empty, as in the source.
(Field names: `Typ`/`EString`/`EList`/`EHash`/`ESet` render the Go fields
`Type`/`String`/`List`/`Hash`/`Set`, which collide with Lean built-ins.) -/
structure Entry where
  Key : Bytes
  Typ : EntryType
  ExpireAtUnixMs : Int
  EString : Bytes := []
  EList : List Bytes := []
  EHash : List (Bytes × Bytes) := []
  ESet : List Bytes := []
deriving DecidableEq, Repr

end rdb

/-! ### Sorting helpers (Go `sort.Slice` / `sort.Strings`)

Go's sort is unspecified for equal keys; every use in the sources sorts
by keys that are unique (map keys), where the sorted result is unique, so
an insertion sort is an exact model. -/

/-- Lexicographic byte-string comparison (Go `string <`). -/
def bytesLt : Bytes → Bytes → Bool
  | [], [] => false
  | [], _ :: _ => true
  | _ :: _, [] => false
  | a :: as, b :: bs => if a < b then true else if b < a then false else bytesLt as bs

def insertByLt {α : Type} (lt : α → α → Bool) (x : α) : List α → List α
  | [] => [x]
  | y :: ys => if lt x y then x :: y :: ys else y :: insertByLt lt x ys

def sortByLt {α : Type} (lt : α → α → Bool) : List α → List α
  | [] => []
  | x :: xs => insertByLt lt x (sortByLt lt xs)

/-! ### The single-writer database (`db` package)

`StandaloneDB` is modelled in the configuration the claims are about:
the default LRU cache strategy, AOF enabled, RDB disabled
(`cfg.RdbFilename = ""`).  The state carries exactly the fields the data
plane touches: the cache, the TTL table, the per-step `evictedKeys` list,
the append log (the sequence of command records handed to
`aofHandler.AddAof`), and the rewrite flags/buffer of `db`/`aof.AofHandler`.
The wall clock is an explicit `now` in Unix milliseconds
(`time.Time.UnixMilli`); the cache's internal second-granularity clock is
`now / 1000` (the database always passes `ttl = 0` to the cache, so that
clock is never consulted in reachable states).  The removal callback
`onEvicted` (drop the TTL entry; record byte-pressure evictions) is
applied to each event a cache operation fires, in order. -/

structure DBState where
  cache : Lru.Cache
  ttlMap : List (Bytes × Int)
  evictedKeys : List Bytes
  aofLog : List (List Bytes)
  aofRewriting : Bool
  handlerRewriting : Bool
  rewriteBuf : List (List Bytes)
deriving DecidableEq, Repr

/-- `aof.AofHandler.AddAof`: append the record; during a rewrite window
also mirror it into the rewrite buffer. -/
def DBState.AddAof (st : DBState) (cmd : List Bytes) : DBState :=
  { st with
    aofLog := st.aofLog ++ [cmd],
    rewriteBuf := if st.handlerRewriting then st.rewriteBuf ++ [cmd] else st.rewriteBuf }

/-- The database's removal callback `onEvicted`, applied to the events a
cache operation fired: always drop the TTL entry; when the reason is
*evicted*, record the key in the per-step eviction list. -/
def applyEvents (st : DBState) (evs : List RemovalEvent) : DBState :=
  evs.foldl (fun st ev =>
    { st with
      ttlMap := st.ttlMap.eraseP (fun p => p.1 == ev.1),
      evictedKeys :=
        if ev.2 = .RemoveReasonEvicted then st.evictedKeys ++ [ev.1]
        else st.evictedKeys }) st

def DBState.cacheAdd (st : DBState) (now : Int) (key : Bytes) (value : DataEntity) :
    DBState :=
  let p := st.cache.Add key value 0 (now / 1000)
  applyEvents { st with cache := p.1 } p.2

def DBState.cacheGet (st : DBState) (now : Int) (key : Bytes) :
    Option DataEntity × DBState :=
  let r := st.cache.Get key (now / 1000)
  (r.1, applyEvents { st with cache := r.2.1 } r.2.2)

def DBState.cachePeek (st : DBState) (now : Int) (key : Bytes) :
    Option DataEntity × DBState :=
  let r := st.cache.Peek key (now / 1000)
  (r.1, applyEvents { st with cache := r.2.1 } r.2.2)

def DBState.cacheRemove (st : DBState) (key : Bytes) : DBState :=
  let p := st.cache.Remove key
  applyEvents { st with cache := p.1 } p.2

/-- Go map lookup `db.ttlMap[key]`. -/
def DBState.ttlLookup (st : DBState) (key : Bytes) : Option Int :=
  (st.ttlMap.find? (fun p => p.1 == key)).map Prod.snd

/-- Go map assignment on an association list: update in place or append. -/
def assocSet (l : List (Bytes × Int)) (k : Bytes) (v : Int) : List (Bytes × Int) :=
  if (l.find? (fun p => p.1 == k)).isSome then
    l.map (fun p => if p.1 == k then (p.1, v) else p)
  else l ++ [(k, v)]

/-- Go map assignment for hash fields. -/
def hashSet (h : List (Bytes × Bytes)) (f v : Bytes) : List (Bytes × Bytes) :=
  if (h.find? (fun p => p.1 == f)).isSome then
    h.map (fun p => if p.1 == f then (p.1, v) else p)
  else h ++ [(f, v)]

def wrongTypeReply : Reply :=
  MakeErrReply (bs "WRONGTYPE Operation against a key holding the wrong kind of value")

/-! #### String commands (`db/basic.go`) -/

/-- `SET key value`: store the string and clear any TTL on the key. -/
def DBState.set (st : DBState) (now : Int) (args : List Bytes) : Reply × DBState :=
  match args with
  | [_, key, val] =>
    let st1 := st.cacheAdd now key (.StringData val)
    (OkReply, { st1 with ttlMap := st1.ttlMap.eraseP (fun p => p.1 == key) })
  | _ => (MakeErrReply (bs "ERR wrong number of arguments for set command"), st)

/-- `GET key`: lookup with lazy expiration and a type check. -/
def DBState.get (st : DBState) (now : Int) (args : List Bytes) : Reply × DBState :=
  match args with
  | [_, key] =>
    let r := st.cacheGet now key
    match r.1 with
    | none => (NullBulkReply, r.2)
    | some val =>
      let tail : Reply × DBState :=
        match val with
        | .StringData s => (MakeBulkReply (some s), r.2)
        | _ => (wrongTypeReply, r.2)
      match r.2.ttlLookup key with
      | some t => if t < now then (NullBulkReply, r.2.cacheRemove key) else tail
      | none => tail
  | _ => (MakeErrReply (bs "ERR wrong number of arguments for get command"), st)

/-- `DEL k1 k2 …`: non-promoting lookup (`Peek`), then remove; counts the
keys that were present. -/
def DBState.del (st : DBState) (now : Int) (args : List Bytes) : Reply × DBState :=
  match args with
  | _ :: k1 :: ks =>
    let r := (k1 :: ks).foldl (fun (acc : Int × DBState) kb =>
      let p := acc.2.cachePeek now kb
      match p.1 with
      | some _ => (acc.1 + 1, p.2.cacheRemove kb)
      | none => (acc.1, p.2)) (0, st)
    (MakeIntReply r.1, r.2)
  | _ => (MakeErrReply (bs "ERR wrong number of arguments for del command"), st)

/-! #### TTL commands (`db` TTL file) -/

/-- `EXPIRE key seconds`: non-promoting existence check; `seconds ≤ 0`
deletes the key immediately; otherwise store the absolute instant
`now + seconds` (milliseconds). -/
def DBState.expire (st : DBState) (now : Int) (args : List Bytes) : Reply × DBState :=
  match args with
  | [_, key, secArg] =>
    match parseInt secArg with
    | none => (MakeErrReply (bs "ERR value is not an integer or out of range"), st)
    | some seconds =>
      let r := st.cachePeek now key
      match r.1 with
      | none => (MakeIntReply 0, r.2)
      | some _ =>
        if seconds ≤ 0 then (MakeIntReply 1, r.2.cacheRemove key)
        else
          (MakeIntReply 1,
           { r.2 with ttlMap := assocSet r.2.ttlMap key (now + seconds * 1000) })
  | _ => (MakeErrReply (bs "ERR wrong number of arguments for expire command"), st)

/-- `PEXPIREAT key unix_ms`: absolute-instant expiry (used by AOF replay);
an instant not after now deletes the key immediately. -/
def DBState.pexpireat (st : DBState) (now : Int) (args : List Bytes) : Reply × DBState :=
  match args with
  | [_, key, msArg] =>
    match parseInt msArg with
    | none => (MakeErrReply (bs "ERR value is not an integer or out of range"), st)
    | some ms =>
      let r := st.cachePeek now key
      match r.1 with
      | none => (MakeIntReply 0, r.2)
      | some _ =>
        if ¬ now < ms then (MakeIntReply 1, r.2.cacheRemove key)
        else (MakeIntReply 1, { r.2 with ttlMap := assocSet r.2.ttlMap key ms })
  | _ => (MakeErrReply (bs "ERR wrong number of arguments for pexpireat command"), st)

/-- `TTL key`: −2 if missing, −1 if no TTL, else whole seconds remaining;
a past-due entry is deleted and reported missing.  Uses `Peek` so that
TTL does not disturb the eviction order. -/
def DBState.ttl (st : DBState) (now : Int) (args : List Bytes) : Reply × DBState :=
  match args with
  | [_, key] =>
    let r := st.cachePeek now key
    match r.1 with
    | none => (MakeIntReply (-2), r.2)
    | some _ =>
      match r.2.ttlLookup key with
      | none => (MakeIntReply (-1), r.2)
      | some t =>
        if t - now ≤ 0 then (MakeIntReply (-2), r.2.cacheRemove key)
        else (MakeIntReply ((t - now) / 1000), r.2)
  | _ => (MakeErrReply (bs "ERR wrong number of arguments for ttl command"), st)

/-- `PERSIST key`: drop the TTL entry, reporting 1 only when one existed. -/
def DBState.persist (st : DBState) (now : Int) (args : List Bytes) : Reply × DBState :=
  match args with
  | [_, key] =>
    let r := st.cachePeek now key
    match r.1 with
    | none => (MakeIntReply 0, r.2)
    | some _ =>
      match r.2.ttlLookup key with
      | none => (MakeIntReply 0, r.2)
      | some _ =>
        (MakeIntReply 1, { r.2 with ttlMap := r.2.ttlMap.eraseP (fun p => p.1 == key) })
  | _ => (MakeErrReply (bs "ERR wrong number of arguments for persist command"), st)

/-! #### List commands (`db` list file)

Go's `container/list` holding `[]byte` elements becomes `List Bytes`,
front first. -/

/-- `getListForWrite`: resolve the key to its list, creating a fresh
empty list when the key is missing or lazily expired; a value of another
variant is a `WRONGTYPE` error. -/
def DBState.getListForWrite (st : DBState) (now : Int) (key : Bytes) :
    Except Reply (List Bytes) × DBState :=
  let r := st.cacheGet now key
  match r.1 with
  | none => (.ok [], r.2)
  | some val =>
    let assert : Except Reply (List Bytes) :=
      match val with
      | .ListData l => .ok l
      | _ => .error wrongTypeReply
    match r.2.ttlLookup key with
    | some t => if t < now then (.ok [], r.2.cacheRemove key) else (assert, r.2)
    | none => (assert, r.2)

/-- `LPUSH key v…`: push each value at the front, in argument order. -/
def DBState.lpush (st : DBState) (now : Int) (args : List Bytes) : Reply × DBState :=
  match args with
  | _ :: key :: v1 :: vs =>
    let r := st.getListForWrite now key
    match r.1 with
    | .error e => (e, r.2)
    | .ok l =>
      let l' := (v1 :: vs).foldl (fun acc v => v :: acc) l
      (MakeIntReply l'.length, r.2.cacheAdd now key (.ListData l'))
  | _ => (MakeErrReply (bs "ERR wrong number of arguments for lpush command"), st)

/-- `RPUSH key v…`: append each value at the back. -/
def DBState.rpush (st : DBState) (now : Int) (args : List Bytes) : Reply × DBState :=
  match args with
  | _ :: key :: v1 :: vs =>
    let r := st.getListForWrite now key
    match r.1 with
    | .error e => (e, r.2)
    | .ok l =>
      let l' := l ++ (v1 :: vs)
      (MakeIntReply l'.length, r.2.cacheAdd now key (.ListData l'))
  | _ => (MakeErrReply (bs "ERR wrong number of arguments for rpush command"), st)

/-- `LPOP key`: pop the front element; removing the last element removes
the key (and its TTL, via the removal callback). -/
def DBState.lpop (st : DBState) (now : Int) (args : List Bytes) : Reply × DBState :=
  match args with
  | [_, key] =>
    let r := st.cacheGet now key
    match r.1 with
    | none => (NullBulkReply, r.2)
    | some val =>
      let tail : Reply × DBState :=
        match val with
        | .ListData l =>
          match l with
          | [] => (NullBulkReply, r.2)
          | front :: rest =>
            if rest.isEmpty then (MakeBulkReply (some front), r.2.cacheRemove key)
            else (MakeBulkReply (some front), r.2.cacheAdd now key (.ListData rest))
        | _ => (wrongTypeReply, r.2)
      match r.2.ttlLookup key with
      | some t => if t < now then (NullBulkReply, r.2.cacheRemove key) else tail
      | none => tail
  | _ => (MakeErrReply (bs "ERR wrong number of arguments for lpop command"), st)

/-- `RPOP key`: pop the back element; removing the last element removes
the key. -/
def DBState.rpop (st : DBState) (now : Int) (args : List Bytes) : Reply × DBState :=
  match args with
  | [_, key] =>
    let r := st.cacheGet now key
    match r.1 with
    | none => (NullBulkReply, r.2)
    | some val =>
      let tail : Reply × DBState :=
        match val with
        | .ListData l =>
          match l.getLast? with
          | none => (NullBulkReply, r.2)
          | some back =>
            let rest := l.dropLast
            if rest.isEmpty then (MakeBulkReply (some back), r.2.cacheRemove key)
            else (MakeBulkReply (some back), r.2.cacheAdd now key (.ListData rest))
        | _ => (wrongTypeReply, r.2)
      match r.2.ttlLookup key with
      | some t => if t < now then (NullBulkReply, r.2.cacheRemove key) else tail
      | none => tail
  | _ => (MakeErrReply (bs "ERR wrong number of arguments for rpop command"), st)

/-- `LLEN key`. -/
def DBState.llen (st : DBState) (now : Int) (args : List Bytes) : Reply × DBState :=
  match args with
  | [_, key] =>
    let r := st.cacheGet now key
    match r.1 with
    | none => (MakeIntReply 0, r.2)
    | some val =>
      let tail : Reply × DBState :=
        match val with
        | .ListData l => (MakeIntReply l.length, r.2)
        | _ => (wrongTypeReply, r.2)
      match r.2.ttlLookup key with
      | some t => if t < now then (MakeIntReply 0, r.2.cacheRemove key) else tail
      | none => tail
  | _ => (MakeErrReply (bs "ERR wrong number of arguments for llen command"), st)

/-- The element scan of `lrange`: walk the list with a running index,
collecting the elements whose index lies in `[start, stop]`, stopping
after the index passes `stop`. -/
def lrangeLoop (start stop : Int) : List Bytes → Int → List Bytes
  | [], _ => []
  | e :: rest, i =>
    let acc := if start ≤ i ∧ i ≤ stop then [e] else []
    if stop < i then acc else acc ++ lrangeLoop start stop rest (i + 1)

/-- `LRANGE key start stop`: negative indices resolve from the end,
`start` clamps up to 0, `stop` clamps down to `size-1`; when
`start > stop` after clamping the reply is the nil multi-bulk
(`MakeMultiBulkReply(nil)`). -/
def DBState.lrange (st : DBState) (now : Int) (args : List Bytes) : Reply × DBState :=
  match args with
  | [_, key, startArg, stopArg] =>
    match parseInt startArg, parseInt stopArg with
    | some start0, some stop0 =>
      let r := st.cacheGet now key
      match r.1 with
      | none => (MakeMultiBulkReply none, r.2)
      | some val =>
        let tail : Reply × DBState :=
          match val with
          | .ListData l =>
            let size : Int := l.length
            let start1 := if start0 < 0 then size + start0 else start0
            let stop1 := if stop0 < 0 then size + stop0 else stop0
            let start2 := if start1 < 0 then 0 else start1
            let stop2 := if size ≤ stop1 then size - 1 else stop1
            if stop2 < start2 then (MakeMultiBulkReply none, r.2)
            else
              (MakeMultiBulkReply (some ((lrangeLoop start2 stop2 l 0).map some)), r.2)
          | _ => (wrongTypeReply, r.2)
        match r.2.ttlLookup key with
        | some t =>
          if t < now then (MakeMultiBulkReply none, r.2.cacheRemove key) else tail
        | none => tail
    | _, _ => (MakeErrReply (bs "ERR value is not an integer or out of range"), st)
  | _ => (MakeErrReply (bs "ERR wrong number of arguments for lrange command"), st)

/-! #### Hash commands (`db/hash.go`)

Go's `HashData` map becomes an association list in insertion order. -/

/-- `getHash`: resolve the key to its hash; a lazily expired key is
removed and — in this file only — a lowercase `del` record is appended to
the AOF (the handler is configured in the modelled instance). -/
def DBState.getHash (st : DBState) (now : Int) (key : Bytes) :
    Option (List (Bytes × Bytes)) × DBState :=
  let r := st.cacheGet now key
  match r.1 with
  | none => (none, r.2)
  | some val =>
    let assert : Option (List (Bytes × Bytes)) :=
      match val with
      | .HashData h => some h
      | _ => none
    match r.2.ttlLookup key with
    | some t =>
      if t < now then (none, (r.2.cacheRemove key).AddAof [bs "del", key])
      else (assert, r.2)
    | none => (assert, r.2)

/-- The field loop of `HSET`: write each (field, value) pair, counting
the fields that are new. -/
def hsetPairs : List Bytes → Nat → List (Bytes × Bytes) → Nat × List (Bytes × Bytes)
  | f :: v :: rest, count, h =>
    let count' := if (h.find? (fun p => p.1 == f)).isSome then count else count + 1
    hsetPairs rest count' (hashSet h f v)
  | _, count, h => (count, h)

/-- `HSET key (field value)+`: the post-key argument count must be even;
returns the number of new fields.  A key of another variant is
`WRONGTYPE`, unless it is lazily expired, in which case it is removed
(with a `del` AOF record) and treated as absent. -/
def DBState.hset (st : DBState) (now : Int) (args : List Bytes) : Reply × DBState :=
  if args.length < 4 ∨ args.length % 2 ≠ 0 then
    (MakeErrReply (bs "ERR wrong number of arguments for hset command"), st)
  else
    match args with
    | _ :: key :: pairs =>
      let r := st.getHash now key
      let create : Option (List (Bytes × Bytes)) → DBState → Reply × DBState :=
        fun h0 st2 =>
          let h := h0.getD []
          let p := hsetPairs pairs 0 h
          (MakeIntReply p.1, st2.cacheAdd now key (.HashData p.2))
      match r.1 with
      | some h => create (some h) r.2
      | none =>
        let g := r.2.cacheGet now key
        match g.1 with
        | some val =>
          match val with
          | .HashData _ => create none g.2
          | _ =>
            match g.2.ttlLookup key with
            | some t =>
              if t < now then
                create none ((g.2.cacheRemove key).AddAof [bs "del", key])
              else (wrongTypeReply, g.2)
            | none => (wrongTypeReply, g.2)
        | none => create none g.2
    | _ => (MakeErrReply (bs "ERR wrong number of arguments for hset command"), st)

/-- `HGET key field`. -/
def DBState.hget (st : DBState) (now : Int) (args : List Bytes) : Reply × DBState :=
  match args with
  | [_, key, field] =>
    let r := st.getHash now key
    match r.1 with
    | none =>
      let g := r.2.cacheGet now key
      match g.1 with
      | some val =>
        match val with
        | .HashData _ => (NullBulkReply, g.2)
        | _ => (wrongTypeReply, g.2)
      | none => (NullBulkReply, g.2)
    | some h =>
      match h.find? (fun p => p.1 == field) with
      | none => (NullBulkReply, r.2)
      | some p => (MakeBulkReply (some p.2), r.2)
  | _ => (MakeErrReply (bs "ERR wrong number of arguments for hget command"), st)

/-- `HGETALL key`: alternating field/value bulks, map iteration order. -/
def DBState.hgetall (st : DBState) (now : Int) (args : List Bytes) : Reply × DBState :=
  match args with
  | [_, key] =>
    let r := st.getHash now key
    match r.1 with
    | none =>
      let g := r.2.cacheGet now key
      match g.1 with
      | some val =>
        match val with
        | .HashData _ => (MakeMultiBulkReply none, g.2)
        | _ => (wrongTypeReply, g.2)
      | none => (MakeMultiBulkReply none, g.2)
    | some h =>
      (MakeMultiBulkReply
        (some ((h.map (fun p => [some p.1, some p.2])).flatten)), r.2)
  | _ => (MakeErrReply (bs "ERR wrong number of arguments for hgetall command"), st)

/-- `HDEL key field…`: delete fields; deleting the last field removes the
key entirely. -/
def DBState.hdel (st : DBState) (now : Int) (args : List Bytes) : Reply × DBState :=
  match args with
  | _ :: key :: f1 :: fs =>
    let r := st.getHash now key
    match r.1 with
    | none =>
      let g := r.2.cacheGet now key
      match g.1 with
      | some val =>
        match val with
        | .HashData _ => (MakeIntReply 0, g.2)
        | _ => (wrongTypeReply, g.2)
      | none => (MakeIntReply 0, g.2)
    | some h =>
      let p := (f1 :: fs).foldl (fun (acc : Int × List (Bytes × Bytes)) f =>
        if (acc.2.find? (fun q => q.1 == f)).isSome then
          (acc.1 + 1, acc.2.eraseP (fun q => q.1 == f))
        else acc) (0, h)
      if p.2.isEmpty then (MakeIntReply p.1, r.2.cacheRemove key)
      else (MakeIntReply p.1, r.2.cacheAdd now key (.HashData p.2))
  | _ => (MakeErrReply (bs "ERR wrong number of arguments for hdel command"), st)

/-! #### Set commands (`db` set file)

Go's `SetData` (`map[string]struct{}`) becomes a member list in
insertion order. -/

/-- `getSet`: resolve the key to its member set; a lazily expired key is
removed (no AOF record in this file). -/
def DBState.getSet (st : DBState) (now : Int) (key : Bytes) :
    Option (List Bytes) × DBState :=
  let r := st.cacheGet now key
  match r.1 with
  | none => (none, r.2)
  | some val =>
    let assert : Option (List Bytes) :=
      match val with
      | .SetData s => some s
      | _ => none
    match r.2.ttlLookup key with
    | some t => if t < now then (none, r.2.cacheRemove key) else (assert, r.2)
    | none => (assert, r.2)

/-- `SADD key member…`: add the members that are not yet present; the
cache entry is rewritten only when something was added (or the set is
empty), exactly as the source guards it. -/
def DBState.sadd (st : DBState) (now : Int) (args : List Bytes) : Reply × DBState :=
  match args with
  | _ :: key :: m1 :: ms =>
    let r := st.getSet now key
    let create : Option (List Bytes) → DBState → Reply × DBState :=
      fun s0 st2 =>
        let s := s0.getD []
        let p := (m1 :: ms).foldl (fun (acc : Int × List Bytes) m =>
          if (acc.2.find? (fun x => x == m)).isSome then acc
          else (acc.1 + 1, acc.2 ++ [m])) (0, s)
        if 0 < p.1 ∨ p.2.isEmpty then
          (MakeIntReply p.1, st2.cacheAdd now key (.SetData p.2))
        else (MakeIntReply p.1, st2)
    match r.1 with
    | some s => create (some s) r.2
    | none =>
      let g := r.2.cacheGet now key
      match g.1 with
      | some val =>
        match val with
        | .SetData _ => create none g.2
        | _ =>
          match g.2.ttlLookup key with
          | some t =>
            if t < now then create none (g.2.cacheRemove key)
            else (wrongTypeReply, g.2)
          | none => (wrongTypeReply, g.2)
      | none => create none g.2
  | _ => (MakeErrReply (bs "ERR wrong number of arguments for sadd command"), st)

/-- `SREM key member…`: remove members; removing the last member removes
the key entirely. -/
def DBState.srem (st : DBState) (now : Int) (args : List Bytes) : Reply × DBState :=
  match args with
  | _ :: key :: m1 :: ms =>
    let r := st.getSet now key
    match r.1 with
    | none =>
      let g := r.2.cacheGet now key
      match g.1 with
      | some val =>
        match val with
        | .SetData _ => (MakeIntReply 0, g.2)
        | _ => (wrongTypeReply, g.2)
      | none => (MakeIntReply 0, g.2)
    | some s =>
      let p := (m1 :: ms).foldl (fun (acc : Int × List Bytes) m =>
        if (acc.2.find? (fun x => x == m)).isSome then
          (acc.1 + 1, acc.2.eraseP (fun x => x == m))
        else acc) (0, s)
      if p.2.isEmpty then (MakeIntReply p.1, r.2.cacheRemove key)
      else (MakeIntReply p.1, r.2.cacheAdd now key (.SetData p.2))
  | _ => (MakeErrReply (bs "ERR wrong number of arguments for srem command"), st)

/-- `SCARD key`. -/
def DBState.scard (st : DBState) (now : Int) (args : List Bytes) : Reply × DBState :=
  match args with
  | [_, key] =>
    let r := st.getSet now key
    match r.1 with
    | none =>
      let g := r.2.cacheGet now key
      match g.1 with
      | some val =>
        match val with
        | .SetData _ => (MakeIntReply 0, g.2)
        | _ => (wrongTypeReply, g.2)
      | none => (MakeIntReply 0, g.2)
    | some s => (MakeIntReply s.length, r.2)
  | _ => (MakeErrReply (bs "ERR wrong number of arguments for scard command"), st)

/-- `SMEMBERS key`: the members, map iteration order. -/
def DBState.smembers (st : DBState) (now : Int) (args : List Bytes) : Reply × DBState :=
  match args with
  | [_, key] =>
    let r := st.getSet now key
    match r.1 with
    | none =>
      let g := r.2.cacheGet now key
      match g.1 with
      | some val =>
        match val with
        | .SetData _ => (MakeMultiBulkReply none, g.2)
        | _ => (wrongTypeReply, g.2)
      | none => (MakeMultiBulkReply none, g.2)
    | some s => (MakeMultiBulkReply (some (s.map some)), r.2)
  | _ => (MakeErrReply (bs "ERR wrong number of arguments for smembers command"), st)

/-! #### Snapshots of live state (`db` snapshot file) -/

/-- `purgeExpiredAll`: scan the TTL table and remove every key whose
instant is not after `now` (`!now.Before(t)`); each removal fires the
callback, which drops the TTL entry. -/
def DBState.purgeExpiredAll (st : DBState) (now : Int) : DBState :=
  st.ttlMap.foldl (fun s p => if p.2 ≤ now then s.cacheRemove p.1 else s) st

/-- `snapshotEntries`: purge expired keys, then deep-copy every cache
entry into an `rdb.Entry` with its absolute expiration (0 = none),
defensively skipping entries that expired anyway, sorting set members,
and finally sorting the entries by key.  (Byte-slice copying is the
identity in the model; the error paths for unknown value types cannot
arise because `DataEntity` is exactly the four variants.) -/
def snapshotEntryOf (st1 : DBState) (now : Int) (e : LruEntry) : Option rdb.Entry :=
  let ems? : Option Int :=
    match st1.ttlLookup e.key with
    | none => some 0
    | some t => if t ≤ now then none else some t
  match ems? with
  | none => none
  | some ems =>
    some (match e.value with
      | .StringData s =>
        { Key := e.key, Typ := .TypeString, ExpireAtUnixMs := ems, EString := s }
      | .ListData l =>
        { Key := e.key, Typ := .TypeList, ExpireAtUnixMs := ems, EList := l }
      | .HashData h =>
        { Key := e.key, Typ := .TypeHash, ExpireAtUnixMs := ems, EHash := h }
      | .SetData s =>
        { Key := e.key, Typ := .TypeSet, ExpireAtUnixMs := ems,
          ESet := sortByLt bytesLt s })

def DBState.snapshotEntries (st : DBState) (now : Int) :
    List rdb.Entry × DBState :=
  let st1 := st.purgeExpiredAll now
  let entries := st1.cache.entries.filterMap (snapshotEntryOf st1 now)
  (sortByLt (fun a b => bytesLt a.Key b.Key) entries, st1)

/-- `applySnapshot`: clear the cache (every key removed through the
cache, firing the callback) and the TTL table, then insert the records,
skipping any whose absolute expiration is already past, and restoring
TTL entries for positive expirations. -/
def applySnapshotStep (now : Int) (s : DBState) (e : rdb.Entry) : DBState :=
  if 0 < e.ExpireAtUnixMs ∧ e.ExpireAtUnixMs ≤ now then s
  else
    let s' :=
      match e.Typ with
      | .TypeString => s.cacheAdd now e.Key (.StringData e.EString)
      | .TypeList => s.cacheAdd now e.Key (.ListData e.EList)
      | .TypeHash => s.cacheAdd now e.Key (.HashData e.EHash)
      | .TypeSet => s.cacheAdd now e.Key (.SetData e.ESet)
    if 0 < e.ExpireAtUnixMs then
      { s' with ttlMap := assocSet s'.ttlMap e.Key e.ExpireAtUnixMs }
    else s'

def DBState.applySnapshot (st : DBState) (entries : List rdb.Entry) (now : Int) :
    DBState :=
  let keys := st.cache.entries.map (fun e => e.key)
  let st1 := keys.foldl (fun s k => s.cacheRemove k) st
  let st2 := { st1 with ttlMap := [] }
  entries.foldl (applySnapshotStep now) st2

/-! #### AOF rewrite (`db` rewrite file) -/

/-- Fixed-size batching (`for i := 0; i < len; i += batch`), fuel-indexed
on the list length to stay structural. -/
def chunksAux {α : Type} (n : Nat) : Nat → List α → List (List α)
  | 0, _ => []
  | _, [] => []
  | fuel + 1, x :: xs => (x :: xs.take (n - 1)) :: chunksAux n fuel (xs.drop (n - 1))

def chunks {α : Type} (n : Nat) (l : List α) : List (List α) := chunksAux n l.length l

/-- `snapshotEntryToCommands`: the reconstruction commands for one
snapshot entry — `SET`, batched `RPUSH`/`HSET`/`SADD` (batch 512, hash
pairs flattened and sorted by field, set members sorted), followed by
`PEXPIREAT` when an expiration is present. -/
def snapshotEntryToCommands (e : rdb.Entry) : List (List Bytes) :=
  let body : List (List Bytes) :=
    match e.Typ with
    | .TypeString => [[bs "SET", e.Key, e.EString]]
    | .TypeList => (chunks 512 e.EList).map (fun c => [bs "RPUSH", e.Key] ++ c)
    | .TypeHash =>
      let fields := sortByLt bytesLt (e.EHash.map Prod.fst)
      let pairs := (fields.map (fun f =>
        [f, ((e.EHash.find? (fun p => p.1 == f)).map Prod.snd).getD []])).flatten
      (chunks 1024 pairs).map (fun c => [bs "HSET", e.Key] ++ c)
    | .TypeSet =>
      (chunks 512 (sortByLt bytesLt e.ESet)).map (fun c => [bs "SADD", e.Key] ++ c)
  body ++
    (if 0 < e.ExpireAtUnixMs then [[bs "PEXPIREAT", e.Key, intToDec e.ExpireAtUnixMs]]
     else [])

/-- `writeAofFromSnapshot`: the command records written to the rewrite
tmp file — entries sorted by key, each expanded to its reconstruction
commands. -/
def writeAofFromSnapshot (entries : List rdb.Entry) : List (List Bytes) :=
  ((sortByLt (fun a b => bytesLt a.Key b.Key) entries).map snapshotEntryToCommands).flatten

/-- `REWRITEAOF` (synchronous): `StartRewrite`, snapshot, write the
reconstruction commands, `FinishRewrite` (append the rewrite buffer —
necessarily empty within one serialized step — and atomically replace
the live log).  `db.aofRewriting` is restored by the deferred reset on
every path.  The modelled instance has the AOF handler configured. -/
def DBState.rewriteaof (st : DBState) (now : Int) : Reply × DBState :=
  if st.aofRewriting then
    (MakeErrReply (bs "ERR Background append only file rewriting already in progress"), st)
  else if st.handlerRewriting then
    (MakeErrReply (bs "ERR start rewrite failed: rewrite already in progress"), st)
  else
    let st1 := { st with handlerRewriting := true, rewriteBuf := [] }
    let p := st1.snapshotEntries now
    let cmds := writeAofFromSnapshot p.1
    (OkReply,
     { p.2 with
       aofLog := cmds ++ p.2.rewriteBuf,
       handlerRewriting := false, rewriteBuf := [] })

/-- `BGREWRITEAOF`: `StartRewrite` and take the snapshot synchronously
inside the executor; the file write and `FinishRewrite` happen in a
worker and a later executor message (outside this command's step). -/
def DBState.bgrewriteaof (st : DBState) (now : Int) : Reply × DBState :=
  if st.aofRewriting then
    (MakeErrReply (bs "ERR Background append only file rewriting already in progress"), st)
  else if st.handlerRewriting then
    (MakeErrReply (bs "ERR start rewrite failed: rewrite already in progress"), st)
  else
    let st1 := { st with aofRewriting := true, handlerRewriting := true, rewriteBuf := [] }
    let p := st1.snapshotEntries now
    (MakeStatusReply (bs "Background append only file rewriting started"), p.2)

/-! #### Dispatch, AOF translation, and the executor step (`db/db.go`) -/

/-- ASCII lower-casing (model of `strings.ToLower` on the command names,
which are ASCII). -/
def lowerBytes (s : Bytes) : Bytes :=
  s.map (fun b => if 65 ≤ b ∧ b ≤ 90 then b + 32 else b)

/-- `isError`: only `*resp.ErrorReply` counts (a `nil` reply does not). -/
def isError : Option Reply → Bool
  | some (.ErrorReply _) => true
  | _ => false

/-- `writeCommands`: the commands appended verbatim to the AOF
(`expire`/`persist` get special handling in `appendAof`). -/
def writeCommandNames : List Bytes :=
  [bs "set", bs "del", bs "lpush", bs "rpush", bs "lpop", bs "rpop",
   bs "hset", bs "hdel", bs "sadd", bs "srem", bs "pexpireat"]

def isWriteCommand (cmd : List Bytes) : Bool :=
  match cmd with
  | [] => false
  | name :: _ => writeCommandNames.contains (lowerBytes name)

/-- `execInternal`: case-folded dispatch.  `SAVE`/`BGSAVE` are dispatched
with the modelled configuration's `rdbFilename = ""`, so they return the
rdb-disabled error before touching any state. -/
def DBState.execInternal (st : DBState) (now : Int) (cmd : List Bytes) :
    Option Reply × DBState :=
  match cmd with
  | [] => (none, st)
  | name :: _ =>
    let n := lowerBytes name
    let wrap : Reply × DBState → Option Reply × DBState := fun p => (some p.1, p.2)
    if n = bs "ping" then (some (MakeStatusReply (bs "PONG")), st)
    else if n = bs "set" then wrap (st.set now cmd)
    else if n = bs "get" then wrap (st.get now cmd)
    else if n = bs "del" then wrap (st.del now cmd)
    else if n = bs "lpush" then wrap (st.lpush now cmd)
    else if n = bs "rpush" then wrap (st.rpush now cmd)
    else if n = bs "lpop" then wrap (st.lpop now cmd)
    else if n = bs "rpop" then wrap (st.rpop now cmd)
    else if n = bs "lrange" then wrap (st.lrange now cmd)
    else if n = bs "llen" then wrap (st.llen now cmd)
    else if n = bs "hset" then wrap (st.hset now cmd)
    else if n = bs "hget" then wrap (st.hget now cmd)
    else if n = bs "hgetall" then wrap (st.hgetall now cmd)
    else if n = bs "hdel" then wrap (st.hdel now cmd)
    else if n = bs "sadd" then wrap (st.sadd now cmd)
    else if n = bs "srem" then wrap (st.srem now cmd)
    else if n = bs "smembers" then wrap (st.smembers now cmd)
    else if n = bs "scard" then wrap (st.scard now cmd)
    else if n = bs "expire" then wrap (st.expire now cmd)
    else if n = bs "pexpireat" then wrap (st.pexpireat now cmd)
    else if n = bs "ttl" then wrap (st.ttl now cmd)
    else if n = bs "persist" then wrap (st.persist now cmd)
    else if n = bs "save" then
      (some (MakeErrReply (bs "ERR rdb is disabled (use --rdb to enable)")), st)
    else if n = bs "bgsave" then
      (some (MakeErrReply (bs "ERR rdb is disabled (use --rdb to enable)")), st)
    else if n = bs "rewriteaof" then wrap (st.rewriteaof now)
    else if n = bs "bgrewriteaof" then wrap (st.bgrewriteaof now)
    else (some (MakeErrReply (bs "ERR unknown command")), st)

/-- `appendAof`: the AOF translation of one executed command.
`EXPIRE` is rewritten to `PEXPIREAT key unix_ms` from the TTL table as it
stands after execution, to `DEL key` when the key was deleted
immediately, and to nothing when it returned 0; `PERSIST` is logged only
on success; other write commands are appended verbatim. -/
def DBState.appendAof (st : DBState) (cmd : List Bytes) (res : Option Reply) :
    DBState :=
  match cmd with
  | [] => st
  | name :: rest =>
    let n := lowerBytes name
    if n = bs "expire" then
      match res with
      | some (.IntReply code) =>
        if code = 1 then
          match rest with
          | key :: _ =>
            match st.ttlLookup key with
            | some t => st.AddAof [bs "PEXPIREAT", key, intToDec t]
            | none => st.AddAof [bs "DEL", key]
          | [] => st
        else st
      | _ => st
    else if n = bs "persist" then
      match res with
      | some (.IntReply code) => if code = 1 then st.AddAof cmd else st
      | _ => st
    else if isWriteCommand cmd then st.AddAof cmd
    else st

/-- `NewStandaloneDBWithConfig` with AOF enabled, RDB disabled, and the
default LRU strategy: the empty database over a fresh cache. -/
def initialDB (maxBytes : Int) : DBState :=
  { cache := Lru.New maxBytes, ttlMap := [], evictedKeys := [], aofLog := [],
    aofRewriting := false, handlerRewriting := false, rewriteBuf := [] }

/-- One iteration of the executor loop `background` for a command
request: clear the per-step eviction list, execute, and — when the
request wants AOF and the reply is not an error (the modelled instance
has the handler) — append the command's translation followed by one
synthetic `DEL key` per evicted key, in eviction order. -/
def backgroundStep (st : DBState) (now : Int) (cmd : List Bytes) (noAof : Bool) :
    Option Reply × DBState :=
  let st0 := { st with evictedKeys := [] }
  let p := st0.execInternal now cmd
  if ¬ noAof ∧ ¬ isError p.1 then
    let st2 := p.2.appendAof cmd p.1
    (p.1, p.2.evictedKeys.foldl (fun s k => s.AddAof [bs "DEL", k]) st2)
  else p

/-! ### Well-formedness of database states

Reachable states have pairwise-distinct cache keys (the Go cache carries a
`map[string]*list.Element`), cache-internal `expiresAt` always 0 (the
database passes `ttl = 0` on every `Add`), and pairwise-distinct TTL keys
(`ttlMap` is a Go map). -/

def DBState.Wf (st : DBState) : Prop :=
  (∀ e ∈ st.cache.entries, e.expiresAt = 0) ∧
  st.cache.entries.Pairwise (fun a b => a.key ≠ b.key) ∧
  st.ttlMap.Pairwise (fun a b => a.1 ≠ b.1)

instance (st : DBState) : Decidable st.Wf := by
  unfold DBState.Wf
  exact inferInstance

namespace Lru

/-- With no cache-internal TTLs, `Peek` is a pure lookup: no state change,
no events. -/
theorem Peek_spec {c : Cache} (key : Bytes) (now : Int)
    (hexp : ∀ e ∈ c.entries, e.expiresAt = 0) :
    c.Peek key now =
      ((c.entries.find? (fun e => e.key == key)).map (fun e => e.value), c, []) := by
  rw [Cache.Peek]
  cases hf : c.entries.find? (fun e => e.key == key) with
  | none => simp
  | some e =>
    have h0 : e.expiresAt = 0 := hexp e (List.mem_of_find?_eq_some hf)
    dsimp only
    rw [if_neg (by rw [h0]; simp)]
    simp

/-- With no cache-internal TTLs, `Get` is a lookup plus move-to-front:
no events. -/
theorem Get_spec {c : Cache} (key : Bytes) (now : Int)
    (hexp : ∀ e ∈ c.entries, e.expiresAt = 0) :
    c.Get key now =
      match c.entries.find? (fun e => e.key == key) with
      | none => (none, c, [])
      | some e =>
        (some e.value,
         { c with entries := e :: c.entries.eraseP (fun x => x.key == key) }, []) := by
  rw [Cache.Get]
  cases hf : c.entries.find? (fun e => e.key == key) with
  | none => rfl
  | some e =>
    dsimp only
    rw [if_neg (by rw [hexp e (List.mem_of_find?_eq_some hf)]; simp)]

end Lru

theorem applyEvents_nil (st : DBState) : applyEvents st [] = st := rfl

theorem applyEvents_cache (evs : List RemovalEvent) : ∀ st : DBState,
    (applyEvents st evs).cache = st.cache := by
  induction evs with
  | nil => intro st; rfl
  | cons ev tl ih =>
    intro st
    simp only [applyEvents, List.foldl_cons] at *
    rw [ih]

theorem applyEvents_aofLog (evs : List RemovalEvent) : ∀ st : DBState,
    (applyEvents st evs).aofLog = st.aofLog := by
  induction evs with
  | nil => intro st; rfl
  | cons ev tl ih =>
    intro st
    simp only [applyEvents, List.foldl_cons] at *
    rw [ih]

theorem applyEvents_ttl_sublist (evs : List RemovalEvent) : ∀ st : DBState,
    (applyEvents st evs).ttlMap.Sublist st.ttlMap := by
  induction evs with
  | nil => intro st; exact List.Sublist.refl _
  | cons ev tl ih =>
    intro st
    simp only [applyEvents, List.foldl_cons] at *
    exact (ih _).trans (List.eraseP_sublist _)

theorem cachePeek_spec (st : DBState) (now : Int) (key : Bytes)
    (hexp : ∀ e ∈ st.cache.entries, e.expiresAt = 0) :
    st.cachePeek now key =
      ((st.cache.entries.find? (fun e => e.key == key)).map (fun e => e.value), st) := by
  simp only [DBState.cachePeek, Lru.Peek_spec key (now / 1000) hexp, applyEvents_nil]

theorem cacheGet_spec (st : DBState) (now : Int) (key : Bytes)
    (hexp : ∀ e ∈ st.cache.entries, e.expiresAt = 0) :
    st.cacheGet now key =
      match st.cache.entries.find? (fun e => e.key == key) with
      | none => (none, st)
      | some e =>
        (some e.value,
         { st with cache := { st.cache with
             entries := e :: st.cache.entries.eraseP (fun x => x.key == key) } }) := by
  simp only [DBState.cacheGet, Lru.Get_spec key (now / 1000) hexp]
  cases hf : st.cache.entries.find? (fun e => e.key == key) with
  | none => simp [applyEvents_nil]
  | some e => simp [applyEvents_nil]

theorem cacheRemove_spec (st : DBState) (key : Bytes) :
    st.cacheRemove key =
      match st.cache.entries.find? (fun e => e.key == key) with
      | none => st
      | some e =>
        { st with
          cache := { st.cache with
            entries := st.cache.entries.eraseP (fun x => x.key == key),
            nbytes := st.cache.nbytes - Lru.entrySize e },
          ttlMap := st.ttlMap.eraseP (fun p => p.1 == key) } := by
  simp only [DBState.cacheRemove, Lru.Cache.Remove, Lru.Cache.removeKey]
  cases hf : st.cache.entries.find? (fun e => e.key == key) with
  | none => simp [applyEvents_nil]
  | some e =>
    simp only [applyEvents, List.foldl_cons, List.foldl_nil]
    simp

/-! ### Association-list lookups keyed by byte strings -/

theorem find?_append_none {α} {p : α → Bool} {l₁ : List α} (l₂ : List α)
    (h : l₁.find? p = none) : (l₁ ++ l₂).find? p = l₂.find? p := by
  induction l₁ with
  | nil => rfl
  | cons a tl ih =>
    by_cases hp : p a
    · rw [List.find?_cons_of_pos _ hp] at h; exact absurd h (by simp)
    · rw [List.find?_cons_of_neg _ hp] at h
      rw [List.cons_append, List.find?_cons_of_neg _ hp]
      exact ih h

/-- Erasing the (unique, by pairwise-distinct projections) match for `k`
leaves no match for `k`. -/
theorem find?_eraseP_self_of_pairwise {α} (f : α → Bytes) {l : List α} {k : Bytes}
    (hnd : l.Pairwise (fun a b => f a ≠ f b)) :
    (l.eraseP (fun x => f x == k)).find? (fun x => f x == k) = none := by
  induction l with
  | nil => rfl
  | cons a tl ih =>
    rcases List.pairwise_cons.mp hnd with ⟨ha, htl⟩
    by_cases hk : (f a == k) = true
    · rw [List.eraseP_cons_of_pos (p := fun x => f x == k) hk]
      apply List.find?_eq_none.mpr
      intro x hx
      have hax : f a ≠ f x := ha x hx
      have hak : f a = k := eq_of_beq hk
      simp only [beq_iff_eq]
      intro hc
      exact hax (by rw [hak, hc])
    · rw [List.eraseP_cons_of_neg (p := fun x => f x == k) hk,
        List.find?_cons_of_neg (p := fun x => f x == k) _ hk]
      exact ih htl

/-- Erasing the match for a different key `j` does not change the lookup
for `k`. -/
theorem find?_eraseP_other {α} (f : α → Bytes) {l : List α} {j k : Bytes} (hjk : j ≠ k) :
    (l.eraseP (fun x => f x == j)).find? (fun x => f x == k)
      = l.find? (fun x => f x == k) := by
  induction l with
  | nil => rfl
  | cons a tl ih =>
    by_cases hj : (f a == j) = true
    · rw [List.eraseP_cons_of_pos (p := fun x => f x == j) hj]
      have hak : ¬ (f a == k) = true := by
        simp only [beq_iff_eq]
        rw [eq_of_beq hj]
        exact hjk
      rw [List.find?_cons_of_neg (p := fun x => f x == k) _ hak]
    · rw [List.eraseP_cons_of_neg (p := fun x => f x == j) hj]
      by_cases hk : (f a == k) = true
      · rw [List.find?_cons_of_pos (p := fun x => f x == k) _ hk,
          List.find?_cons_of_pos (p := fun x => f x == k) _ hk]
      · rw [List.find?_cons_of_neg (p := fun x => f x == k) _ hk,
          List.find?_cons_of_neg (p := fun x => f x == k) _ hk, ih]

/-- `find?`/`eraseP` cons steps with the predicate pinned explicitly (the
rewriter misinfers higher-order patterns otherwise). -/
theorem find?_cons_pos {α} (q : α → Bool) {a : α} (tl : List α) (h : q a = true) :
    (a :: tl).find? q = some a := List.find?_cons_of_pos tl h

theorem find?_cons_neg {α} (q : α → Bool) {a : α} (tl : List α) (h : ¬ q a = true) :
    (a :: tl).find? q = tl.find? q := List.find?_cons_of_neg tl h

theorem eraseP_cons_pos {α} (q : α → Bool) {a : α} (tl : List α) (h : q a = true) :
    (a :: tl).eraseP q = tl := List.eraseP_cons_of_pos h

theorem eraseP_cons_neg {α} (q : α → Bool) {a : α} (tl : List α) (h : ¬ q a = true) :
    (a :: tl).eraseP q = a :: tl.eraseP q := List.eraseP_cons_of_neg h

theorem find?_update_assoc {l : List (Bytes × Int)} {k : Bytes} (v : Int)
    (h : (l.find? (fun p => p.1 == k)).isSome) :
    (l.map (fun p => if p.1 == k then (p.1, v) else p)).find? (fun p => p.1 == k)
      = some (k, v) := by
  induction l with
  | nil => simp [List.find?] at h
  | cons a tl ih =>
    by_cases hk : (a.1 == k) = true
    · simp only [List.map_cons, if_pos hk]
      rw [find?_cons_pos (fun p : Bytes × Int => p.1 == k) _ (by simpa using hk)]
      rw [eq_of_beq hk]
    · rw [find?_cons_neg (fun p : Bytes × Int => p.1 == k) _ hk] at h
      simp only [List.map_cons, if_neg hk]
      rw [find?_cons_neg (fun p : Bytes × Int => p.1 == k) _ hk]
      exact ih h

theorem find?_assocSet_self (l : List (Bytes × Int)) (k : Bytes) (v : Int) :
    (assocSet l k v).find? (fun p => p.1 == k) = some (k, v) := by
  rw [assocSet]
  by_cases h : (l.find? (fun p => p.1 == k)).isSome
  · rw [if_pos h]
    exact find?_update_assoc v h
  · rw [if_neg h]
    have hn : l.find? (fun p => p.1 == k) = none := by
      cases hf : l.find? (fun p => p.1 == k) with
      | none => rfl
      | some x => rw [hf] at h; simp at h
    rw [find?_append_none _ hn]
    rw [find?_cons_pos (fun p : Bytes × Int => p.1 == k) _ (by simp)]

theorem find?_append_single_other {l : List (Bytes × Int)} {j k : Bytes} (v : Int)
    (hjk : j ≠ k) :
    (l ++ [(j, v)]).find? (fun p => p.1 == k) = l.find? (fun p => p.1 == k) := by
  induction l with
  | nil =>
    simp only [List.nil_append]
    rw [find?_cons_neg (fun p : Bytes × Int => p.1 == k) _ (by simpa [beq_iff_eq] using hjk)]
  | cons a tl ih =>
    rw [List.cons_append]
    by_cases hk : (a.1 == k) = true
    · rw [find?_cons_pos (fun p : Bytes × Int => p.1 == k) _ hk,
        find?_cons_pos (fun p : Bytes × Int => p.1 == k) _ hk]
    · rw [find?_cons_neg (fun p : Bytes × Int => p.1 == k) _ hk,
        find?_cons_neg (fun p : Bytes × Int => p.1 == k) _ hk, ih]

theorem find?_assocSet_other (l : List (Bytes × Int)) {j k : Bytes} (v : Int)
    (hjk : j ≠ k) :
    (assocSet l j v).find? (fun p => p.1 == k) = l.find? (fun p => p.1 == k) := by
  rw [assocSet]
  by_cases h : (l.find? (fun p => p.1 == j)).isSome
  · rw [if_pos h]
    induction l with
    | nil => rfl
    | cons a tl ih =>
      by_cases hj : (a.1 == j) = true
      · have hak : ¬ (a.1 == k) = true := by
          simp only [beq_iff_eq]
          rw [eq_of_beq hj]
          exact hjk
        simp only [List.map_cons, if_pos hj]
        rw [find?_cons_neg (fun p : Bytes × Int => p.1 == k) _ (by simpa using hak),
          find?_cons_neg (fun p : Bytes × Int => p.1 == k) _ hak]
        by_cases h2 : (tl.find? (fun p => p.1 == j)).isSome
        · exact ih h2
        · have hn : tl.find? (fun p => p.1 == j) = none := by
            cases hf : tl.find? (fun p => p.1 == j) with
            | none => rfl
            | some x => rw [hf] at h2; simp at h2
          clear ih h
          induction tl with
          | nil => rfl
          | cons b tb ihb =>
            by_cases hbj : (b.1 == j) = true
            · rw [find?_cons_pos (fun p : Bytes × Int => p.1 == j) _ hbj] at hn
              exact absurd hn (by simp)
            · rw [find?_cons_neg (fun p : Bytes × Int => p.1 == j) _ hbj] at hn
              simp only [List.map_cons, if_neg hbj]
              by_cases hbk : (b.1 == k) = true
              · rw [find?_cons_pos (fun p : Bytes × Int => p.1 == k) _ hbk,
                  find?_cons_pos (fun p : Bytes × Int => p.1 == k) _ hbk]
              · rw [find?_cons_neg (fun p : Bytes × Int => p.1 == k) _ hbk,
                  find?_cons_neg (fun p : Bytes × Int => p.1 == k) _ hbk]
                exact ihb (by simp [hn]) hn
      · simp only [List.map_cons, if_neg hj]
        rw [find?_cons_neg (fun p : Bytes × Int => p.1 == j) _ hj] at h
        by_cases hk : (a.1 == k) = true
        · rw [find?_cons_pos (fun p : Bytes × Int => p.1 == k) _ hk,
            find?_cons_pos (fun p : Bytes × Int => p.1 == k) _ hk]
        · rw [find?_cons_neg (fun p : Bytes × Int => p.1 == k) _ hk,
            find?_cons_neg (fun p : Bytes × Int => p.1 == k) _ hk]
          exact ih h
  · rw [if_neg h]
    exact find?_append_single_other v hjk

/-! ### The append log as data -/

theorem foldl_AddAof_eq (cmds : List (List Bytes)) : ∀ st : DBState,
    cmds.foldl (fun s c => s.AddAof c) st =
      { st with
        aofLog := st.aofLog ++ cmds,
        rewriteBuf := if st.handlerRewriting then st.rewriteBuf ++ cmds
          else st.rewriteBuf } := by
  induction cmds with
  | nil =>
    intro st
    cases st with
    | mk cache ttlMap evictedKeys aofLog aofRewriting handlerRewriting rewriteBuf =>
      cases handlerRewriting <;> simp
  | cons c tl ih =>
    intro st
    simp only [List.foldl_cons]
    rw [ih]
    simp only [DBState.AddAof]
    cases hh : st.handlerRewriting <;> simp [hh, List.append_assoc]

/-- The records `appendAof` appends for one executed command, as a pure
function of the post-execution state (for the `EXPIRE` TTL read). -/
def aofTranslation (st : DBState) (cmd : List Bytes) (res : Option Reply) :
    List (List Bytes) :=
  match cmd with
  | [] => []
  | name :: rest =>
    let n := lowerBytes name
    if n = bs "expire" then
      match res with
      | some (.IntReply code) =>
        if code = 1 then
          match rest with
          | key :: _ =>
            match st.ttlLookup key with
            | some t => [[bs "PEXPIREAT", key, intToDec t]]
            | none => [[bs "DEL", key]]
          | [] => []
        else []
      | _ => []
    else if n = bs "persist" then
      match res with
      | some (.IntReply code) => if code = 1 then [cmd] else []
      | _ => []
    else if isWriteCommand cmd then [cmd] else []

theorem appendAof_eq (st : DBState) (cmd : List Bytes) (res : Option Reply) :
    st.appendAof cmd res =
      (aofTranslation st cmd res).foldl (fun s c => s.AddAof c) st := by
  rw [DBState.appendAof.eq_def, aofTranslation.eq_def]
  cases cmd with
  | nil => rfl
  | cons name rest =>
    dsimp only
    by_cases he : lowerBytes name = bs "expire"
    · rw [if_pos he, if_pos he]
      cases res with
      | none => rfl
      | some r =>
        cases r <;> try rfl
        next code =>
          dsimp only
          by_cases hc : code = 1
          · rw [if_pos hc, if_pos hc]
            cases rest with
            | nil => rfl
            | cons key tail =>
              dsimp only
              cases st.ttlLookup key <;> rfl
          · rw [if_neg hc, if_neg hc]; rfl
    · rw [if_neg he, if_neg he]
      by_cases hp : lowerBytes name = bs "persist"
      · rw [if_pos hp, if_pos hp]
        cases res with
        | none => rfl
        | some r =>
          cases r <;> try rfl
          next code =>
            dsimp only
            by_cases hc : code = 1
            · rw [if_pos hc, if_pos hc]; rfl
            · rw [if_neg hc, if_neg hc]; rfl
      · rw [if_neg hp, if_neg hp]
        by_cases hw : isWriteCommand (name :: rest) = true
        · rw [if_pos hw, if_pos hw]; rfl
        · rw [if_neg hw, if_neg hw]; rfl

/-! ### Claim C2 — AOF translation of EXPIRE -/

/-- C2: for `EXPIRE key seconds` executed with AOF enabled: a reply of 1
with a TTL-table entry `t` remaining logs exactly `PEXPIREAT key t`, where
`t` is the absolute instant `now + seconds·1000` computed at execution
time; a reply of 1 with no remaining TTL entry (immediate delete,
`seconds ≤ 0`) logs exactly `DEL key`; a reply of 0 (key absent) logs
nothing. -/
theorem C2_expire_aof_translation (st : DBState) (now : Int) (key secArg : Bytes)
    (hwf : st.Wf) :
    ((backgroundStep st now [bs "EXPIRE", key, secArg] false).1
        = some (MakeIntReply 1) →
      (∀ t, (backgroundStep st now [bs "EXPIRE", key, secArg] false).2.ttlLookup key
            = some t →
        (backgroundStep st now [bs "EXPIRE", key, secArg] false).2.aofLog
          = st.aofLog ++ [[bs "PEXPIREAT", key, intToDec t]] ∧
        ∀ s, parseInt secArg = some s → t = now + s * 1000) ∧
      ((backgroundStep st now [bs "EXPIRE", key, secArg] false).2.ttlLookup key
          = none →
        (backgroundStep st now [bs "EXPIRE", key, secArg] false).2.aofLog
          = st.aofLog ++ [[bs "DEL", key]])) ∧
    ((backgroundStep st now [bs "EXPIRE", key, secArg] false).1
        = some (MakeIntReply 0) →
      (backgroundStep st now [bs "EXPIRE", key, secArg] false).2.aofLog
        = st.aofLog) := by
  obtain ⟨hexp, hndc, hndt⟩ := hwf
  have hdis : ∀ s : DBState, s.execInternal now (bs "EXPIRE" :: key :: [secArg]) =
      (some (s.expire now (bs "EXPIRE" :: key :: [secArg])).1,
       (s.expire now (bs "EXPIRE" :: key :: [secArg])).2) := by
    intro s
    simp [DBState.execInternal, lowerBytes, bs]
  have hexpire : lowerBytes (bs "EXPIRE") = bs "expire" := by decide
  simp only [backgroundStep, hdis, DBState.expire]
  cases hps : parseInt secArg with
  | none =>
    simp [isError, MakeErrReply, MakeIntReply]
  | some seconds =>
    dsimp only
    rw [cachePeek_spec { st with evictedKeys := [] } now key hexp]
    dsimp only
    cases hf : st.cache.entries.find? (fun e => e.key == key) with
    | none =>
      dsimp only [Option.map]
      simp only [isError, MakeIntReply, appendAof_eq, aofTranslation, hexpire]
      simp [DBState.AddAof]
    | some e =>
      dsimp only [Option.map]
      by_cases hsec : seconds ≤ 0
      · rw [if_pos hsec]
        rw [cacheRemove_spec]
        dsimp only
        rw [hf]
        simp only [isError, MakeIntReply, appendAof_eq, aofTranslation, hexpire]
        simp only [DBState.ttlLookup]
        rw [find?_eraseP_self_of_pairwise Prod.fst hndt]
        simp [DBState.AddAof]
        intro t x
        rw [find?_eraseP_self_of_pairwise Prod.fst hndt]
        simp
      · rw [if_neg hsec]
        simp only [isError, MakeIntReply, appendAof_eq, aofTranslation, hexpire]
        simp only [DBState.ttlLookup]
        rw [find?_assocSet_self]
        simp only [Option.map_some, List.foldl_cons, List.foldl_nil]
        simp [DBState.AddAof, hps]
        constructor
        · intro t x hx
          rw [find?_assocSet_self] at hx
          simp only [Option.some.injEq, Prod.mk.injEq] at hx
          rw [← hx.2]
          exact ⟨rfl, rfl⟩
        · exact ⟨now + seconds * 1000,
            List.mem_of_find?_eq_some (find?_assocSet_self st.ttlMap key _)⟩

/-- The concrete base state shared by the database-level witnesses: an
unbounded fresh database after `SET k v` at time 0. -/
def wsK : DBState := (backgroundStep (initialDB 0) 0 [bs "SET", bs "k", bs "v"] false).2

theorem C2_expire_aof_translation_witness :
    wsK.Wf ∧
    (backgroundStep wsK 1000 [bs "EXPIRE", bs "k", bs "5"] false).2.ttlLookup (bs "k")
      = some 6000 ∧
    (backgroundStep wsK 1000 [bs "EXPIRE", bs "k", bs "5"] false).2.aofLog
      = wsK.aofLog ++ [[bs "PEXPIREAT", bs "k", intToDec 6000]] := by
  refine ⟨by decide, by decide, ?_⟩
  exact (((C2_expire_aof_translation wsK 1000 (bs "k") (bs "5") (by decide)).1
      (by decide)).1 6000 (by decide)).1

/-! ### Freshness of eviction events: an evicted key is gone from the
cache, so the removal callback never drops the TTL of a surviving key. -/

namespace Lru

theorem RemoveOldest_entries (c : Cache) : (c.RemoveOldest).1.entries = c.entries.dropLast := by
  rw [Cache.RemoveOldest]
  cases hl : c.entries.getLast? with
  | none =>
    have he : c.entries = [] := by
      cases hc : c.entries with
      | nil => rfl
      | cons x xs => rw [hc] at hl; simp at hl
    rw [he]
    rfl
  | some e => rfl

theorem evictLoopFuel_entries_sublist : ∀ (fuel : Nat) (c : Cache),
    ((Cache.evictLoopFuel fuel c).1.entries).Sublist c.entries := by
  intro fuel
  induction fuel with
  | zero => intro c; exact List.Sublist.refl _
  | succ n ih =>
    intro c
    rw [Cache.evictLoopFuel]
    split
    · cases hl : c.entries.getLast? with
      | none => exact List.Sublist.refl _
      | some e =>
        dsimp only
        refine (ih _).trans ?_
        rw [RemoveOldest_entries]
        exact List.dropLast_sublist _
    · exact List.Sublist.refl _

theorem evictLoopFuel_events_fresh : ∀ (fuel : Nat) (c : Cache),
    c.entries.Pairwise (fun a b => a.key ≠ b.key) →
    ∀ ev ∈ (Cache.evictLoopFuel fuel c).2,
      ∀ e ∈ (Cache.evictLoopFuel fuel c).1.entries, e.key ≠ ev.1 := by
  intro fuel
  induction fuel with
  | zero => intro c _ ev hev; simp [Cache.evictLoopFuel] at hev
  | succ n ih =>
    intro c hnd ev hev e he
    rw [Cache.evictLoopFuel] at hev he
    by_cases hc : c.maxBytes ≠ 0 ∧ c.maxBytes < c.nbytes
    · rw [if_pos hc] at hev he
      cases hl : c.entries.getLast? with
      | none => rw [hl] at hev; simp at hev
      | some el =>
        rw [hl] at hev he
        dsimp only at hev he
        have hne : c.entries ≠ [] := by
          intro hnil; rw [hnil] at hl; simp at hl
        have hspl : c.entries.dropLast ++ [c.entries.getLast hne] = c.entries :=
          List.dropLast_append_getLast hne
        have hel : c.entries.getLast hne = el := by
          have := List.getLast?_eq_getLast c.entries hne
          rw [this] at hl
          exact (Option.some.injEq _ _ ▸ hl :)
        have hdl : ((c.RemoveOldest).1).entries = c.entries.dropLast :=
          RemoveOldest_entries c
        have hnd' : ((c.RemoveOldest).1).entries.Pairwise (fun a b => a.key ≠ b.key) := by
          rw [hdl]
          exact hnd.sublist (List.dropLast_sublist _)
        have hfresh : ∀ x ∈ c.entries.dropLast, x.key ≠ el.key := by
          intro x hx
          have hnd2 := hnd
          rw [← hspl, hel] at hnd2
          have := (List.pairwise_append.mp hnd2).2.2
          exact fun hfc => (this x hx el (by simp)) hfc
        have hp2 : (c.RemoveOldest).2 = [(el.key, RemoveReason.RemoveReasonEvicted)] := by
          rw [Cache.RemoveOldest, hl]
        rw [hp2] at hev
        rcases List.mem_append.mp hev with h1 | h2
        · rcases List.mem_singleton.mp h1 with rfl
          have hesub : e ∈ c.entries.dropLast := by
            have hs := evictLoopFuel_entries_sublist n (c.RemoveOldest).1
            rw [hdl] at hs
            exact hs.mem he
          exact hfresh e hesub
        · exact ih (c.RemoveOldest).1 hnd' ev h2 e he
    · rw [if_neg hc] at hev
      simp at hev

/-- After erasing the unique entry for `k`, no remaining entry has key `k`. -/
theorem mem_eraseP_key_ne {l : List LruEntry} {k : Bytes}
    (hnd : l.Pairwise (fun a b => a.key ≠ b.key)) :
    ∀ x ∈ l.eraseP (fun e => e.key == k), x.key ≠ k := by
  intro x hx
  have hnone := find?_eraseP_self_of_pairwise LruEntry.key (k := k) hnd
  have := List.find?_eq_none.mp hnone x hx
  simpa [beq_iff_eq] using this

/-- The pre-eviction cache of `Add` (update-in-place or insert-at-front)
keeps keys pairwise distinct. -/
theorem Add_inner_pairwise {c : Cache}
    (hnd : c.entries.Pairwise (fun a b => a.key ≠ b.key))
    (key : Bytes) (value : DataEntity) (ea : Int) :
    ((⟨key, value, ea⟩ : LruEntry) ::
        (match c.entries.find? (fun e => e.key == key) with
         | some _ => c.entries.eraseP (fun e => e.key == key)
         | none => c.entries)).Pairwise (fun a b => a.key ≠ b.key) := by
  cases hf : c.entries.find? (fun e => e.key == key) with
  | none =>
    constructor
    · intro b hb
      have hb2 := List.find?_eq_none.mp hf b hb
      intro hcc
      apply hb2
      simp only [beq_iff_eq]
      exact hcc.symm
    · exact hnd
  | some e =>
    constructor
    · intro b hb
      intro hcc
      exact (mem_eraseP_key_ne hnd b hb) hcc.symm
    · exact List.Pairwise.sublist (List.eraseP_sublist _) hnd

theorem Add_pairwise {c : Cache} (hnd : c.entries.Pairwise (fun a b => a.key ≠ b.key))
    (key : Bytes) (value : DataEntity) (ttl now : Int) :
    ((c.Add key value ttl now).1.entries).Pairwise (fun a b => a.key ≠ b.key) := by
  rw [Cache.Add, Cache.evictLoop]
  apply List.Pairwise.sublist (evictLoopFuel_entries_sublist _ _)
  cases hf : c.entries.find? (fun e => e.key == key) with
  | none =>
    have h := Add_inner_pairwise hnd key value (if ttl > 0 then now + ttl else 0)
    rw [hf] at h
    exact h
  | some e =>
    have h := Add_inner_pairwise hnd key value (if ttl > 0 then now + ttl else 0)
    rw [hf] at h
    exact h

theorem Add_events_fresh {c : Cache} (hnd : c.entries.Pairwise (fun a b => a.key ≠ b.key))
    (key : Bytes) (value : DataEntity) (ttl now : Int) :
    ∀ ev ∈ (c.Add key value ttl now).2,
      ∀ e ∈ (c.Add key value ttl now).1.entries, e.key ≠ ev.1 := by
  rw [Cache.Add, Cache.evictLoop]
  apply evictLoopFuel_events_fresh
  cases hf : c.entries.find? (fun e => e.key == key) with
  | none =>
    have h := Add_inner_pairwise hnd key value (if ttl > 0 then now + ttl else 0)
    rw [hf] at h
    exact h
  | some e =>
    have h := Add_inner_pairwise hnd key value (if ttl > 0 then now + ttl else 0)
    rw [hf] at h
    exact h

end Lru

theorem applyEvents_ttlLookup_frame (evs : List RemovalEvent) :
    ∀ (st : DBState) (k : Bytes), (∀ ev ∈ evs, ev.1 ≠ k) →
    (applyEvents st evs).ttlLookup k = st.ttlLookup k := by
  induction evs with
  | nil => intro st k _; rfl
  | cons ev tl ih =>
    intro st k h
    simp only [applyEvents, List.foldl_cons] at *
    rw [ih _ k (fun e he => h e (List.mem_cons_of_mem _ he))]
    simp only [DBState.ttlLookup]
    rw [find?_eraseP_other Prod.fst (h ev (List.mem_cons_self _ _))]

/-- A `cacheAdd` leaves the TTL entry of any key that is still in the
cache afterwards untouched: eviction events only name evicted keys. -/
theorem cacheAdd_ttl_frame (st : DBState) (now : Int) (key : Bytes) (value : DataEntity)
    (hnd : st.cache.entries.Pairwise (fun a b => a.key ≠ b.key)) (k : Bytes)
    (hmem : ∃ e ∈ (st.cacheAdd now key value).cache.entries, e.key = k) :
    (st.cacheAdd now key value).ttlLookup k = st.ttlLookup k := by
  rw [DBState.cacheAdd] at hmem ⊢
  rw [applyEvents_cache] at hmem
  obtain ⟨e, he, hek⟩ := hmem
  rw [applyEvents_ttlLookup_frame]
  · simp [DBState.ttlLookup]
  · intro ev hev
    have hfr := Lru.Add_events_fresh hnd key value 0 (now / 1000) ev hev e he
    rw [hek] at hfr
    exact fun hc => hfr hc.symm

theorem cacheAdd_aofLog (st : DBState) (now : Int) (key : Bytes) (value : DataEntity) :
    (st.cacheAdd now key value).aofLog = st.aofLog := by
  rw [DBState.cacheAdd]
  rw [applyEvents_aofLog]

theorem cacheAdd_cache_entries (st : DBState) (now : Int) (key : Bytes)
    (value : DataEntity) :
    (st.cacheAdd now key value).cache.entries
      = (st.cache.Add key value 0 (now / 1000)).1.entries := by
  rw [DBState.cacheAdd]
  rw [applyEvents_cache]

/-- Lookup on the moved-to-front list produced by `Get`. -/
theorem find?_moved {l : List LruEntry} {k : Bytes} {e : LruEntry}
    (hf : l.find? (fun x => x.key == k) = some e) :
    (e :: l.eraseP (fun x => x.key == k)).find? (fun x => x.key == k) = some e :=
  find?_cons_pos (fun x : LruEntry => x.key == k) _
    (List.find?_some (p := fun x : LruEntry => x.key == k) hf)

theorem moved_hexp {l : List LruEntry} {k : Bytes} {e : LruEntry}
    (hexp : ∀ x ∈ l, x.expiresAt = 0)
    (hf : l.find? (fun x => x.key == k) = some e) :
    ∀ x ∈ e :: l.eraseP (fun y => y.key == k), x.expiresAt = 0 := by
  intro x hx
  rcases List.mem_cons.mp hx with rfl | hx2
  · exact hexp x (List.mem_of_find?_eq_some hf)
  · exact hexp x ((List.eraseP_sublist _).mem hx2)

theorem moved_pairwise {l : List LruEntry} {k : Bytes} {e : LruEntry}
    (hnd : l.Pairwise (fun a b => a.key ≠ b.key))
    (hf : l.find? (fun x => x.key == k) = some e) :
    (e :: l.eraseP (fun y => y.key == k)).Pairwise (fun a b => a.key ≠ b.key) := by
  constructor
  · intro b hb
    have hek : e.key = k :=
      eq_of_beq (List.find?_some (p := fun x : LruEntry => x.key == k) hf)
    have hbk := Lru.mem_eraseP_key_ne hnd b hb
    rw [hek]
    exact fun hc => hbk hc.symm
  · exact List.Pairwise.sublist (List.eraseP_sublist _) hnd

theorem foldl_AddAofDel_eq (keys : List Bytes) : ∀ st : DBState,
    keys.foldl (fun s kb => s.AddAof [bs "DEL", kb]) st =
      { st with
        aofLog := st.aofLog ++ keys.map (fun kb => [bs "DEL", kb]),
        rewriteBuf := if st.handlerRewriting then
            st.rewriteBuf ++ keys.map (fun kb => [bs "DEL", kb])
          else st.rewriteBuf } := by
  induction keys with
  | nil =>
    intro st
    cases st with
    | mk cache ttlMap ek log ar hr rb => cases hr <;> simp
  | cons kb tl ih =>
    intro st
    simp only [List.foldl_cons]
    rw [ih]
    simp only [DBState.AddAof]
    cases hh : st.handlerRewriting <;> simp [hh, List.append_assoc]

/-- The post-execution bookkeeping of the executor step only appends to
the log: reply, cache and TTL table are those of the executed command. -/
theorem backgroundStep_proj (st : DBState) (now : Int) (cmd : List Bytes) :
    (backgroundStep st now cmd false).1
        = (DBState.execInternal { st with evictedKeys := [] } now cmd).1 ∧
    (backgroundStep st now cmd false).2.ttlMap
        = (DBState.execInternal { st with evictedKeys := [] } now cmd).2.ttlMap ∧
    (backgroundStep st now cmd false).2.cache
        = (DBState.execInternal { st with evictedKeys := [] } now cmd).2.cache := by
  rw [backgroundStep]
  dsimp only
  split
  · rw [foldl_AddAofDel_eq, appendAof_eq, foldl_AddAof_eq]
    exact ⟨rfl, rfl, rfl⟩
  · exact ⟨rfl, rfl, rfl⟩

theorem cacheAdd_ttl_pairwise (st : DBState) (now : Int) (key : Bytes)
    (value : DataEntity) (hndt : st.ttlMap.Pairwise (fun a b => a.1 ≠ b.1)) :
    (st.cacheAdd now key value).ttlMap.Pairwise (fun a b => a.1 ≠ b.1) := by
  rw [DBState.cacheAdd]
  exact List.Pairwise.sublist (applyEvents_ttl_sublist _ _) hndt

theorem cacheRemove_not_mem (st : DBState) (k : Bytes)
    (hnd : st.cache.entries.Pairwise (fun a b => a.key ≠ b.key)) :
    ¬ ∃ e ∈ (st.cacheRemove k).cache.entries, e.key = k := by
  rw [cacheRemove_spec]
  cases hf : st.cache.entries.find? (fun e => e.key == k) with
  | none =>
    rintro ⟨e, he, rfl⟩
    exact absurd (List.find?_eq_none.mp hf e he) (by simp)
  | some e0 =>
    rintro ⟨e, he, rfl⟩
    exact Lru.mem_eraseP_key_ne hnd e he rfl

/-- `SET` erases the key's TTL entry after storing the value. -/
theorem set_clears_ttl (st : DBState) (now : Int) (k v : Bytes)
    (hndt : st.ttlMap.Pairwise (fun a b => a.1 ≠ b.1)) :
    (st.set now [bs "SET", k, v]).2.ttlLookup k = none := by
  rw [DBState.set]
  dsimp only
  simp only [DBState.ttlLookup]
  rw [find?_eraseP_self_of_pairwise Prod.fst
    (cacheAdd_ttl_pairwise st now k (.StringData v) hndt)]
  rfl

/-- `getListForWrite` with the key's TTL not past-due: the TTL table is
untouched and the cache invariants survive (only a move-to-front can
happen). -/
theorem getListForWrite_state (st : DBState) (now : Int) (k : Bytes)
    (hexp : ∀ e ∈ st.cache.entries, e.expiresAt = 0)
    (hndc : st.cache.entries.Pairwise (fun a b => a.key ≠ b.key))
    (httl : ∀ t, st.ttlLookup k = some t → ¬ t < now) :
    (st.getListForWrite now k).2.ttlMap = st.ttlMap ∧
    ((st.getListForWrite now k).2.cache.entries.Pairwise (fun a b => a.key ≠ b.key)) ∧
    (∀ x ∈ (st.getListForWrite now k).2.cache.entries, x.expiresAt = 0) := by
  rw [DBState.getListForWrite]
  rw [cacheGet_spec st now k hexp]
  cases hf : st.cache.entries.find? (fun e => e.key == k) with
  | none => exact ⟨rfl, hndc, hexp⟩
  | some e =>
    dsimp only
    simp only [DBState.ttlLookup] at httl ⊢
    cases hT : (st.ttlMap.find? (fun p => p.1 == k)).map Prod.snd with
    | none =>
      dsimp only
      exact ⟨rfl, moved_pairwise hndc hf, moved_hexp hexp hf⟩
    | some t =>
      dsimp only
      rw [if_neg (httl t hT)]
      exact ⟨rfl, moved_pairwise hndc hf, moved_hexp hexp hf⟩

theorem lpush_ttl_frame (st : DBState) (now : Int) (k v : Bytes)
    (hexp : ∀ e ∈ st.cache.entries, e.expiresAt = 0)
    (hndc : st.cache.entries.Pairwise (fun a b => a.key ≠ b.key))
    (httl : ∀ t, st.ttlLookup k = some t → ¬ t < now)
    (hmem : ∃ e ∈ (st.lpush now [bs "LPUSH", k, v]).2.cache.entries, e.key = k) :
    (st.lpush now [bs "LPUSH", k, v]).2.ttlLookup k = st.ttlLookup k := by
  obtain ⟨hTm, hPw, _⟩ := getListForWrite_state st now k hexp hndc httl
  revert hmem
  rw [DBState.lpush]
  cases hr : (st.getListForWrite now k).1 with
  | error e =>
    dsimp only
    intro _
    simp only [DBState.ttlLookup, hTm]
  | ok l =>
    dsimp only
    intro hmem
    rw [cacheAdd_ttl_frame _ now k _ hPw k hmem]
    simp only [DBState.ttlLookup, hTm]

theorem rpush_ttl_frame (st : DBState) (now : Int) (k v : Bytes)
    (hexp : ∀ e ∈ st.cache.entries, e.expiresAt = 0)
    (hndc : st.cache.entries.Pairwise (fun a b => a.key ≠ b.key))
    (httl : ∀ t, st.ttlLookup k = some t → ¬ t < now)
    (hmem : ∃ e ∈ (st.rpush now [bs "RPUSH", k, v]).2.cache.entries, e.key = k) :
    (st.rpush now [bs "RPUSH", k, v]).2.ttlLookup k = st.ttlLookup k := by
  obtain ⟨hTm, hPw, _⟩ := getListForWrite_state st now k hexp hndc httl
  revert hmem
  rw [DBState.rpush]
  cases hr : (st.getListForWrite now k).1 with
  | error e =>
    dsimp only
    intro _
    simp only [DBState.ttlLookup, hTm]
  | ok l =>
    dsimp only
    intro hmem
    rw [cacheAdd_ttl_frame _ now k _ hPw k hmem]
    simp only [DBState.ttlLookup, hTm]

theorem lpop_ttl_frame (st : DBState) (now : Int) (k : Bytes)
    (hexp : ∀ e ∈ st.cache.entries, e.expiresAt = 0)
    (hndc : st.cache.entries.Pairwise (fun a b => a.key ≠ b.key))
    (httl : ∀ t, st.ttlLookup k = some t → ¬ t < now)
    (hmem : ∃ e ∈ (st.lpop now [bs "LPOP", k]).2.cache.entries, e.key = k) :
    (st.lpop now [bs "LPOP", k]).2.ttlLookup k = st.ttlLookup k := by
  revert hmem
  rw [DBState.lpop]
  rw [cacheGet_spec st now k hexp]
  simp only [DBState.ttlLookup] at httl ⊢
  cases hf : st.cache.entries.find? (fun e => e.key == k) with
  | none => intro _; rfl
  | some e =>
    dsimp only
    cases hT : (st.ttlMap.find? (fun p => p.1 == k)).map Prod.snd with
    | some t =>
      dsimp only
      rw [if_neg (httl t hT)]
      cases hv : e.value with
      | ListData l =>
        dsimp only
        cases l with
        | nil => intro _; simpa using hT
        | cons front rest =>
          dsimp only
          by_cases hre : rest.isEmpty
          · rw [if_pos hre]
            intro hmem
            exact absurd hmem (by
              have := cacheRemove_not_mem
                { st with cache := { st.cache with
                    entries := e :: st.cache.entries.eraseP (fun x => x.key == k) } }
                k (moved_pairwise hndc hf)
              simpa [DBState.ttlLookup] using this)
          · rw [if_neg hre]
            intro hmem
            have hfr := cacheAdd_ttl_frame _ now k
              (DataEntity.ListData rest) (moved_pairwise hndc hf) k hmem
            simp only [DBState.ttlLookup] at hfr
            rw [hfr]
            simpa using hT
      | StringData s => intro _; simpa using hT
      | HashData h => intro _; simpa using hT
      | SetData s => intro _; simpa using hT
    | none =>
      dsimp only
      cases hv : e.value with
      | ListData l =>
        dsimp only
        cases l with
        | nil => intro _; simpa using hT
        | cons front rest =>
          dsimp only
          by_cases hre : rest.isEmpty
          · rw [if_pos hre]
            intro hmem
            exact absurd hmem (by
              have := cacheRemove_not_mem
                { st with cache := { st.cache with
                    entries := e :: st.cache.entries.eraseP (fun x => x.key == k) } }
                k (moved_pairwise hndc hf)
              simpa [DBState.ttlLookup] using this)
          · rw [if_neg hre]
            intro hmem
            have hfr := cacheAdd_ttl_frame _ now k
              (DataEntity.ListData rest) (moved_pairwise hndc hf) k hmem
            simp only [DBState.ttlLookup] at hfr
            rw [hfr]
            simpa using hT
      | StringData s => intro _; simpa using hT
      | HashData h => intro _; simpa using hT
      | SetData s => intro _; simpa using hT

theorem rpop_ttl_frame (st : DBState) (now : Int) (k : Bytes)
    (hexp : ∀ e ∈ st.cache.entries, e.expiresAt = 0)
    (hndc : st.cache.entries.Pairwise (fun a b => a.key ≠ b.key))
    (httl : ∀ t, st.ttlLookup k = some t → ¬ t < now)
    (hmem : ∃ e ∈ (st.rpop now [bs "RPOP", k]).2.cache.entries, e.key = k) :
    (st.rpop now [bs "RPOP", k]).2.ttlLookup k = st.ttlLookup k := by
  revert hmem
  rw [DBState.rpop]
  rw [cacheGet_spec st now k hexp]
  simp only [DBState.ttlLookup] at httl ⊢
  cases hf : st.cache.entries.find? (fun e => e.key == k) with
  | none => intro _; rfl
  | some e =>
    dsimp only
    cases hT : (st.ttlMap.find? (fun p => p.1 == k)).map Prod.snd with
    | some t =>
      dsimp only
      rw [if_neg (httl t hT)]
      cases hv : e.value with
      | ListData l =>
        dsimp only
        cases hgl : l.getLast? with
        | none => intro _; simpa using hT
        | some back =>
          dsimp only
          by_cases hre : l.dropLast.isEmpty
          · rw [if_pos hre]
            intro hmem
            exact absurd hmem (by
              have := cacheRemove_not_mem
                { st with cache := { st.cache with
                    entries := e :: st.cache.entries.eraseP (fun x => x.key == k) } }
                k (moved_pairwise hndc hf)
              simpa [DBState.ttlLookup] using this)
          · rw [if_neg hre]
            intro hmem
            have hfr := cacheAdd_ttl_frame _ now k
              (DataEntity.ListData l.dropLast) (moved_pairwise hndc hf) k hmem
            simp only [DBState.ttlLookup] at hfr
            rw [hfr]
            simpa using hT
      | StringData s => intro _; simpa using hT
      | HashData h => intro _; simpa using hT
      | SetData s => intro _; simpa using hT
    | none =>
      dsimp only
      cases hv : e.value with
      | ListData l =>
        dsimp only
        cases hgl : l.getLast? with
        | none => intro _; simpa using hT
        | some back =>
          dsimp only
          by_cases hre : l.dropLast.isEmpty
          · rw [if_pos hre]
            intro hmem
            exact absurd hmem (by
              have := cacheRemove_not_mem
                { st with cache := { st.cache with
                    entries := e :: st.cache.entries.eraseP (fun x => x.key == k) } }
                k (moved_pairwise hndc hf)
              simpa [DBState.ttlLookup] using this)
          · rw [if_neg hre]
            intro hmem
            have hfr := cacheAdd_ttl_frame _ now k
              (DataEntity.ListData l.dropLast) (moved_pairwise hndc hf) k hmem
            simp only [DBState.ttlLookup] at hfr
            rw [hfr]
            simpa using hT
      | StringData s => intro _; simpa using hT
      | HashData h => intro _; simpa using hT
      | SetData s => intro _; simpa using hT

theorem getHash_state (st : DBState) (now : Int) (k : Bytes)
    (hexp : ∀ e ∈ st.cache.entries, e.expiresAt = 0)
    (hndc : st.cache.entries.Pairwise (fun a b => a.key ≠ b.key))
    (httl : ∀ t, st.ttlLookup k = some t → ¬ t < now) :
    (st.getHash now k).2.ttlMap = st.ttlMap ∧
    ((st.getHash now k).2.cache.entries.Pairwise (fun a b => a.key ≠ b.key)) ∧
    (∀ x ∈ (st.getHash now k).2.cache.entries, x.expiresAt = 0) := by
  rw [DBState.getHash]
  rw [cacheGet_spec st now k hexp]
  cases hf : st.cache.entries.find? (fun e => e.key == k) with
  | none => exact ⟨rfl, hndc, hexp⟩
  | some e =>
    dsimp only
    simp only [DBState.ttlLookup] at httl ⊢
    cases hT : (st.ttlMap.find? (fun p => p.1 == k)).map Prod.snd with
    | none =>
      dsimp only
      exact ⟨rfl, moved_pairwise hndc hf, moved_hexp hexp hf⟩
    | some t =>
      dsimp only
      rw [if_neg (httl t hT)]
      exact ⟨rfl, moved_pairwise hndc hf, moved_hexp hexp hf⟩

theorem getSet_state (st : DBState) (now : Int) (k : Bytes)
    (hexp : ∀ e ∈ st.cache.entries, e.expiresAt = 0)
    (hndc : st.cache.entries.Pairwise (fun a b => a.key ≠ b.key))
    (httl : ∀ t, st.ttlLookup k = some t → ¬ t < now) :
    (st.getSet now k).2.ttlMap = st.ttlMap ∧
    ((st.getSet now k).2.cache.entries.Pairwise (fun a b => a.key ≠ b.key)) ∧
    (∀ x ∈ (st.getSet now k).2.cache.entries, x.expiresAt = 0) := by
  rw [DBState.getSet]
  rw [cacheGet_spec st now k hexp]
  cases hf : st.cache.entries.find? (fun e => e.key == k) with
  | none => exact ⟨rfl, hndc, hexp⟩
  | some e =>
    dsimp only
    simp only [DBState.ttlLookup] at httl ⊢
    cases hT : (st.ttlMap.find? (fun p => p.1 == k)).map Prod.snd with
    | none =>
      dsimp only
      exact ⟨rfl, moved_pairwise hndc hf, moved_hexp hexp hf⟩
    | some t =>
      dsimp only
      rw [if_neg (httl t hT)]
      exact ⟨rfl, moved_pairwise hndc hf, moved_hexp hexp hf⟩

theorem hset_ttl_frame (st : DBState) (now : Int) (k f v : Bytes)
    (hexp : ∀ e ∈ st.cache.entries, e.expiresAt = 0)
    (hndc : st.cache.entries.Pairwise (fun a b => a.key ≠ b.key))
    (httl : ∀ t, st.ttlLookup k = some t → ¬ t < now)
    (hmem : ∃ e ∈ (st.hset now [bs "HSET", k, f, v]).2.cache.entries, e.key = k) :
    (st.hset now [bs "HSET", k, f, v]).2.ttlLookup k = st.ttlLookup k := by
  obtain ⟨hTm, hPw, hEx⟩ := getHash_state st now k hexp hndc httl
  revert hmem
  rw [DBState.hset]
  rw [if_neg (by simp)]
  dsimp only
  cases hr : (st.getHash now k).1 with
  | some h =>
    dsimp only
    intro hmem
    have hfr := cacheAdd_ttl_frame _ now k _ hPw k hmem
    simp only [DBState.ttlLookup] at hfr ⊢
    rw [hfr, hTm]
  | none =>
    dsimp only
    rw [cacheGet_spec _ now k hEx]
    cases hg : (st.getHash now k).2.cache.entries.find? (fun e => e.key == k) with
    | none =>
      dsimp only
      intro hmem
      have hfr := cacheAdd_ttl_frame _ now k _ hPw k hmem
      simp only [DBState.ttlLookup] at hfr ⊢
      rw [hfr, hTm]
    | some e2 =>
      dsimp only
      cases hv : e2.value with
      | HashData h2 =>
        dsimp only
        intro hmem
        have hfr := cacheAdd_ttl_frame _ now k _ (moved_pairwise hPw hg) k hmem
        simp only [DBState.ttlLookup] at hfr ⊢
        rw [hfr]
        simp only [hTm]
      | StringData s =>
        dsimp only
        simp only [DBState.ttlLookup, hTm] at httl ⊢
        cases hT : (st.ttlMap.find? (fun p => p.1 == k)).map Prod.snd with
        | none => intro _; simpa using hT
        | some t =>
          dsimp only
          rw [if_neg (httl t hT)]
          intro _
          simpa using hT
      | ListData l =>
        dsimp only
        simp only [DBState.ttlLookup, hTm] at httl ⊢
        cases hT : (st.ttlMap.find? (fun p => p.1 == k)).map Prod.snd with
        | none => intro _; simpa using hT
        | some t =>
          dsimp only
          rw [if_neg (httl t hT)]
          intro _
          simpa using hT
      | SetData s =>
        dsimp only
        simp only [DBState.ttlLookup, hTm] at httl ⊢
        cases hT : (st.ttlMap.find? (fun p => p.1 == k)).map Prod.snd with
        | none => intro _; simpa using hT
        | some t =>
          dsimp only
          rw [if_neg (httl t hT)]
          intro _
          simpa using hT

theorem hdel_ttl_frame (st : DBState) (now : Int) (k f : Bytes)
    (hexp : ∀ e ∈ st.cache.entries, e.expiresAt = 0)
    (hndc : st.cache.entries.Pairwise (fun a b => a.key ≠ b.key))
    (httl : ∀ t, st.ttlLookup k = some t → ¬ t < now)
    (hmem : ∃ e ∈ (st.hdel now [bs "HDEL", k, f]).2.cache.entries, e.key = k) :
    (st.hdel now [bs "HDEL", k, f]).2.ttlLookup k = st.ttlLookup k := by
  obtain ⟨hTm, hPw, hEx⟩ := getHash_state st now k hexp hndc httl
  revert hmem
  rw [DBState.hdel]
  cases hr : (st.getHash now k).1 with
  | some h =>
    dsimp only
    split
    · intro hmem
      exact absurd hmem (cacheRemove_not_mem _ k hPw)
    · intro hmem
      have hfr := cacheAdd_ttl_frame _ now k _ hPw k hmem
      simp only [DBState.ttlLookup] at hfr ⊢
      rw [hfr, hTm]
  | none =>
    dsimp only
    rw [cacheGet_spec _ now k hEx]
    cases hg : (st.getHash now k).2.cache.entries.find? (fun e => e.key == k) with
    | none =>
      dsimp only
      intro _
      simp only [DBState.ttlLookup, hTm]
    | some e2 =>
      dsimp only
      cases hv : e2.value with
      | HashData h2 =>
        dsimp only
        intro _
        simp [DBState.ttlLookup, hTm]
      | StringData s =>
        dsimp only
        intro _
        simp [DBState.ttlLookup, hTm]
      | ListData l =>
        dsimp only
        intro _
        simp [DBState.ttlLookup, hTm]
      | SetData s =>
        dsimp only
        intro _
        simp [DBState.ttlLookup, hTm]

theorem sadd_ttl_frame (st : DBState) (now : Int) (k v : Bytes)
    (hexp : ∀ e ∈ st.cache.entries, e.expiresAt = 0)
    (hndc : st.cache.entries.Pairwise (fun a b => a.key ≠ b.key))
    (httl : ∀ t, st.ttlLookup k = some t → ¬ t < now)
    (hmem : ∃ e ∈ (st.sadd now [bs "SADD", k, v]).2.cache.entries, e.key = k) :
    (st.sadd now [bs "SADD", k, v]).2.ttlLookup k = st.ttlLookup k := by
  obtain ⟨hTm, hPw, hEx⟩ := getSet_state st now k hexp hndc httl
  revert hmem
  rw [DBState.sadd]
  cases hr : (st.getSet now k).1 with
  | some s =>
    dsimp only
    split
    · intro hmem
      have hfr := cacheAdd_ttl_frame _ now k _ hPw k hmem
      simp only [DBState.ttlLookup] at hfr ⊢
      rw [hfr, hTm]
    · intro _
      simp only [DBState.ttlLookup, hTm]
  | none =>
    dsimp only
    rw [cacheGet_spec _ now k hEx]
    cases hg : (st.getSet now k).2.cache.entries.find? (fun e => e.key == k) with
    | none =>
      dsimp only
      split
      · intro hmem
        have hfr := cacheAdd_ttl_frame _ now k _ hPw k hmem
        simp only [DBState.ttlLookup] at hfr ⊢
        rw [hfr, hTm]
      · intro _
        simp only [DBState.ttlLookup, hTm]
    | some e2 =>
      dsimp only
      cases hv : e2.value with
      | SetData s2 =>
        dsimp only
        split
        · intro hmem
          have hfr := cacheAdd_ttl_frame _ now k _ (moved_pairwise hPw hg) k hmem
          simp only [DBState.ttlLookup] at hfr ⊢
          rw [hfr]
          simp [hTm]
        · intro _
          simp [DBState.ttlLookup, hTm]
      | StringData s =>
        dsimp only
        simp only [DBState.ttlLookup, hTm] at httl ⊢
        cases hT : (st.ttlMap.find? (fun p => p.1 == k)).map Prod.snd with
        | none => intro _; simpa using hT
        | some t =>
          dsimp only
          rw [if_neg (httl t hT)]
          intro _
          simpa using hT
      | ListData l =>
        dsimp only
        simp only [DBState.ttlLookup, hTm] at httl ⊢
        cases hT : (st.ttlMap.find? (fun p => p.1 == k)).map Prod.snd with
        | none => intro _; simpa using hT
        | some t =>
          dsimp only
          rw [if_neg (httl t hT)]
          intro _
          simpa using hT
      | HashData h =>
        dsimp only
        simp only [DBState.ttlLookup, hTm] at httl ⊢
        cases hT : (st.ttlMap.find? (fun p => p.1 == k)).map Prod.snd with
        | none => intro _; simpa using hT
        | some t =>
          dsimp only
          rw [if_neg (httl t hT)]
          intro _
          simpa using hT

theorem srem_ttl_frame (st : DBState) (now : Int) (k v : Bytes)
    (hexp : ∀ e ∈ st.cache.entries, e.expiresAt = 0)
    (hndc : st.cache.entries.Pairwise (fun a b => a.key ≠ b.key))
    (httl : ∀ t, st.ttlLookup k = some t → ¬ t < now)
    (hmem : ∃ e ∈ (st.srem now [bs "SREM", k, v]).2.cache.entries, e.key = k) :
    (st.srem now [bs "SREM", k, v]).2.ttlLookup k = st.ttlLookup k := by
  obtain ⟨hTm, hPw, hEx⟩ := getSet_state st now k hexp hndc httl
  revert hmem
  rw [DBState.srem]
  cases hr : (st.getSet now k).1 with
  | some s =>
    dsimp only
    split
    · intro hmem
      exact absurd hmem (cacheRemove_not_mem _ k hPw)
    · intro hmem
      have hfr := cacheAdd_ttl_frame _ now k _ hPw k hmem
      simp only [DBState.ttlLookup] at hfr ⊢
      rw [hfr, hTm]
  | none =>
    dsimp only
    rw [cacheGet_spec _ now k hEx]
    cases hg : (st.getSet now k).2.cache.entries.find? (fun e => e.key == k) with
    | none =>
      dsimp only
      intro _
      simp only [DBState.ttlLookup, hTm]
    | some e2 =>
      dsimp only
      cases hv : e2.value with
      | SetData s2 =>
        dsimp only
        intro _
        simp [DBState.ttlLookup, hTm]
      | StringData s =>
        dsimp only
        intro _
        simp [DBState.ttlLookup, hTm]
      | ListData l =>
        dsimp only
        intro _
        simp [DBState.ttlLookup, hTm]
      | HashData h =>
        dsimp only
        intro _
        simp [DBState.ttlLookup, hTm]

/-! ### Claim C6 — SET clears TTL; other writes preserve it -/

/-- C6 (amended): `SET k v` leaves `k` without a TTL entry.  Any other
write command (`LPUSH`, `RPUSH`, `LPOP`, `RPOP`, `HSET`, `HDEL`, `SADD`,
`SREM`) on `k` whose TTL is not yet due leaves `k`'s TTL entry unchanged
— *provided `k` is still in the keyspace afterwards*.  (The unamended
claim is false: a write that removes the key — popping the last element,
deleting the last field or member, or evicting under byte pressure —
drops the TTL entry with it, as the counterexample shows.) -/
theorem C6_set_clears_ttl_writes_preserve (st : DBState) (now : Int) (k f v : Bytes)
    (hwf : st.Wf)
    (httl : ∀ t, st.ttlLookup k = some t → ¬ t < now) :
    (backgroundStep st now [bs "SET", k, v] false).2.ttlLookup k = none ∧
    ((∃ e ∈ (backgroundStep st now [bs "LPUSH", k, v] false).2.cache.entries, e.key = k) →
      (backgroundStep st now [bs "LPUSH", k, v] false).2.ttlLookup k = st.ttlLookup k) ∧
    ((∃ e ∈ (backgroundStep st now [bs "RPUSH", k, v] false).2.cache.entries, e.key = k) →
      (backgroundStep st now [bs "RPUSH", k, v] false).2.ttlLookup k = st.ttlLookup k) ∧
    ((∃ e ∈ (backgroundStep st now [bs "LPOP", k] false).2.cache.entries, e.key = k) →
      (backgroundStep st now [bs "LPOP", k] false).2.ttlLookup k = st.ttlLookup k) ∧
    ((∃ e ∈ (backgroundStep st now [bs "RPOP", k] false).2.cache.entries, e.key = k) →
      (backgroundStep st now [bs "RPOP", k] false).2.ttlLookup k = st.ttlLookup k) ∧
    ((∃ e ∈ (backgroundStep st now [bs "HSET", k, f, v] false).2.cache.entries, e.key = k) →
      (backgroundStep st now [bs "HSET", k, f, v] false).2.ttlLookup k = st.ttlLookup k) ∧
    ((∃ e ∈ (backgroundStep st now [bs "HDEL", k, f] false).2.cache.entries, e.key = k) →
      (backgroundStep st now [bs "HDEL", k, f] false).2.ttlLookup k = st.ttlLookup k) ∧
    ((∃ e ∈ (backgroundStep st now [bs "SADD", k, v] false).2.cache.entries, e.key = k) →
      (backgroundStep st now [bs "SADD", k, v] false).2.ttlLookup k = st.ttlLookup k) ∧
    ((∃ e ∈ (backgroundStep st now [bs "SREM", k, v] false).2.cache.entries, e.key = k) →
      (backgroundStep st now [bs "SREM", k, v] false).2.ttlLookup k = st.ttlLookup k) := by
  obtain ⟨hexp, hndc, hndt⟩ := hwf
  refine ⟨?_, ?_, ?_, ?_, ?_, ?_, ?_, ?_, ?_⟩
  · have hd : ∀ s : DBState, s.execInternal now [bs "SET", k, v] =
        (some (s.set now [bs "SET", k, v]).1, (s.set now [bs "SET", k, v]).2) := by
      intro s; simp [DBState.execInternal, lowerBytes, bs]
    have hp := backgroundStep_proj st now [bs "SET", k, v]
    have hc := set_clears_ttl { st with evictedKeys := [] } now k v hndt
    simp only [DBState.ttlLookup, hp.2.1, hd] at hc ⊢
    exact hc
  · intro hmem
    have hd : ∀ s : DBState, s.execInternal now [bs "LPUSH", k, v] =
        (some (s.lpush now [bs "LPUSH", k, v]).1, (s.lpush now [bs "LPUSH", k, v]).2) := by
      intro s; simp [DBState.execInternal, lowerBytes, bs]
    have hp := backgroundStep_proj st now [bs "LPUSH", k, v]
    simp only [hp.2.2, hd] at hmem
    have hfr := lpush_ttl_frame { st with evictedKeys := [] } now k v hexp hndc httl hmem
    simp only [DBState.ttlLookup, hp.2.1, hd] at hfr ⊢
    exact hfr
  · intro hmem
    have hd : ∀ s : DBState, s.execInternal now [bs "RPUSH", k, v] =
        (some (s.rpush now [bs "RPUSH", k, v]).1, (s.rpush now [bs "RPUSH", k, v]).2) := by
      intro s; simp [DBState.execInternal, lowerBytes, bs]
    have hp := backgroundStep_proj st now [bs "RPUSH", k, v]
    simp only [hp.2.2, hd] at hmem
    have hfr := rpush_ttl_frame { st with evictedKeys := [] } now k v hexp hndc httl hmem
    simp only [DBState.ttlLookup, hp.2.1, hd] at hfr ⊢
    exact hfr
  · intro hmem
    have hd : ∀ s : DBState, s.execInternal now [bs "LPOP", k] =
        (some (s.lpop now [bs "LPOP", k]).1, (s.lpop now [bs "LPOP", k]).2) := by
      intro s; simp [DBState.execInternal, lowerBytes, bs]
    have hp := backgroundStep_proj st now [bs "LPOP", k]
    simp only [hp.2.2, hd] at hmem
    have hfr := lpop_ttl_frame { st with evictedKeys := [] } now k hexp hndc httl hmem
    simp only [DBState.ttlLookup, hp.2.1, hd] at hfr ⊢
    exact hfr
  · intro hmem
    have hd : ∀ s : DBState, s.execInternal now [bs "RPOP", k] =
        (some (s.rpop now [bs "RPOP", k]).1, (s.rpop now [bs "RPOP", k]).2) := by
      intro s; simp [DBState.execInternal, lowerBytes, bs]
    have hp := backgroundStep_proj st now [bs "RPOP", k]
    simp only [hp.2.2, hd] at hmem
    have hfr := rpop_ttl_frame { st with evictedKeys := [] } now k hexp hndc httl hmem
    simp only [DBState.ttlLookup, hp.2.1, hd] at hfr ⊢
    exact hfr
  · intro hmem
    have hd : ∀ s : DBState, s.execInternal now [bs "HSET", k, f, v] =
        (some (s.hset now [bs "HSET", k, f, v]).1, (s.hset now [bs "HSET", k, f, v]).2) := by
      intro s; simp [DBState.execInternal, lowerBytes, bs]
    have hp := backgroundStep_proj st now [bs "HSET", k, f, v]
    simp only [hp.2.2, hd] at hmem
    have hfr := hset_ttl_frame { st with evictedKeys := [] } now k f v hexp hndc httl hmem
    simp only [DBState.ttlLookup, hp.2.1, hd] at hfr ⊢
    exact hfr
  · intro hmem
    have hd : ∀ s : DBState, s.execInternal now [bs "HDEL", k, f] =
        (some (s.hdel now [bs "HDEL", k, f]).1, (s.hdel now [bs "HDEL", k, f]).2) := by
      intro s; simp [DBState.execInternal, lowerBytes, bs]
    have hp := backgroundStep_proj st now [bs "HDEL", k, f]
    simp only [hp.2.2, hd] at hmem
    have hfr := hdel_ttl_frame { st with evictedKeys := [] } now k f hexp hndc httl hmem
    simp only [DBState.ttlLookup, hp.2.1, hd] at hfr ⊢
    exact hfr
  · intro hmem
    have hd : ∀ s : DBState, s.execInternal now [bs "SADD", k, v] =
        (some (s.sadd now [bs "SADD", k, v]).1, (s.sadd now [bs "SADD", k, v]).2) := by
      intro s; simp [DBState.execInternal, lowerBytes, bs]
    have hp := backgroundStep_proj st now [bs "SADD", k, v]
    simp only [hp.2.2, hd] at hmem
    have hfr := sadd_ttl_frame { st with evictedKeys := [] } now k v hexp hndc httl hmem
    simp only [DBState.ttlLookup, hp.2.1, hd] at hfr ⊢
    exact hfr
  · intro hmem
    have hd : ∀ s : DBState, s.execInternal now [bs "SREM", k, v] =
        (some (s.srem now [bs "SREM", k, v]).1, (s.srem now [bs "SREM", k, v]).2) := by
      intro s; simp [DBState.execInternal, lowerBytes, bs]
    have hp := backgroundStep_proj st now [bs "SREM", k, v]
    simp only [hp.2.2, hd] at hmem
    have hfr := srem_ttl_frame { st with evictedKeys := [] } now k v hexp hndc httl hmem
    simp only [DBState.ttlLookup, hp.2.1, hd] at hfr ⊢
    exact hfr

/-- The hash key `h` = {f ↦ x} with TTL 100000 (set at time 0), for the
C6 scenarios. -/
def wsH : DBState :=
  (backgroundStep
    (backgroundStep (initialDB 0) 0 [bs "HSET", bs "h", bs "f", bs "x"] false).2
    0 [bs "EXPIRE", bs "h", bs "100"] false).2

/-- C6 counterexample: `HDEL` deleting the last hash field is a
non-`SET` write on an existing key, yet it drops the key's TTL-table
entry (the key itself is removed, and the removal callback erases the
TTL), contradicting "other write commands leave k's TTL-table entry
unchanged". -/
theorem C6_counterexample :
    wsH.ttlLookup (bs "h") = some 100000 ∧
    (backgroundStep wsH 0 [bs "HDEL", bs "h", bs "f"] false).1
      = some (MakeIntReply 1) ∧
    (backgroundStep wsH 0 [bs "HDEL", bs "h", bs "f"] false).2.ttlLookup (bs "h")
      = none := ⟨by decide, by decide, by decide⟩

theorem C6_set_clears_ttl_writes_preserve_witness :
    (backgroundStep wsH 0 [bs "HSET", bs "h", bs "f", bs "y"] false).2.ttlLookup (bs "h")
      = wsH.ttlLookup (bs "h") ∧
    (backgroundStep wsH 0 [bs "SET", bs "h", bs "y"] false).2.ttlLookup (bs "h")
      = none := by
  have h := C6_set_clears_ttl_writes_preserve wsH 0 (bs "h") (bs "f") (bs "y")
    (by decide)
    (by
      intro t ht
      have h0 : wsH.ttlLookup (bs "h") = some 100000 := by decide
      rw [h0] at ht
      have : (100000 : Int) = t := Option.some.inj ht
      omega)
  exact ⟨h.2.2.2.2.2.1 (by decide), h.1⟩

/-! ### Claim C10 — removing a container's last element removes the key -/

theorem cacheGet_fst_none {st : DBState} {now : Int} {k : Bytes}
    (h : st.cache.entries.find? (fun e => e.key == k) = none) :
    (st.cacheGet now k).1 = none := by
  simp only [DBState.cacheGet, Lru.Cache.Get, h]

theorem lpop_singleton (st : DBState) (now : Int) (k x : Bytes)
    (hexp : ∀ e ∈ st.cache.entries, e.expiresAt = 0)
    (hndc : st.cache.entries.Pairwise (fun a b => a.key ≠ b.key))
    (hndt : st.ttlMap.Pairwise (fun a b => a.1 ≠ b.1))
    (httl : ∀ t, st.ttlLookup k = some t → ¬ t < now)
    (hfind : st.cache.entries.find? (fun e => e.key == k)
      = some ⟨k, .ListData [x], 0⟩) :
    (st.lpop now [bs "LPOP", k]).1 = MakeBulkReply (some x) ∧
    (st.lpop now [bs "LPOP", k]).2.cache.entries.find? (fun e => e.key == k) = none ∧
    (st.lpop now [bs "LPOP", k]).2.ttlLookup k = none := by
  have hfm := find?_moved (k := k) hfind
  rw [DBState.lpop]
  rw [cacheGet_spec st now k hexp]
  rw [hfind]
  dsimp only
  simp only [DBState.ttlLookup] at httl ⊢
  cases hT : (st.ttlMap.find? (fun p => p.1 == k)).map Prod.snd with
  | some t =>
    dsimp only
    rw [if_neg (httl t hT)]
    simp only [List.isEmpty_nil, if_true, List.dropLast_single, List.getLast?_singleton]
    refine ⟨by simp, ?_, ?_⟩
    · rw [cacheRemove_spec]
      dsimp only
      rw [hfm]
      dsimp only
      rw [eraseP_cons_pos (fun e : LruEntry => e.key == k) _ (by simp)]
      exact find?_eraseP_self_of_pairwise LruEntry.key hndc
    · rw [cacheRemove_spec]
      dsimp only
      rw [hfm]
      dsimp only
      rw [find?_eraseP_self_of_pairwise Prod.fst hndt]
      rfl
  | none =>
    simp only [List.isEmpty_nil, if_true, List.dropLast_single, List.getLast?_singleton]
    refine ⟨by simp, ?_, ?_⟩
    · rw [cacheRemove_spec]
      dsimp only
      rw [hfm]
      dsimp only
      rw [eraseP_cons_pos (fun e : LruEntry => e.key == k) _ (by simp)]
      exact find?_eraseP_self_of_pairwise LruEntry.key hndc
    · rw [cacheRemove_spec]
      dsimp only
      rw [hfm]
      dsimp only
      rw [find?_eraseP_self_of_pairwise Prod.fst hndt]
      rfl

theorem rpop_singleton (st : DBState) (now : Int) (k x : Bytes)
    (hexp : ∀ e ∈ st.cache.entries, e.expiresAt = 0)
    (hndc : st.cache.entries.Pairwise (fun a b => a.key ≠ b.key))
    (hndt : st.ttlMap.Pairwise (fun a b => a.1 ≠ b.1))
    (httl : ∀ t, st.ttlLookup k = some t → ¬ t < now)
    (hfind : st.cache.entries.find? (fun e => e.key == k)
      = some ⟨k, .ListData [x], 0⟩) :
    (st.rpop now [bs "RPOP", k]).1 = MakeBulkReply (some x) ∧
    (st.rpop now [bs "RPOP", k]).2.cache.entries.find? (fun e => e.key == k) = none ∧
    (st.rpop now [bs "RPOP", k]).2.ttlLookup k = none := by
  have hfm := find?_moved (k := k) hfind
  rw [DBState.rpop]
  rw [cacheGet_spec st now k hexp]
  rw [hfind]
  dsimp only
  simp only [DBState.ttlLookup] at httl ⊢
  cases hT : (st.ttlMap.find? (fun p => p.1 == k)).map Prod.snd with
  | some t =>
    dsimp only
    rw [if_neg (httl t hT)]
    simp only [List.isEmpty_nil, if_true, List.dropLast_single, List.getLast?_singleton]
    refine ⟨by simp, ?_, ?_⟩
    · rw [cacheRemove_spec]
      dsimp only
      rw [hfm]
      dsimp only
      rw [eraseP_cons_pos (fun e : LruEntry => e.key == k) _ (by simp)]
      exact find?_eraseP_self_of_pairwise LruEntry.key hndc
    · rw [cacheRemove_spec]
      dsimp only
      rw [hfm]
      dsimp only
      rw [find?_eraseP_self_of_pairwise Prod.fst hndt]
      rfl
  | none =>
    simp only [List.isEmpty_nil, if_true, List.dropLast_single, List.getLast?_singleton]
    refine ⟨by simp, ?_, ?_⟩
    · rw [cacheRemove_spec]
      dsimp only
      rw [hfm]
      dsimp only
      rw [eraseP_cons_pos (fun e : LruEntry => e.key == k) _ (by simp)]
      exact find?_eraseP_self_of_pairwise LruEntry.key hndc
    · rw [cacheRemove_spec]
      dsimp only
      rw [hfm]
      dsimp only
      rw [find?_eraseP_self_of_pairwise Prod.fst hndt]
      rfl

theorem hdel_singleton (st : DBState) (now : Int) (k f x : Bytes)
    (hexp : ∀ e ∈ st.cache.entries, e.expiresAt = 0)
    (hndc : st.cache.entries.Pairwise (fun a b => a.key ≠ b.key))
    (hndt : st.ttlMap.Pairwise (fun a b => a.1 ≠ b.1))
    (httl : ∀ t, st.ttlLookup k = some t → ¬ t < now)
    (hfind : st.cache.entries.find? (fun e => e.key == k)
      = some ⟨k, .HashData [(f, x)], 0⟩) :
    (st.hdel now [bs "HDEL", k, f]).1 = MakeIntReply 1 ∧
    (st.hdel now [bs "HDEL", k, f]).2.cache.entries.find? (fun e => e.key == k) = none ∧
    (st.hdel now [bs "HDEL", k, f]).2.ttlLookup k = none := by
  have hfm := find?_moved (k := k) hfind
  rw [DBState.hdel, DBState.getHash]
  rw [cacheGet_spec st now k hexp]
  rw [hfind]
  dsimp only
  simp only [DBState.ttlLookup] at httl ⊢
  have hred : ∀ (q : Reply × DBState), q = (MakeIntReply (0 + 1),
      ({ st with cache := { st.cache with
          entries := (⟨k, .HashData [(f, x)], 0⟩ : LruEntry) ::
            st.cache.entries.eraseP (fun y => y.key == k) } } : DBState).cacheRemove k) →
      q.1 = MakeIntReply 1 ∧
      q.2.cache.entries.find? (fun e => e.key == k) = none ∧
      (q.2.ttlMap.find? (fun p => p.1 == k)).map Prod.snd = none := by
    rintro q rfl
    refine ⟨by norm_num, ?_, ?_⟩
    · rw [cacheRemove_spec]
      dsimp only
      rw [hfm]
      dsimp only
      rw [eraseP_cons_pos (fun e : LruEntry => e.key == k) _ (by simp)]
      exact find?_eraseP_self_of_pairwise LruEntry.key hndc
    · rw [cacheRemove_spec]
      dsimp only
      rw [hfm]
      dsimp only
      rw [find?_eraseP_self_of_pairwise Prod.fst hndt]
      rfl
  cases hT : (st.ttlMap.find? (fun p => p.1 == k)).map Prod.snd with
  | some t =>
    dsimp only
    rw [if_neg (httl t hT)]
    dsimp only
    simp only [List.foldl_cons, List.foldl_nil]
    rw [find?_cons_pos (fun q : Bytes × Bytes => q.1 == f) _ (by simp)]
    rw [eraseP_cons_pos (fun q : Bytes × Bytes => q.1 == f) _ (by simp)]
    simp only [Option.isSome_some, if_true, List.isEmpty_nil]
    exact hred _ rfl
  | none =>
    dsimp only
    simp only [List.foldl_cons, List.foldl_nil]
    rw [find?_cons_pos (fun q : Bytes × Bytes => q.1 == f) _ (by simp)]
    rw [eraseP_cons_pos (fun q : Bytes × Bytes => q.1 == f) _ (by simp)]
    simp only [Option.isSome_some, if_true, List.isEmpty_nil]
    exact hred _ rfl

theorem srem_singleton (st : DBState) (now : Int) (k x : Bytes)
    (hexp : ∀ e ∈ st.cache.entries, e.expiresAt = 0)
    (hndc : st.cache.entries.Pairwise (fun a b => a.key ≠ b.key))
    (hndt : st.ttlMap.Pairwise (fun a b => a.1 ≠ b.1))
    (httl : ∀ t, st.ttlLookup k = some t → ¬ t < now)
    (hfind : st.cache.entries.find? (fun e => e.key == k)
      = some ⟨k, .SetData [x], 0⟩) :
    (st.srem now [bs "SREM", k, x]).1 = MakeIntReply 1 ∧
    (st.srem now [bs "SREM", k, x]).2.cache.entries.find? (fun e => e.key == k) = none ∧
    (st.srem now [bs "SREM", k, x]).2.ttlLookup k = none := by
  have hfm := find?_moved (k := k) hfind
  rw [DBState.srem, DBState.getSet]
  rw [cacheGet_spec st now k hexp]
  rw [hfind]
  dsimp only
  simp only [DBState.ttlLookup] at httl ⊢
  have hred : ∀ (q : Reply × DBState), q = (MakeIntReply (0 + 1),
      ({ st with cache := { st.cache with
          entries := (⟨k, .SetData [x], 0⟩ : LruEntry) ::
            st.cache.entries.eraseP (fun y => y.key == k) } } : DBState).cacheRemove k) →
      q.1 = MakeIntReply 1 ∧
      q.2.cache.entries.find? (fun e => e.key == k) = none ∧
      (q.2.ttlMap.find? (fun p => p.1 == k)).map Prod.snd = none := by
    rintro q rfl
    refine ⟨by norm_num, ?_, ?_⟩
    · rw [cacheRemove_spec]
      dsimp only
      rw [hfm]
      dsimp only
      rw [eraseP_cons_pos (fun e : LruEntry => e.key == k) _ (by simp)]
      exact find?_eraseP_self_of_pairwise LruEntry.key hndc
    · rw [cacheRemove_spec]
      dsimp only
      rw [hfm]
      dsimp only
      rw [find?_eraseP_self_of_pairwise Prod.fst hndt]
      rfl
  cases hT : (st.ttlMap.find? (fun p => p.1 == k)).map Prod.snd with
  | some t =>
    dsimp only
    rw [if_neg (httl t hT)]
    dsimp only
    simp only [List.foldl_cons, List.foldl_nil]
    rw [find?_cons_pos (fun y : Bytes => y == x) _ (by simp)]
    rw [eraseP_cons_pos (fun y : Bytes => y == x) _ (by simp)]
    simp only [Option.isSome_some, if_true, List.isEmpty_nil]
    exact hred _ rfl
  | none =>
    dsimp only
    simp only [List.foldl_cons, List.foldl_nil]
    rw [find?_cons_pos (fun y : Bytes => y == x) _ (by simp)]
    rw [eraseP_cons_pos (fun y : Bytes => y == x) _ (by simp)]
    simp only [Option.isSome_some, if_true, List.isEmpty_nil]
    exact hred _ rfl

/-- C10: a write that removes a container's last remaining element
removes the key from the keyspace entirely and drops its TTL-table entry:
`LPOP`/`RPOP` on a one-element list, `HDEL` of the only hash field, and
`SREM` of the only set member each return the removed payload (the
element, or the count 1), leave the cache without the key, leave the TTL
table without the key, and make a subsequent lookup report the key
missing rather than an empty container. -/
theorem C10_last_element_removes_key (st : DBState) (now : Int) (k f x : Bytes)
    (hwf : st.Wf)
    (httl : ∀ t, st.ttlLookup k = some t → ¬ t < now) :
    (st.cache.entries.find? (fun e => e.key == k) = some ⟨k, .ListData [x], 0⟩ →
      (backgroundStep st now [bs "LPOP", k] false).1 = some (MakeBulkReply (some x)) ∧
      (backgroundStep st now [bs "LPOP", k] false).2.cache.entries.find?
          (fun e => e.key == k) = none ∧
      (backgroundStep st now [bs "LPOP", k] false).2.ttlLookup k = none ∧
      ((backgroundStep st now [bs "LPOP", k] false).2.cacheGet now k).1 = none) ∧
    (st.cache.entries.find? (fun e => e.key == k) = some ⟨k, .ListData [x], 0⟩ →
      (backgroundStep st now [bs "RPOP", k] false).1 = some (MakeBulkReply (some x)) ∧
      (backgroundStep st now [bs "RPOP", k] false).2.cache.entries.find?
          (fun e => e.key == k) = none ∧
      (backgroundStep st now [bs "RPOP", k] false).2.ttlLookup k = none ∧
      ((backgroundStep st now [bs "RPOP", k] false).2.cacheGet now k).1 = none) ∧
    (st.cache.entries.find? (fun e => e.key == k) = some ⟨k, .HashData [(f, x)], 0⟩ →
      (backgroundStep st now [bs "HDEL", k, f] false).1 = some (MakeIntReply 1) ∧
      (backgroundStep st now [bs "HDEL", k, f] false).2.cache.entries.find?
          (fun e => e.key == k) = none ∧
      (backgroundStep st now [bs "HDEL", k, f] false).2.ttlLookup k = none ∧
      ((backgroundStep st now [bs "HDEL", k, f] false).2.cacheGet now k).1 = none) ∧
    (st.cache.entries.find? (fun e => e.key == k) = some ⟨k, .SetData [x], 0⟩ →
      (backgroundStep st now [bs "SREM", k, x] false).1 = some (MakeIntReply 1) ∧
      (backgroundStep st now [bs "SREM", k, x] false).2.cache.entries.find?
          (fun e => e.key == k) = none ∧
      (backgroundStep st now [bs "SREM", k, x] false).2.ttlLookup k = none ∧
      ((backgroundStep st now [bs "SREM", k, x] false).2.cacheGet now k).1 = none) := by
  obtain ⟨hexp, hndc, hndt⟩ := hwf
  refine ⟨?_, ?_, ?_, ?_⟩
  · intro hfind
    have hd : ∀ s : DBState, s.execInternal now [bs "LPOP", k] =
        (some (s.lpop now [bs "LPOP", k]).1, (s.lpop now [bs "LPOP", k]).2) := by
      intro s; simp [DBState.execInternal, lowerBytes, bs]
    have hp := backgroundStep_proj st now [bs "LPOP", k]
    have hs := lpop_singleton { st with evictedKeys := [] } now k x hexp hndc hndt httl hfind
    refine ⟨?_, ?_, ?_, ?_⟩
    · simp only [hp.1, hd]
      rw [hs.1]
    · simp only [hp.2.2, hd]
      exact hs.2.1
    · have h3 := hs.2.2
      simp only [DBState.ttlLookup] at h3 ⊢
      simp only [hp.2.1, hd]
      exact h3
    · apply cacheGet_fst_none
      simp only [hp.2.2, hd]
      exact hs.2.1
  · intro hfind
    have hd : ∀ s : DBState, s.execInternal now [bs "RPOP", k] =
        (some (s.rpop now [bs "RPOP", k]).1, (s.rpop now [bs "RPOP", k]).2) := by
      intro s; simp [DBState.execInternal, lowerBytes, bs]
    have hp := backgroundStep_proj st now [bs "RPOP", k]
    have hs := rpop_singleton { st with evictedKeys := [] } now k x hexp hndc hndt httl hfind
    refine ⟨?_, ?_, ?_, ?_⟩
    · simp only [hp.1, hd]
      rw [hs.1]
    · simp only [hp.2.2, hd]
      exact hs.2.1
    · have h3 := hs.2.2
      simp only [DBState.ttlLookup] at h3 ⊢
      simp only [hp.2.1, hd]
      exact h3
    · apply cacheGet_fst_none
      simp only [hp.2.2, hd]
      exact hs.2.1
  · intro hfind
    have hd : ∀ s : DBState, s.execInternal now [bs "HDEL", k, f] =
        (some (s.hdel now [bs "HDEL", k, f]).1, (s.hdel now [bs "HDEL", k, f]).2) := by
      intro s; simp [DBState.execInternal, lowerBytes, bs]
    have hp := backgroundStep_proj st now [bs "HDEL", k, f]
    have hs := hdel_singleton { st with evictedKeys := [] } now k f x hexp hndc hndt httl hfind
    refine ⟨?_, ?_, ?_, ?_⟩
    · simp only [hp.1, hd]
      rw [hs.1]
    · simp only [hp.2.2, hd]
      exact hs.2.1
    · have h3 := hs.2.2
      simp only [DBState.ttlLookup] at h3 ⊢
      simp only [hp.2.1, hd]
      exact h3
    · apply cacheGet_fst_none
      simp only [hp.2.2, hd]
      exact hs.2.1
  · intro hfind
    have hd : ∀ s : DBState, s.execInternal now [bs "SREM", k, x] =
        (some (s.srem now [bs "SREM", k, x]).1, (s.srem now [bs "SREM", k, x]).2) := by
      intro s; simp [DBState.execInternal, lowerBytes, bs]
    have hp := backgroundStep_proj st now [bs "SREM", k, x]
    have hs := srem_singleton { st with evictedKeys := [] } now k x hexp hndc hndt httl hfind
    refine ⟨?_, ?_, ?_, ?_⟩
    · simp only [hp.1, hd]
      rw [hs.1]
    · simp only [hp.2.2, hd]
      exact hs.2.1
    · have h3 := hs.2.2
      simp only [DBState.ttlLookup] at h3 ⊢
      simp only [hp.2.1, hd]
      exact h3
    · apply cacheGet_fst_none
      simp only [hp.2.2, hd]
      exact hs.2.1

theorem C10_last_element_removes_key_witness :
    (backgroundStep wsH 0 [bs "HDEL", bs "h", bs "f"] false).1
      = some (MakeIntReply 1) ∧
    (backgroundStep wsH 0 [bs "HDEL", bs "h", bs "f"] false).2.cache.entries.find?
        (fun e => e.key == bs "h") = none ∧
    (backgroundStep wsH 0 [bs "HDEL", bs "h", bs "f"] false).2.ttlLookup (bs "h")
      = none ∧
    ((backgroundStep wsH 0 [bs "HDEL", bs "h", bs "f"] false).2.cacheGet 0 (bs "h")).1
      = none := by
  have h := C10_last_element_removes_key wsH 0 (bs "h") (bs "f") (bs "x")
    (by decide)
    (by
      intro t ht
      have h0 : wsH.ttlLookup (bs "h") = some 100000 := by decide
      rw [h0] at ht
      have : (100000 : Int) = t := Option.some.inj ht
      omega)
  exact h.2.2.1 (by decide)

/-! ### Claim C5 — lazy expiration on access -/

theorem get_expired (st : DBState) (now : Int) (k : Bytes) (t : Int)
    (hexp : ∀ e ∈ st.cache.entries, e.expiresAt = 0)
    (hndc : st.cache.entries.Pairwise (fun a b => a.key ≠ b.key))
    (hndt : st.ttlMap.Pairwise (fun a b => a.1 ≠ b.1))
    (hfind : (st.cache.entries.find? (fun e => e.key == k)).isSome)
    (httl : st.ttlLookup k = some t) (hpast : t < now) :
    (st.get now [bs "GET", k]).1 = NullBulkReply ∧
    (st.get now [bs "GET", k]).2.cache.entries.find? (fun e => e.key == k) = none ∧
    (st.get now [bs "GET", k]).2.ttlLookup k = none := by
  rw [DBState.get]
  rw [cacheGet_spec st now k hexp]
  cases hf : st.cache.entries.find? (fun e => e.key == k) with
  | none => rw [hf] at hfind; exact absurd hfind (by simp)
  | some e =>
    have hfm := find?_moved (k := k) hf
    dsimp only
    simp only [DBState.ttlLookup] at httl ⊢
    rw [httl]
    dsimp only
    rw [if_pos hpast]
    refine ⟨rfl, ?_, ?_⟩
    · rw [cacheRemove_spec]
      dsimp only
      rw [hfm]
      dsimp only
      rw [eraseP_cons_pos (fun x : LruEntry => x.key == k) _
        (List.find?_some (p := fun x : LruEntry => x.key == k) hf)]
      exact find?_eraseP_self_of_pairwise LruEntry.key hndc
    · rw [cacheRemove_spec]
      dsimp only
      rw [hfm]
      dsimp only
      rw [find?_eraseP_self_of_pairwise Prod.fst hndt]
      rfl

theorem llen_expired (st : DBState) (now : Int) (k : Bytes) (t : Int)
    (hexp : ∀ e ∈ st.cache.entries, e.expiresAt = 0)
    (hndc : st.cache.entries.Pairwise (fun a b => a.key ≠ b.key))
    (hndt : st.ttlMap.Pairwise (fun a b => a.1 ≠ b.1))
    (hfind : (st.cache.entries.find? (fun e => e.key == k)).isSome)
    (httl : st.ttlLookup k = some t) (hpast : t < now) :
    (st.llen now [bs "LLEN", k]).1 = MakeIntReply 0 ∧
    (st.llen now [bs "LLEN", k]).2.cache.entries.find? (fun e => e.key == k) = none ∧
    (st.llen now [bs "LLEN", k]).2.ttlLookup k = none := by
  rw [DBState.llen]
  rw [cacheGet_spec st now k hexp]
  cases hf : st.cache.entries.find? (fun e => e.key == k) with
  | none => rw [hf] at hfind; exact absurd hfind (by simp)
  | some e =>
    have hfm := find?_moved (k := k) hf
    dsimp only
    simp only [DBState.ttlLookup] at httl ⊢
    rw [httl]
    dsimp only
    rw [if_pos hpast]
    refine ⟨rfl, ?_, ?_⟩
    · rw [cacheRemove_spec]
      dsimp only
      rw [hfm]
      dsimp only
      rw [eraseP_cons_pos (fun x : LruEntry => x.key == k) _
        (List.find?_some (p := fun x : LruEntry => x.key == k) hf)]
      exact find?_eraseP_self_of_pairwise LruEntry.key hndc
    · rw [cacheRemove_spec]
      dsimp only
      rw [hfm]
      dsimp only
      rw [find?_eraseP_self_of_pairwise Prod.fst hndt]
      rfl

/-- C5 (amended): lazy expiration holds on the *value-resolving* access
paths — a read of a key whose TTL-table instant is past-due returns the
missing reply, removes the entry synchronously (firing the removal
callback, which drops the TTL entry), and leaves the keyspace without the
key; shown here for `GET` and `LLEN`.  (The unamended "every access path"
claim is false: `DEL`, `EXPIRE` and `PERSIST` resolve the key without the
past-due check — see the counterexample, where `EXPIRE` resurrects an
expired key.) -/
theorem C5_lazy_expiration_on_reads (st : DBState) (now : Int) (k : Bytes) (t : Int)
    (hwf : st.Wf)
    (hfind : (st.cache.entries.find? (fun e => e.key == k)).isSome)
    (httl : st.ttlLookup k = some t)
    (hpast : t < now) :
    ((backgroundStep st now [bs "GET", k] false).1 = some NullBulkReply ∧
     (backgroundStep st now [bs "GET", k] false).2.cache.entries.find?
        (fun e => e.key == k) = none ∧
     (backgroundStep st now [bs "GET", k] false).2.ttlLookup k = none) ∧
    ((backgroundStep st now [bs "LLEN", k] false).1 = some (MakeIntReply 0) ∧
     (backgroundStep st now [bs "LLEN", k] false).2.cache.entries.find?
        (fun e => e.key == k) = none ∧
     (backgroundStep st now [bs "LLEN", k] false).2.ttlLookup k = none) := by
  obtain ⟨hexp, hndc, hndt⟩ := hwf
  constructor
  · have hd : ∀ s : DBState, s.execInternal now [bs "GET", k] =
        (some (s.get now [bs "GET", k]).1, (s.get now [bs "GET", k]).2) := by
      intro s; simp [DBState.execInternal, lowerBytes, bs]
    have hp := backgroundStep_proj st now [bs "GET", k]
    have hs := get_expired { st with evictedKeys := [] } now k t hexp hndc hndt hfind httl hpast
    refine ⟨?_, ?_, ?_⟩
    · simp only [hp.1, hd]
      rw [hs.1]
    · simp only [hp.2.2, hd]
      exact hs.2.1
    · have h3 := hs.2.2
      simp only [DBState.ttlLookup] at h3 ⊢
      simp only [hp.2.1, hd]
      exact h3
  · have hd : ∀ s : DBState, s.execInternal now [bs "LLEN", k] =
        (some (s.llen now [bs "LLEN", k]).1, (s.llen now [bs "LLEN", k]).2) := by
      intro s; simp [DBState.execInternal, lowerBytes, bs]
    have hp := backgroundStep_proj st now [bs "LLEN", k]
    have hs := llen_expired { st with evictedKeys := [] } now k t hexp hndc hndt hfind httl hpast
    refine ⟨?_, ?_, ?_⟩
    · simp only [hp.1, hd]
      rw [hs.1]
    · simp only [hp.2.2, hd]
      exact hs.2.1
    · have h3 := hs.2.2
      simp only [DBState.ttlLookup] at h3 ⊢
      simp only [hp.2.1, hd]
      exact h3

/-- The string key `k` = "v" with TTL instant 5000 (set at time 0), used
past-due at time 10000. -/
def wsE : DBState :=
  (backgroundStep (backgroundStep (initialDB 0) 0 [bs "SET", bs "k", bs "v"] false).2
    0 [bs "EXPIRE", bs "k", bs "5"] false).2

/-- C5 counterexample: at time 10000 the key's TTL instant 5000 is
past-due, yet `EXPIRE k 100` — an access path that resolves the key —
returns 1 instead of treating the key as absent, resurrects it (a
subsequent `GET` returns the old value), and `DEL` counts the expired key
as present.  Lazy expiration is skipped on the TTL-command and `DEL`
paths. -/
theorem C5_counterexample :
    wsE.ttlLookup (bs "k") = some 5000 ∧
    (backgroundStep wsE 10000 [bs "EXPIRE", bs "k", bs "100"] false).1
      = some (MakeIntReply 1) ∧
    (backgroundStep
        (backgroundStep wsE 10000 [bs "EXPIRE", bs "k", bs "100"] false).2
        10000 [bs "GET", bs "k"] false).1
      = some (MakeBulkReply (some (bs "v"))) ∧
    (backgroundStep wsE 10000 [bs "DEL", bs "k"] false).1 = some (MakeIntReply 1) :=
  ⟨by decide, by decide, by decide, by decide⟩

theorem C5_lazy_expiration_on_reads_witness :
    (backgroundStep wsE 10000 [bs "GET", bs "k"] false).1 = some NullBulkReply ∧
    (backgroundStep wsE 10000 [bs "GET", bs "k"] false).2.cache.entries.find?
        (fun e => e.key == bs "k") = none ∧
    (backgroundStep wsE 10000 [bs "GET", bs "k"] false).2.ttlLookup (bs "k") = none := by
  have h := C5_lazy_expiration_on_reads wsE 10000 (bs "k") 5000
    (by decide) (by decide) (by decide) (by decide)
  exact h.1

/-! ### Claim C8 — LRANGE clamping and the empty-range reply -/

/-- The collecting phase of the `lrange` scan: once the running index has
reached `start`, the loop takes elements until the index passes `stop`. -/
theorem lrangeLoop_collect (s t : Int) : ∀ (l : List Bytes) (i : Int), s ≤ i →
    lrangeLoop s t l i = l.take (t - i + 1).toNat := by
  intro l
  induction l with
  | nil => intro i _; simp [lrangeLoop]
  | cons e rest ih =>
    intro i hsi
    rw [lrangeLoop]
    by_cases hit : i ≤ t
    · rw [if_pos (show s ≤ i ∧ i ≤ t from ⟨hsi, hit⟩),
        if_neg (show ¬ t < i from by omega)]
      rw [ih (i + 1) (by omega)]
      have h1 : (t - i + 1).toNat = (t - (i + 1) + 1).toNat + 1 := by omega
      rw [h1]
      simp
    · rw [if_neg (show ¬ (s ≤ i ∧ i ≤ t) from by omega),
        if_pos (show t < i from by omega)]
      have h0 : (t - i + 1).toNat = 0 := by omega
      rw [h0]
      simp

/-- The `lrange` scan started at index 0 collects exactly the slice
`[s, t]` of the list (for clamped bounds `0 ≤ s ≤ t`). -/
theorem lrangeLoop_eq_drop_take (s t : Int) (hst : s ≤ t) :
    ∀ (l : List Bytes) (i : Int), 0 ≤ i → i ≤ s →
      lrangeLoop s t l i = (l.drop (s - i).toNat).take (t - s + 1).toNat := by
  intro l
  induction l with
  | nil => intro i _ _; simp [lrangeLoop]
  | cons e rest ih =>
    intro i h0 his
    by_cases heq : i = s
    · subst heq
      rw [lrangeLoop_collect i t (e :: rest) i le_rfl]
      have hz : (i - i).toNat = 0 := by omega
      rw [hz]
      simp
    · rw [lrangeLoop]
      rw [if_neg (show ¬ (s ≤ i ∧ i ≤ t) from by omega),
        if_neg (show ¬ t < i from by omega)]
      rw [List.nil_append, ih (i + 1) (by omega) (by omega)]
      have h1 : (s - i).toNat = (s - (i + 1)).toNat + 1 := by omega
      rw [h1]
      simp

/-- The reply of `lrange` on a list key with a TTL that is not due, as a
function of the clamped bounds. -/
theorem lrange_reply (st : DBState) (now : Int) (k : Bytes) (l : List Bytes)
    (start0 stop0 : Int) (startArg stopArg : Bytes)
    (hexp : ∀ e ∈ st.cache.entries, e.expiresAt = 0)
    (hfind : st.cache.entries.find? (fun e => e.key == k) = some ⟨k, .ListData l, 0⟩)
    (httl : ∀ t, st.ttlLookup k = some t → ¬ t < now)
    (hsa : parseInt startArg = some start0) (hsb : parseInt stopArg = some stop0) :
    (st.lrange now [bs "LRANGE", k, startArg, stopArg]).1 =
      (if (if (l.length : Int) ≤ (if stop0 < 0 then (l.length : Int) + stop0 else stop0)
            then (l.length : Int) - 1
            else if stop0 < 0 then (l.length : Int) + stop0 else stop0) <
          (if (if start0 < 0 then (l.length : Int) + start0 else start0) < 0 then 0
            else if start0 < 0 then (l.length : Int) + start0 else start0)
       then MakeMultiBulkReply none
       else MakeMultiBulkReply (some ((lrangeLoop
          (if (if start0 < 0 then (l.length : Int) + start0 else start0) < 0 then 0
            else if start0 < 0 then (l.length : Int) + start0 else start0)
          (if (l.length : Int) ≤ (if stop0 < 0 then (l.length : Int) + stop0 else stop0)
            then (l.length : Int) - 1
            else if stop0 < 0 then (l.length : Int) + stop0 else stop0)
          l 0).map some))) := by
  rw [DBState.lrange]
  rw [hsa, hsb]
  dsimp only
  rw [cacheGet_spec st now k hexp]
  rw [hfind]
  dsimp only
  simp only [DBState.ttlLookup] at httl ⊢
  cases hT : (st.ttlMap.find? (fun p => p.1 == k)).map Prod.snd with
  | some t =>
    dsimp only
    rw [if_neg (httl t hT)]
    rw [apply_ite Prod.fst]
  | none =>
    dsimp only
    rw [apply_ite Prod.fst]

/-- C8 (amended): `LRANGE key start stop` resolves negative indices from
the end (`start1`/`stop1`), clamps `start` up to 0 and `stop` down to
`size − 1` (`start2`/`stop2`); when `start2 > stop2` the reply is the
*nil* multi-bulk, which serializes as `*-1\r\n` — not the empty array
`*0\r\n` the claim promises (see the counterexample); otherwise the
reply holds exactly the elements of the slice `[start2, stop2]`. -/
theorem C8_lrange_clamping (st : DBState) (now : Int) (k : Bytes) (l : List Bytes)
    (start0 stop0 start1 stop1 start2 stop2 : Int) (startArg stopArg : Bytes)
    (hwf : st.Wf)
    (hfind : st.cache.entries.find? (fun e => e.key == k) = some ⟨k, .ListData l, 0⟩)
    (httl : ∀ t, st.ttlLookup k = some t → ¬ t < now)
    (hsa : parseInt startArg = some start0) (hsb : parseInt stopArg = some stop0)
    (e1 : start1 = if start0 < 0 then (l.length : Int) + start0 else start0)
    (e2 : stop1 = if stop0 < 0 then (l.length : Int) + stop0 else stop0)
    (e3 : start2 = if start1 < 0 then 0 else start1)
    (e4 : stop2 = if (l.length : Int) ≤ stop1 then (l.length : Int) - 1 else stop1) :
    (stop2 < start2 →
      (backgroundStep st now [bs "LRANGE", k, startArg, stopArg] false).1
        = some (MakeMultiBulkReply none) ∧
      (MakeMultiBulkReply none).ToBytes = bs "*-1" ++ CRLF ∧
      (MakeMultiBulkReply (some [])).ToBytes = bs "*0" ++ CRLF) ∧
    (start2 ≤ stop2 →
      (backgroundStep st now [bs "LRANGE", k, startArg, stopArg] false).1
        = some (MakeMultiBulkReply (some
            (((l.drop start2.toNat).take (stop2 - start2 + 1).toNat).map some)))) := by
  obtain ⟨hexp, hndc, hndt⟩ := hwf
  have hd : ∀ s : DBState, s.execInternal now [bs "LRANGE", k, startArg, stopArg] =
      (some (s.lrange now [bs "LRANGE", k, startArg, stopArg]).1,
       (s.lrange now [bs "LRANGE", k, startArg, stopArg]).2) := by
    intro s; simp [DBState.execInternal, lowerBytes, bs]
  have hp := backgroundStep_proj st now [bs "LRANGE", k, startArg, stopArg]
  have hmain := lrange_reply { st with evictedKeys := [] } now k l start0 stop0
    startArg stopArg hexp hfind httl hsa hsb
  rw [← e1] at hmain
  rw [← e2] at hmain
  rw [← e3] at hmain
  rw [← e4] at hmain
  have h0s : 0 ≤ start2 := by
    by_cases h : start1 < 0
    · rw [if_pos h] at e3; omega
    · rw [if_neg h] at e3; omega
  constructor
  · intro hlt
    refine ⟨?_, by decide, by decide⟩
    simp only [hp.1, hd]
    rw [hmain, if_pos hlt]
  · intro hle
    simp only [hp.1, hd]
    rw [hmain, if_neg (by omega)]
    rw [lrangeLoop_eq_drop_take start2 stop2 hle l 0 le_rfl h0s]
    have hz : (start2 - 0).toNat = start2.toNat := by omega
    rw [hz]

/-- The list key `l` = `[a]`, for the C8 scenarios. -/
def wsR : DBState := (backgroundStep (initialDB 0) 0 [bs "RPUSH", bs "l", bs "a"] false).2

/-- C8 counterexample: on a one-element list, `LRANGE l 1 0` has
`start2 = 1 > 0 = stop2` after clamping, and the reply is
`MakeMultiBulkReply(nil)`, which serializes as the null array `*-1\r\n` —
not the empty array `*0\r\n` the claim promises. -/
theorem C8_counterexample :
    (backgroundStep wsR 0 [bs "LRANGE", bs "l", bs "1", bs "0"] false).1
      = some (MakeMultiBulkReply none) ∧
    (MakeMultiBulkReply none).ToBytes = bs "*-1" ++ CRLF ∧
    (MakeMultiBulkReply (some [])).ToBytes = bs "*0" ++ CRLF ∧
    (MakeMultiBulkReply none).ToBytes ≠ (MakeMultiBulkReply (some [])).ToBytes :=
  ⟨by decide, by decide, by decide, by decide⟩

theorem C8_lrange_clamping_witness :
    (backgroundStep wsR 0 [bs "LRANGE", bs "l", bs "0", bs "-1"] false).1
      = some (MakeMultiBulkReply (some [some (bs "a")])) := by
  have h := C8_lrange_clamping wsR 0 (bs "l") [bs "a"] 0 (-1) 0 0 0 0
    (bs "0") (bs "-1") (by decide) (by decide)
    (by
      intro t ht
      rw [show wsR.ttlLookup (bs "l") = none from by decide] at ht
      exact Option.noConfusion ht)
    (by decide) (by decide) (by decide) (by decide) (by decide) (by decide)
  exact (h.2 (by decide)).trans (by decide)

/-! ### Claim C1 — eviction durability -/

/-- C1: one executor iteration with AOF requested and a non-error reply
leaves the append log as: the log as the executed command left it
(commands append nothing mid-execution except the hash path's lazy-expiry
`del`), then the command's own AOF translation, then one synthetic
`DEL key` record per key evicted by byte pressure during the command
(`onEvicted` with reason *evicted*), in the cache's eviction order —
always after the triggering command's own record. -/
theorem C1_eviction_durability (st : DBState) (now : Int) (cmd : List Bytes)
    (h : isError (({ st with evictedKeys := [] } : DBState).execInternal now cmd).1
      = false) :
    (backgroundStep st now cmd false).2.aofLog
      = (({ st with evictedKeys := [] } : DBState).execInternal now cmd).2.aofLog
        ++ aofTranslation
             (({ st with evictedKeys := [] } : DBState).execInternal now cmd).2 cmd
             (({ st with evictedKeys := [] } : DBState).execInternal now cmd).1
        ++ ((({ st with evictedKeys := [] } : DBState).execInternal now cmd).2.evictedKeys).map
             (fun kb => [bs "DEL", kb]) := by
  rw [backgroundStep]
  dsimp only
  rw [if_pos ⟨by simp, by simp [h]⟩]
  rw [foldl_AddAofDel_eq, appendAof_eq, foldl_AddAof_eq]

/-- A 20-byte-budget database holding `k1` (10-byte value): the next
10-byte `SET` evicts `k1`. -/
def wsV : DBState :=
  (backgroundStep (initialDB 20) 0 [bs "SET", bs "k1", bs "0123456789"] false).2

theorem C1_eviction_durability_witness :
    (backgroundStep wsV 0 [bs "SET", bs "k2", bs "abcdefghij"] false).2.aofLog
      = (({ wsV with evictedKeys := [] } : DBState).execInternal 0
            [bs "SET", bs "k2", bs "abcdefghij"]).2.aofLog
        ++ aofTranslation
             (({ wsV with evictedKeys := [] } : DBState).execInternal 0
               [bs "SET", bs "k2", bs "abcdefghij"]).2
             [bs "SET", bs "k2", bs "abcdefghij"]
             (({ wsV with evictedKeys := [] } : DBState).execInternal 0
               [bs "SET", bs "k2", bs "abcdefghij"]).1
        ++ ((({ wsV with evictedKeys := [] } : DBState).execInternal 0
              [bs "SET", bs "k2", bs "abcdefghij"]).2.evictedKeys).map
             (fun kb => [bs "DEL", kb]) ∧
    (({ wsV with evictedKeys := [] } : DBState).execInternal 0
        [bs "SET", bs "k2", bs "abcdefghij"]).2.evictedKeys = [bs "k1"] ∧
    (backgroundStep wsV 0 [bs "SET", bs "k2", bs "abcdefghij"] false).2.aofLog
      = [[bs "SET", bs "k1", bs "0123456789"], [bs "SET", bs "k2", bs "abcdefghij"],
         [bs "DEL", bs "k1"]] := by
  refine ⟨C1_eviction_durability wsV 0 _ (by decide), by decide, by decide⟩

/-! ### Claim C4 — clustered DEL (`cluster/router.go`)

The router is modelled over an abstract per-node executor `exec` (local
execution and `peerDo` forwarding alike; a transport failure surfaces as
an error reply) and the ring's `NodeForKey`.  Go iterates `groups` (a
map) in unspecified order and drains the results channel in completion
order; the model fixes first-seen grouping order and drains in that
order — the aggregate sum is order-independent, and the error clause
only asserts which group's error surfaces. -/

namespace cluster

/-- `node == "" → localAddr`. -/
def ownerOf (nodeForKey : Bytes → Bytes) (localAddr : Bytes) (kb : Bytes) : Bytes :=
  if nodeForKey kb = [] then localAddr else nodeForKey kb

/-- `groups[node] = append(groups[node], kb)` over an association list. -/
def groupByOwner (owner : Bytes → Bytes) (keys : List Bytes) :
    List (Bytes × List Bytes) :=
  keys.foldl (fun gs kb =>
    if (gs.find? (fun g => g.1 == owner kb)).isSome then
      gs.map (fun g => if g.1 == owner kb then (g.1, g.2 ++ [kb]) else g)
    else gs ++ [(owner kb, [kb])]) []

def Reply.isErr : Reply → Bool
  | .ErrorReply _ => true
  | _ => false

def Reply.intCode : Reply → Int
  | .IntReply n => n
  | _ => 0

/-- One group's goroutine: `DEL <group-keys>` to the owner, classified. -/
def delGroupResult (exec : Bytes → List Bytes → Reply) (g : Bytes × List Bytes) :
    Except Reply Int :=
  match exec g.1 (bs "DEL" :: g.2) with
  | .ErrorReply m => .error (.ErrorReply m)
  | .IntReply n => .ok n
  | _ => .error (MakeErrReply (bs "ERR cluster: DEL unexpected reply"))

/-- The drain loop over the results channel: the first error returns,
otherwise the counts accumulate into one integer reply. -/
def drainResults : List (Except Reply Int) → Int → Reply
  | [], total => MakeIntReply total
  | .error e :: _, _ => e
  | .ok n :: rest, total => drainResults rest (total + n)

/-- `Router.execDel`. -/
def execDel (exec : Bytes → List Bytes → Reply) (nodeForKey : Bytes → Bytes)
    (localAddr : Bytes) (cmd : List Bytes) : Reply :=
  match cmd with
  | _ :: k1 :: ks =>
    let groups := groupByOwner (ownerOf nodeForKey localAddr) (k1 :: ks)
    drainResults (groups.map (delGroupResult exec)) 0
  | _ => MakeErrReply (bs "ERR wrong number of arguments for del command")

/-- Appending a key to its (unique) owner group permutes the grouped keys
by exactly that key. -/
theorem flatten_update_perm (o kb : Bytes) :
    ∀ (gs : List (Bytes × List Bytes)),
    gs.Pairwise (fun a b => a.1 ≠ b.1) →
    (gs.find? (fun g => g.1 == o)).isSome →
    (((gs.map (fun g => if g.1 == o then (g.1, g.2 ++ [kb]) else g)).map
        Prod.snd).flatten).Perm ((gs.map Prod.snd).flatten ++ [kb]) := by
  intro gs
  induction gs with
  | nil => intro _ hf; simp [List.find?] at hf
  | cons a tl ih =>
    intro hnd hf
    rcases List.pairwise_cons.mp hnd with ⟨hha, htl⟩
    by_cases h : (a.1 == o) = true
    · simp only [List.map_cons, if_pos h]
      have hmem : ∀ g ∈ tl, (fun g => if g.1 == o then (g.1, g.2 ++ [kb]) else g) g
          = id g := by
        intro g hg
        have hgo : g.1 ≠ o := by
          have hag := hha g hg
          rw [← eq_of_beq h]
          exact fun hc => hag hc.symm
        simp only [id]
        rw [if_neg (by simpa [beq_iff_eq] using hgo)]
      rw [List.map_congr_left hmem, List.map_id]
      simp only [List.flatten_cons]
      rw [List.append_assoc, List.append_assoc]
      exact List.Perm.append_left a.2 List.perm_append_comm
    · simp only [List.map_cons, if_neg h]
      rw [find?_cons_neg (fun g : Bytes × List Bytes => g.1 == o) _ h] at hf
      simp only [List.flatten_cons]
      rw [List.append_assoc]
      exact List.Perm.append_left a.2 (ih htl hf)

/-- The grouping fold: groups keep pairwise-distinct owners, every key
sits in its owner's group, and the groups jointly permute the input. -/
theorem groupBy_fold_spec (owner : Bytes → Bytes) :
    ∀ (keys : List Bytes) (gs : List (Bytes × List Bytes)),
    gs.Pairwise (fun a b => a.1 ≠ b.1) →
    (∀ g ∈ gs, ∀ kb ∈ g.2, owner kb = g.1) →
    ((keys.foldl (fun gs kb =>
        if (gs.find? (fun g => g.1 == owner kb)).isSome then
          gs.map (fun g => if g.1 == owner kb then (g.1, g.2 ++ [kb]) else g)
        else gs ++ [(owner kb, [kb])]) gs).Pairwise (fun a b => a.1 ≠ b.1)) ∧
    (∀ g ∈ keys.foldl (fun gs kb =>
        if (gs.find? (fun g => g.1 == owner kb)).isSome then
          gs.map (fun g => if g.1 == owner kb then (g.1, g.2 ++ [kb]) else g)
        else gs ++ [(owner kb, [kb])]) gs, ∀ kb ∈ g.2, owner kb = g.1) ∧
    (((keys.foldl (fun gs kb =>
        if (gs.find? (fun g => g.1 == owner kb)).isSome then
          gs.map (fun g => if g.1 == owner kb then (g.1, g.2 ++ [kb]) else g)
        else gs ++ [(owner kb, [kb])]) gs).map Prod.snd).flatten).Perm
      ((gs.map Prod.snd).flatten ++ keys) := by
  intro keys
  induction keys with
  | nil =>
    intro gs h1 h2
    exact ⟨h1, h2, by simp⟩
  | cons kb rest ih =>
    intro gs h1 h2
    simp only [List.foldl_cons]
    by_cases hf : (gs.find? (fun g => g.1 == owner kb)).isSome
    · rw [if_pos hf]
      have hkeys : ∀ g : Bytes × List Bytes,
          ((fun g => if g.1 == owner kb then (g.1, g.2 ++ [kb]) else g) g).1 = g.1 := by
        intro g
        dsimp only
        by_cases h : (g.1 == owner kb) = true
        · rw [if_pos h]
        · rw [if_neg h]
      have h1A : (gs.map (fun g => if g.1 == owner kb then (g.1, g.2 ++ [kb]) else g)).Pairwise
          (fun a b => a.1 ≠ b.1) := by
        apply List.Pairwise.map _ _ h1
        intro a b hab
        rw [hkeys a, hkeys b]
        exact hab
      have h2A : ∀ g ∈ gs.map (fun g => if g.1 == owner kb then (g.1, g.2 ++ [kb]) else g),
          ∀ x ∈ g.2, owner x = g.1 := by
        intro g hg x hx
        rcases List.mem_map.mp hg with ⟨g0, hg0, rfl⟩
        by_cases h : (g0.1 == owner kb) = true
        · rw [if_pos h] at hx ⊢
          dsimp only at hx ⊢
          rcases List.mem_append.mp hx with hx1 | hx2
          · exact h2 g0 hg0 x hx1
          · rcases List.mem_singleton.mp hx2 with rfl
            exact (eq_of_beq h).symm
        · rw [if_neg h] at hx ⊢
          exact h2 g0 hg0 x hx
      obtain ⟨ha, hb, hc⟩ := ih _ h1A h2A
      refine ⟨ha, hb,
        (hc.trans ((flatten_update_perm (owner kb) kb gs h1 hf).append_right rest)).trans ?_⟩
      rw [List.append_assoc]
      exact List.Perm.refl _
    · rw [if_neg hf]
      have hnone : gs.find? (fun g => g.1 == owner kb) = none := by
        cases hx : gs.find? (fun g => g.1 == owner kb) with
        | none => rfl
        | some x => rw [hx] at hf; simp at hf
      have h1A : (gs ++ [(owner kb, [kb])]).Pairwise (fun a b => a.1 ≠ b.1) := by
        rw [List.pairwise_append]
        refine ⟨h1, by simp, ?_⟩
        intro a hag b hb
        rcases List.mem_singleton.mp hb with rfl
        have := List.find?_eq_none.mp hnone a hag
        simpa [beq_iff_eq] using this
      have h2A : ∀ g ∈ gs ++ [(owner kb, [kb])], ∀ x ∈ g.2, owner x = g.1 := by
        intro g hg x hx
        rcases List.mem_append.mp hg with hg1 | hg2
        · exact h2 g hg1 x hx
        · rcases List.mem_singleton.mp hg2 with rfl
          rcases List.mem_singleton.mp hx with rfl
          rfl
      obtain ⟨ha, hb, hc⟩ := ih _ h1A h2A
      refine ⟨ha, hb, hc.trans ?_⟩
      rw [List.map_append, List.flatten_append]
      simp only [List.map_cons, List.map_nil, List.flatten_cons, List.flatten_nil,
        List.append_nil]
      rw [List.append_assoc]
      exact List.Perm.refl _

theorem drain_all_ok : ∀ (rs : List (Except Reply Int)) (t : Int),
    (∀ r ∈ rs, ∃ n, r = .ok n) →
    drainResults rs t = MakeIntReply (t + (rs.map (fun r => match r with
      | .ok n => n
      | .error _ => 0)).sum) := by
  intro rs
  induction rs with
  | nil => intro t _; simp [drainResults]
  | cons r rest ih =>
    intro t hall
    rcases hall r (by simp) with ⟨n, rfl⟩
    rw [drainResults]
    rw [ih (t + n) (fun x hx => hall x (by simp [hx]))]
    simp only [List.map_cons, List.sum_cons]
    rw [add_assoc]

theorem drain_err : ∀ (rs : List (Except Reply Int)) (t : Int),
    (∃ r ∈ rs, ∃ e, r = .error e) →
    ∃ e, Except.error e ∈ rs ∧ drainResults rs t = e := by
  intro rs
  induction rs with
  | nil => intro t h; simp at h
  | cons r rest ih =>
    intro t h
    cases r with
    | error e => exact ⟨e, by simp, by rw [drainResults]⟩
    | ok n =>
      have h2 : ∃ x ∈ rest, ∃ e, x = Except.error e := by
        rcases h with ⟨x, hx, e, rfl⟩
        rcases List.mem_cons.mp hx with h3 | h3
        · exact absurd h3 (by simp)
        · exact ⟨_, h3, e, rfl⟩
      rcases ih (t + n) h2 with ⟨e, hmem, heq⟩
      exact ⟨e, by simp [hmem], by rw [drainResults]; exact heq⟩

theorem delGroupResult_of_isErr {exec : Bytes → List Bytes → Reply}
    {g : Bytes × List Bytes}
    (h : Reply.isErr (exec g.1 (bs "DEL" :: g.2)) = true) :
    delGroupResult exec g = .error (exec g.1 (bs "DEL" :: g.2)) := by
  rw [delGroupResult]
  cases hr : exec g.1 (bs "DEL" :: g.2) with
  | ErrorReply m => rfl
  | StatusReply s => rw [hr] at h; simp [Reply.isErr] at h
  | IntReply n => rw [hr] at h; simp [Reply.isErr] at h
  | BulkReply a => rw [hr] at h; simp [Reply.isErr] at h
  | MultiBulkReply a => rw [hr] at h; simp [Reply.isErr] at h

end cluster

/-- C4: for `DEL k1 k2 …` the router partitions the keys by ring owner
(`NodeForKey`, the empty owner mapping to the local node) — each key lands
in its owner's group and the groups jointly permute the key list — and
issues one `DEL <group-keys>` per group.  If every group's reply is an
integer, the overall reply is exactly the sum of the per-group counts; if
the groups' replies are integers and errors with at least one error, the
overall result is one of the groups' error replies.  (Which error wins
depends on the channel drain order; the model drains in grouping
order.) -/
theorem C4_cluster_del_aggregation (exec : Bytes → List Bytes → Reply)
    (nodeForKey : Bytes → Bytes) (localAddr : Bytes) (k1 : Bytes) (ks : List Bytes) :
    ((((cluster.groupByOwner (cluster.ownerOf nodeForKey localAddr) (k1 :: ks)).map
        Prod.snd).flatten).Perm (k1 :: ks)) ∧
    (∀ g ∈ cluster.groupByOwner (cluster.ownerOf nodeForKey localAddr) (k1 :: ks),
        ∀ kb ∈ g.2, cluster.ownerOf nodeForKey localAddr kb = g.1) ∧
    ((∀ g ∈ cluster.groupByOwner (cluster.ownerOf nodeForKey localAddr) (k1 :: ks),
        ∃ n : Int, exec g.1 (bs "DEL" :: g.2) = MakeIntReply n) →
      cluster.execDel exec nodeForKey localAddr (bs "DEL" :: k1 :: ks)
        = MakeIntReply
            (((cluster.groupByOwner (cluster.ownerOf nodeForKey localAddr)
                (k1 :: ks)).map
              (fun g => cluster.Reply.intCode (exec g.1 (bs "DEL" :: g.2)))).sum)) ∧
    ((∀ g ∈ cluster.groupByOwner (cluster.ownerOf nodeForKey localAddr) (k1 :: ks),
        (∃ n : Int, exec g.1 (bs "DEL" :: g.2) = MakeIntReply n) ∨
          cluster.Reply.isErr (exec g.1 (bs "DEL" :: g.2)) = true) →
      (∃ g ∈ cluster.groupByOwner (cluster.ownerOf nodeForKey localAddr) (k1 :: ks),
          cluster.Reply.isErr (exec g.1 (bs "DEL" :: g.2)) = true) →
      ∃ g ∈ cluster.groupByOwner (cluster.ownerOf nodeForKey localAddr) (k1 :: ks),
        cluster.Reply.isErr (exec g.1 (bs "DEL" :: g.2)) = true ∧
        cluster.execDel exec nodeForKey localAddr (bs "DEL" :: k1 :: ks)
          = exec g.1 (bs "DEL" :: g.2)) := by
  obtain ⟨hpair, hown, hperm⟩ :=
    cluster.groupBy_fold_spec (cluster.ownerOf nodeForKey localAddr) (k1 :: ks) []
      (by simp) (by simp)
  refine ⟨hperm, hown, ?_, ?_⟩
  · intro hall
    rw [cluster.execDel]
    rw [cluster.drain_all_ok _ 0 ?he]
    case he =>
      intro r hr
      rcases List.mem_map.mp hr with ⟨g, hg, rfl⟩
      rcases hall g hg with ⟨n, hn⟩
      exact ⟨n, by rw [cluster.delGroupResult, hn]; rfl⟩
    rw [zero_add, List.map_map]
    congr 1
    refine congrArg List.sum ?_
    apply List.map_congr_left
    intro g hg
    rcases hall g hg with ⟨n, hn⟩
    simp [cluster.delGroupResult, hn, MakeIntReply, cluster.Reply.intCode]
  · intro hshape hex
    rcases hex with ⟨g0, hg0, herr0⟩
    have hde := cluster.delGroupResult_of_isErr herr0
    rcases cluster.drain_err
        ((cluster.groupByOwner (cluster.ownerOf nodeForKey localAddr) (k1 :: ks)).map
          (cluster.delGroupResult exec)) 0
        ⟨_, List.mem_map_of_mem _ hg0, _, hde⟩ with ⟨e, hmem, heq⟩
    rcases List.mem_map.mp hmem with ⟨g1, hg1, hg1e⟩
    rcases hshape g1 hg1 with ⟨n, hn⟩ | herr1
    · rw [cluster.delGroupResult, hn] at hg1e
      exact absurd hg1e (by simp [MakeIntReply])
    · have hde1 := cluster.delGroupResult_of_isErr herr1
      rw [hde1] at hg1e
      have hee : exec g1.1 (bs "DEL" :: g1.2) = e := by
        injection hg1e
      refine ⟨g1, hg1, herr1, ?_⟩
      rw [cluster.execDel]
      rw [heq, hee]

/-- A three-node scenario for C4: `a` owned by `n1`, `b` by `n2`, `c`
unowned (routes to the local node); each node deletes one key. -/
theorem C4_cluster_del_aggregation_witness :
    cluster.execDel
        (fun _ cmd => MakeIntReply ((cmd.length : Int) - 1))
        (fun kb => if kb = bs "a" then bs "n1" else if kb = bs "b" then bs "n2" else [])
        (bs "loc") [bs "DEL", bs "a", bs "b", bs "c"]
      = MakeIntReply 3 ∧
    cluster.groupByOwner
        (cluster.ownerOf
          (fun kb => if kb = bs "a" then bs "n1" else if kb = bs "b" then bs "n2" else [])
          (bs "loc"))
        [bs "a", bs "b", bs "c"]
      = [(bs "n1", [bs "a"]), (bs "n2", [bs "b"]), (bs "loc", [bs "c"])] := by
  have h := C4_cluster_del_aggregation
    (fun _ cmd => MakeIntReply ((cmd.length : Int) - 1))
    (fun kb => if kb = bs "a" then bs "n1" else if kb = bs "b" then bs "n2" else [])
    (bs "loc") (bs "a") [bs "b", bs "c"]
  have hgroups : cluster.groupByOwner
      (cluster.ownerOf
        (fun kb => if kb = bs "a" then bs "n1" else if kb = bs "b" then bs "n2" else [])
        (bs "loc"))
      [bs "a", bs "b", bs "c"]
    = [(bs "n1", [bs "a"]), (bs "n2", [bs "b"]), (bs "loc", [bs "c"])] := by decide
  refine ⟨?_, hgroups⟩
  have hs := h.2.2.1 (by
    intro g hg
    rw [hgroups] at hg
    simp only [List.mem_cons, List.not_mem_nil, or_false] at hg
    rcases hg with rfl | rfl | rfl <;> exact ⟨1, by decide⟩)
  exact hs.trans (by decide)

/-! ### Ordering facts for the insertion-sort model (claim C3)

`bytesLt` is a strict total order on byte strings: asymmetric, transitive,
and connected (mutually-not-less byte strings are equal).  The insertion
sort permutes its input, sorts it, is the identity on sorted input, and a
strictly sorted list is the unique sorted arrangement of its elements. -/

theorem bytesLt_asymm : ∀ a b : Bytes, bytesLt a b = true → bytesLt b a = false := by
  intro a
  induction a with
  | nil =>
    intro b h
    cases b with
    | nil => exact absurd h (by decide)
    | cons y ys => rfl
  | cons x xs ih =>
    intro b h
    cases b with
    | nil => exact Bool.noConfusion h
    | cons y ys =>
      rw [bytesLt] at h
      rw [bytesLt]
      by_cases h1 : x < y
      · rw [if_neg (by omega), if_pos h1]
      · rw [if_neg h1] at h
        by_cases h2 : y < x
        · rw [if_pos h2] at h
          exact Bool.noConfusion h
        · rw [if_neg h2] at h
          rw [if_neg h2, if_neg h1]
          exact ih ys h

theorem bytesLt_trans : ∀ a b c : Bytes, bytesLt a b = true → bytesLt b c = true →
    bytesLt a c = true := by
  intro a
  induction a with
  | nil =>
    intro b c h1 h2
    cases b with
    | nil => exact Bool.noConfusion h1
    | cons y ys =>
      cases c with
      | nil => exact Bool.noConfusion h2
      | cons z zs => rfl
  | cons x xs ih =>
    intro b c h1 h2
    cases b with
    | nil => exact Bool.noConfusion h1
    | cons y ys =>
      cases c with
      | nil => exact Bool.noConfusion h2
      | cons z zs =>
        rw [bytesLt] at h1 h2 ⊢
        by_cases hxy : x < y
        · by_cases hyz : y < z
          · rw [if_pos (by omega)]
          · rw [if_neg hyz] at h2
            by_cases hzy : z < y
            · rw [if_pos hzy] at h2
              exact Bool.noConfusion h2
            · rw [if_pos (by omega)]
        · rw [if_neg hxy] at h1
          by_cases hyx : y < x
          · rw [if_pos hyx] at h1
            exact Bool.noConfusion h1
          · rw [if_neg hyx] at h1
            by_cases hyz : y < z
            · rw [if_pos (by omega)]
            · rw [if_neg hyz] at h2
              by_cases hzy : z < y
              · rw [if_pos hzy] at h2
                exact Bool.noConfusion h2
              · rw [if_neg hzy] at h2
                rw [if_neg (by omega), if_neg (by omega)]
                exact ih ys zs h1 h2

theorem bytesLt_anti : ∀ a b : Bytes, bytesLt a b = false → bytesLt b a = false →
    a = b := by
  intro a
  induction a with
  | nil =>
    intro b h1 _
    cases b with
    | nil => rfl
    | cons y ys => exact Bool.noConfusion h1
  | cons x xs ih =>
    intro b h1 h2
    cases b with
    | nil => exact Bool.noConfusion h2
    | cons y ys =>
      rw [bytesLt] at h1 h2
      by_cases hxy : x < y
      · rw [if_pos hxy] at h1
        exact Bool.noConfusion h1
      · rw [if_neg hxy] at h1
        by_cases hyx : y < x
        · rw [if_pos hyx] at h2
          exact Bool.noConfusion h2
        · rw [if_neg hyx] at h1
          rw [if_neg hyx, if_neg hxy] at h2
          have hxyeq : x = y := by omega
          rw [hxyeq, ih ys h1 h2]

theorem insertByLt_mem {α : Type} (lt : α → α → Bool) (x : α) :
    ∀ (l : List α) (z : α), z ∈ insertByLt lt x l → z = x ∨ z ∈ l := by
  intro l
  induction l with
  | nil =>
    intro z hz
    rw [insertByLt] at hz
    exact Or.inl (List.mem_singleton.mp hz)
  | cons y ys ih =>
    intro z hz
    rw [insertByLt] at hz
    by_cases h : lt x y
    · rw [if_pos h] at hz
      rcases List.mem_cons.mp hz with rfl | hz2
      · exact Or.inl rfl
      · exact Or.inr hz2
    · rw [if_neg h] at hz
      rcases List.mem_cons.mp hz with rfl | hz2
      · exact Or.inr (List.mem_cons_self _ _)
      · rcases ih z hz2 with h3 | h3
        · exact Or.inl h3
        · exact Or.inr (List.mem_cons_of_mem _ h3)

theorem insertByLt_perm {α : Type} (lt : α → α → Bool) (x : α) :
    ∀ l : List α, (insertByLt lt x l).Perm (x :: l) := by
  intro l
  induction l with
  | nil => exact List.Perm.refl _
  | cons y ys ih =>
    rw [insertByLt]
    by_cases h : lt x y
    · rw [if_pos h]
    · rw [if_neg h]
      exact (List.Perm.cons y ih).trans (List.Perm.swap x y ys)

theorem sortByLt_perm {α : Type} (lt : α → α → Bool) :
    ∀ l : List α, (sortByLt lt l).Perm l := by
  intro l
  induction l with
  | nil => exact List.Perm.refl _
  | cons x xs ih =>
    rw [sortByLt]
    exact (insertByLt_perm lt x _).trans (List.Perm.cons x ih)

theorem insertByLt_pairwise_le {α : Type} (lt : α → α → Bool)
    (hasym : ∀ a b, lt a b = true → lt b a = false)
    (htrans : ∀ a b c, lt a b = true → lt b c = true → lt a c = true) (x : α) :
    ∀ l : List α, l.Pairwise (fun a b => lt b a = false) →
      (insertByLt lt x l).Pairwise (fun a b => lt b a = false) := by
  intro l
  induction l with
  | nil =>
    intro _
    rw [insertByLt]
    exact List.pairwise_singleton _ _
  | cons y ys ih =>
    intro hp
    rcases List.pairwise_cons.mp hp with ⟨hy, hys⟩
    rw [insertByLt]
    by_cases h : lt x y
    · rw [if_pos h]
      refine List.pairwise_cons.mpr ⟨?_, hp⟩
      intro z hz
      rcases List.mem_cons.mp hz with rfl | hz2
      · exact hasym x z h
      · cases hzx : lt z x with
        | false => rfl
        | true =>
          have hzy := htrans z x y hzx h
          rw [hy z hz2] at hzy
          exact Bool.noConfusion hzy
    · rw [if_neg h]
      refine List.pairwise_cons.mpr ⟨?_, ih hys⟩
      intro z hz
      rcases insertByLt_mem lt x _ z hz with rfl | hz2
      · cases hxy : lt z y with
        | false => rfl
        | true => exact absurd hxy h
      · exact hy z hz2

theorem sortByLt_pairwise_le {α : Type} (lt : α → α → Bool)
    (hasym : ∀ a b, lt a b = true → lt b a = false)
    (htrans : ∀ a b c, lt a b = true → lt b c = true → lt a c = true) :
    ∀ l : List α, (sortByLt lt l).Pairwise (fun a b => lt b a = false) := by
  intro l
  induction l with
  | nil => exact List.Pairwise.nil
  | cons x xs ih =>
    rw [sortByLt]
    exact insertByLt_pairwise_le lt hasym htrans x _ ih

theorem eq_of_perm_of_strict_sorted {α : Type} (lt : α → α → Bool)
    (hasym : ∀ a b, lt a b = true → lt b a = false) :
    ∀ l₁ l₂ : List α, l₁.Perm l₂ →
      l₁.Pairwise (fun a b => lt a b = true) →
      l₂.Pairwise (fun a b => lt a b = true) → l₁ = l₂ := by
  intro l₁
  induction l₁ with
  | nil =>
    intro l₂ hp _ _
    exact hp.nil_eq
  | cons a t ih =>
    intro l₂ hp h1 h2
    cases l₂ with
    | nil => exact absurd hp.symm.nil_eq (by simp)
    | cons b t₂ =>
      rcases List.pairwise_cons.mp h1 with ⟨ha, h1t⟩
      rcases List.pairwise_cons.mp h2 with ⟨hb, h2t⟩
      have hab : a = b := by
        by_contra hne
        have ha2 : a ∈ b :: t₂ := hp.mem_iff.mp (List.mem_cons_self _ _)
        have hb1 : b ∈ a :: t := hp.symm.mem_iff.mp (List.mem_cons_self _ _)
        have hat : a ∈ t₂ := by
          rcases List.mem_cons.mp ha2 with h | h
          · exact absurd h hne
          · exact h
        have hbt : b ∈ t := by
          rcases List.mem_cons.mp hb1 with h | h
          · exact absurd h.symm hne
          · exact h
        have h4 := hb a hat
        rw [hasym a b (ha b hbt)] at h4
        exact Bool.noConfusion h4
      subst hab
      rw [ih t₂ hp.cons_inv h1t h2t]

theorem pairwise_strict_of_le_ne {α : Type} (f : α → Bytes) (l : List α)
    (h1 : l.Pairwise (fun a b => bytesLt (f b) (f a) = false))
    (h2 : l.Pairwise (fun a b => f a ≠ f b)) :
    l.Pairwise (fun a b => bytesLt (f a) (f b) = true) := by
  have h3 := h1.and h2
  refine h3.imp ?_
  intro a b hab
  rcases hab with ⟨hle, hne⟩
  cases hlt : bytesLt (f a) (f b) with
  | true => rfl
  | false => exact absurd (bytesLt_anti _ _ hlt hle) hne

theorem insertByLt_eq_cons {α : Type} (lt : α → α → Bool)
    (hconn : ∀ a b, lt a b = false → lt b a = false → a = b) (x : α) :
    ∀ l : List α, (∀ z ∈ l, lt z x = false) → insertByLt lt x l = x :: l := by
  intro l
  induction l with
  | nil => intro _; rfl
  | cons y ys ih =>
    intro h
    rw [insertByLt]
    by_cases hxy : lt x y
    · rw [if_pos hxy]
    · rw [if_neg hxy]
      have hyx : lt y x = false := h y (List.mem_cons_self _ _)
      have hxy2 : lt x y = false := by
        cases hl : lt x y
        · rfl
        · exact absurd hl hxy
      have hxyeq : x = y := hconn x y hxy2 hyx
      rw [ih (fun z hz => h z (List.mem_cons_of_mem _ hz))]
      rw [hxyeq]

theorem sortByLt_eq_self {α : Type} (lt : α → α → Bool)
    (hconn : ∀ a b, lt a b = false → lt b a = false → a = b) :
    ∀ l : List α, l.Pairwise (fun a b => lt b a = false) → sortByLt lt l = l := by
  intro l
  induction l with
  | nil => intro _; rfl
  | cons x xs ih =>
    intro h
    rcases List.pairwise_cons.mp h with ⟨hx, hxs⟩
    rw [sortByLt, ih hxs]
    exact insertByLt_eq_cons lt hconn x xs hx

theorem sortByLt_bytes_idem (l : List Bytes) :
    sortByLt bytesLt (sortByLt bytesLt l) = sortByLt bytesLt l :=
  sortByLt_eq_self bytesLt bytesLt_anti _
    (sortByLt_pairwise_le bytesLt bytesLt_asymm bytesLt_trans l)

/-! ### The snapshot file format (`rdb` save path, claim C3) -/

namespace rdb

/-- `writeUint8`: one byte. -/
def writeUint8 (v : Nat) : Bytes := [v % 256]

/-- `writeUint32`: four little-endian bytes. -/
def writeUint32 (v : Nat) : Bytes :=
  [v % 256, v / 256 % 256, v / 65536 % 256, v / 16777216 % 256]

/-- `writeInt64`: eight little-endian bytes of `uint64(v)`. -/
def writeInt64 (v : Int) : Bytes :=
  let u := (v % (18446744073709551616 : Int)).toNat
  [u % 256, u / 256 % 256, u / 65536 % 256, u / 16777216 % 256,
   u / 4294967296 % 256, u / 1099511627776 % 256,
   u / 281474976710656 % 256, u / 72057594037927936 % 256]

/-- `writeString`: length-prefixed bytes. -/
def writeString (s : Bytes) : Bytes := writeUint32 s.length ++ s

/-- `writeBytes`: length-prefixed bytes (a `nil` slice writes the zero
length and no payload, the same bytes as an empty slice). -/
def writeBytes (b : Bytes) : Bytes := writeUint32 b.length ++ b

/-- The `uint8(e.Type)` codes. -/
def EntryType.code : EntryType → Nat
  | .TypeString => 1
  | .TypeList => 2
  | .TypeHash => 3
  | .TypeSet => 4

/-- The per-type body of one entry in `SaveToWriter`: strings are written
raw, lists element by element, hashes as sorted fields with their values
(a `nil` map writes count 0, the same bytes as the empty field list), sets
as sorted members. -/
def entryBody (e : Entry) : Bytes :=
  match e.Typ with
  | .TypeString => writeBytes e.EString
  | .TypeList =>
    writeUint32 e.EList.length ++ (e.EList.map writeBytes).flatten
  | .TypeHash =>
    let fields := sortByLt bytesLt (e.EHash.map Prod.fst)
    writeUint32 fields.length ++
      (fields.map (fun fd => writeString fd ++
        writeBytes (((e.EHash.find? (fun p => p.1 == fd)).map Prod.snd).getD []))).flatten
  | .TypeSet =>
    let members := sortByLt bytesLt e.ESet
    writeUint32 members.length ++ (members.map writeString).flatten

/-- `SaveToWriter`: sort the entries by key in place, then write the magic
header, the creation stamp — `time.Now().UnixMilli()` at the moment of the
save, an explicit argument here — the entry count, and each entry (type
code, key, absolute expiration, body). -/
def SaveToWriter (entries : List Entry) (createdAt : Int) : Bytes :=
  let sorted := sortByLt (fun a b => bytesLt a.Key b.Key) entries
  bs "MYRDB1" ++ writeInt64 createdAt ++ writeUint32 sorted.length ++
    (sorted.map (fun e =>
      writeUint8 e.Typ.code ++ writeString e.Key ++
        writeInt64 e.ExpireAtUnixMs ++ entryBody e)).flatten

end rdb

/-- The cache value `applySnapshot` reconstructs from one snapshot entry
(the argument of its `cacheAdd` call). -/
def rdbValue (e : rdb.Entry) : DataEntity :=
  match e.Typ with
  | .TypeString => .StringData e.EString
  | .TypeList => .ListData e.EList
  | .TypeHash => .HashData e.EHash
  | .TypeSet => .SetData e.ESet

/-! ### Shape of the entries a snapshot produces (claim C3) -/

/-- Canonical shape of a snapshot entry: the expiration is 0 or strictly
future, the per-type unused fields are empty, and set members are already
sorted. -/
def rdb.Entry.Canonical (e : rdb.Entry) (now : Int) : Prop :=
  (e.ExpireAtUnixMs = 0 ∨ now < e.ExpireAtUnixMs) ∧
  (match e.Typ with
   | .TypeString => e.EList = [] ∧ e.EHash = [] ∧ e.ESet = []
   | .TypeList => e.EString = [] ∧ e.EHash = [] ∧ e.ESet = []
   | .TypeHash => e.EString = [] ∧ e.EList = [] ∧ e.ESet = []
   | .TypeSet => e.EString = [] ∧ e.EList = [] ∧ e.EHash = [] ∧
       sortByLt bytesLt e.ESet = e.ESet)

theorem snapshotEntryOf_key (st1 : DBState) (now : Int) (a : LruEntry)
    (x : rdb.Entry) (h : snapshotEntryOf st1 now a = some x) : x.Key = a.key := by
  rw [snapshotEntryOf] at h
  revert h
  cases hT : st1.ttlLookup a.key with
  | none =>
    dsimp only
    cases hv : a.value <;> intro h <;> injection h with h2 <;> rw [← h2]
  | some t =>
    dsimp only
    by_cases hle : t ≤ now
    · rw [if_pos hle]
      intro h
      exact Option.noConfusion h
    · rw [if_neg hle]
      dsimp only
      cases hv : a.value <;> intro h <;> injection h with h2 <;> rw [← h2]

theorem snapshotEntryOf_canonical (st1 : DBState) (now : Int) (a : LruEntry)
    (x : rdb.Entry) (h : snapshotEntryOf st1 now a = some x) : x.Canonical now := by
  rw [snapshotEntryOf] at h
  revert h
  cases hT : st1.ttlLookup a.key with
  | none =>
    dsimp only
    cases hv : a.value <;> intro h <;> injection h with h2 <;> rw [← h2]
    · exact ⟨Or.inl rfl, rfl, rfl, rfl⟩
    · exact ⟨Or.inl rfl, rfl, rfl, rfl⟩
    · exact ⟨Or.inl rfl, rfl, rfl, rfl⟩
    · exact ⟨Or.inl rfl, rfl, rfl, rfl, sortByLt_bytes_idem _⟩
  | some t =>
    dsimp only
    by_cases hle : t ≤ now
    · rw [if_pos hle]
      intro h
      exact Option.noConfusion h
    · rw [if_neg hle]
      dsimp only
      cases hv : a.value <;> intro h <;> injection h with h2 <;> rw [← h2]
      · exact ⟨Or.inr (show now < t by omega), rfl, rfl, rfl⟩
      · exact ⟨Or.inr (show now < t by omega), rfl, rfl, rfl⟩
      · exact ⟨Or.inr (show now < t by omega), rfl, rfl, rfl⟩
      · exact ⟨Or.inr (show now < t by omega), rfl, rfl, rfl, sortByLt_bytes_idem _⟩

theorem purge_fold_entries_sublist (now : Int) :
    ∀ (l : List (Bytes × Int)) (st : DBState),
      ((l.foldl (fun s p => if p.2 ≤ now then s.cacheRemove p.1 else s)
          st).cache.entries).Sublist st.cache.entries := by
  intro l
  induction l with
  | nil => intro st; exact List.Sublist.refl _
  | cons p tl ih =>
    intro st
    rw [List.foldl_cons]
    by_cases h : p.2 ≤ now
    · rw [if_pos h]
      refine (ih _).trans ?_
      rw [cacheRemove_spec]
      cases hf : st.cache.entries.find? (fun e => e.key == p.1) with
      | none => exact List.Sublist.refl _
      | some e => exact List.eraseP_sublist _
    · rw [if_neg h]
      exact ih st

theorem purgeExpiredAll_entries_sublist (st : DBState) (now : Int) :
    ((st.purgeExpiredAll now).cache.entries).Sublist st.cache.entries := by
  rw [DBState.purgeExpiredAll]
  exact purge_fold_entries_sublist now st.ttlMap st

theorem filterMap_keys_sublist {α β : Type} (f : α → Option β) (g : β → Bytes)
    (g0 : α → Bytes) (hk : ∀ a x, f a = some x → g x = g0 a) :
    ∀ l : List α, ((l.filterMap f).map g).Sublist (l.map g0) := by
  intro l
  induction l with
  | nil => exact List.Sublist.refl _
  | cons a tl ih =>
    rw [List.map_cons, List.filterMap_cons]
    cases hf : f a with
    | none => exact ih.trans (List.sublist_cons_self _ _)
    | some x =>
      rw [List.map_cons, hk a x hf]
      exact List.Sublist.cons₂ _ ih

theorem snapshotEntries_keys_pairwise (st : DBState) (now : Int)
    (hnd : st.cache.entries.Pairwise (fun a b => a.key ≠ b.key)) :
    (st.snapshotEntries now).1.Pairwise (fun a b => a.Key ≠ b.Key) := by
  have hnd1 := List.Pairwise.sublist (purgeExpiredAll_entries_sublist st now) hnd
  have hm : (((st.purgeExpiredAll now).cache.entries.map
      (fun e => e.key)).Pairwise (fun a b => a ≠ b)) :=
    List.pairwise_map.mpr hnd1
  have hsub2 := filterMap_keys_sublist
    (snapshotEntryOf (st.purgeExpiredAll now) now) rdb.Entry.Key (fun e => e.key)
    (fun a x h => snapshotEntryOf_key _ now a x h)
    (st.purgeExpiredAll now).cache.entries
  have hm3 := List.pairwise_map.mp (List.Pairwise.sublist hsub2 hm)
  simp only [DBState.snapshotEntries]
  exact ((sortByLt_perm (fun a b : rdb.Entry => bytesLt a.Key b.Key) _).pairwise_iff
    (by intro a b h he; exact h he.symm)).mpr hm3

theorem snapshotEntries_canonical (st : DBState) (now : Int) :
    ∀ e ∈ (st.snapshotEntries now).1, e.Canonical now := by
  intro e he
  simp only [DBState.snapshotEntries] at he
  have he2 := (sortByLt_perm (fun a b : rdb.Entry => bytesLt a.Key b.Key) _).mem_iff.mp he
  rcases List.mem_filterMap.mp he2 with ⟨a, _, hfa⟩
  exact snapshotEntryOf_canonical _ _ _ _ hfa

theorem snapshotEntries_sorted_le (st : DBState) (now : Int) :
    (st.snapshotEntries now).1.Pairwise
      (fun a b => bytesLt b.Key a.Key = false) := by
  simp only [DBState.snapshotEntries]
  exact sortByLt_pairwise_le (fun a b : rdb.Entry => bytesLt a.Key b.Key)
    (fun a b h => bytesLt_asymm _ _ h)
    (fun a b c h1 h2 => bytesLt_trans _ _ _ h1 h2) _

/-! ### Applying a snapshot to a zero-budget cache (claim C3) -/

theorem evictLoop_zero {c : Lru.Cache} (hmax : c.maxBytes = 0) :
    c.evictLoop = (c, []) := by
  rw [Lru.Cache.evictLoop]
  cases hl : c.entries.length with
  | zero => rw [Lru.Cache.evictLoopFuel]
  | succ n =>
    rw [Lru.Cache.evictLoopFuel]
    rw [if_neg (by rw [hmax]; simp)]

/-- With an unlimited budget, adding a fresh key is a plain front
insertion: no eviction, no events, TTL table untouched. -/
theorem cacheAdd_fresh_zero (s : DBState) (now : Int) (key : Bytes)
    (value : DataEntity) (hmax : s.cache.maxBytes = 0)
    (hfresh : s.cache.entries.find? (fun e => e.key == key) = none) :
    s.cacheAdd now key value =
      { s with cache := { s.cache with
          entries := ⟨key, value, 0⟩ :: s.cache.entries,
          nbytes := s.cache.nbytes + (key.length : Int) + (value.Len : Int) } } := by
  rw [DBState.cacheAdd]
  dsimp only
  rw [Lru.Cache.Add]
  rw [hfresh]
  dsimp only
  rw [if_neg (by omega)]
  rw [evictLoop_zero (c :=
    { s.cache with
      entries := ⟨key, value, 0⟩ :: s.cache.entries,
      nbytes := s.cache.nbytes + (key.length : Int) + (value.Len : Int) }) hmax]
  exact applyEvents_nil _

/-- The clearing loop of `applySnapshot`: removing every key of a cache
with pairwise-distinct keys empties it, preserving the budget. -/
theorem clearFold_spec : ∀ (l : List LruEntry) (st : DBState),
    st.cache.entries = l → l.Pairwise (fun a b => a.key ≠ b.key) →
    ((l.map (fun e => e.key)).foldl (fun s k => s.cacheRemove k)
        st).cache.entries = [] ∧
    ((l.map (fun e => e.key)).foldl (fun s k => s.cacheRemove k)
        st).cache.maxBytes = st.cache.maxBytes := by
  intro l
  induction l with
  | nil =>
    intro st he _
    exact ⟨he, rfl⟩
  | cons e tl ih =>
    intro st he hp
    rcases List.pairwise_cons.mp hp with ⟨hhead, htl⟩
    rw [List.map_cons, List.foldl_cons]
    have hrem : st.cacheRemove e.key =
        { st with
          cache := { st.cache with
            entries := tl,
            nbytes := st.cache.nbytes - Lru.entrySize e },
          ttlMap := st.ttlMap.eraseP (fun p => p.1 == e.key) } := by
      rw [cacheRemove_spec, he,
        find?_cons_pos (fun x : LruEntry => x.key == e.key) tl (by simp),
        eraseP_cons_pos (fun x : LruEntry => x.key == e.key) tl (by simp)]
    rw [hrem]
    exact ih _ rfl htl

theorem applySnapshotStep_spec (now : Int) (s : DBState) (e : rdb.Entry)
    (hmax : s.cache.maxBytes = 0)
    (hfc : s.cache.entries.find? (fun x => x.key == e.Key) = none)
    (hft : s.ttlMap.find? (fun p => p.1 == e.Key) = none)
    (hexp : e.ExpireAtUnixMs = 0 ∨ now < e.ExpireAtUnixMs) :
    applySnapshotStep now s e =
      { s with
        cache := { s.cache with
          entries := ⟨e.Key, rdbValue e, 0⟩ :: s.cache.entries,
          nbytes := s.cache.nbytes + (e.Key.length : Int) + ((rdbValue e).Len : Int) },
        ttlMap :=
          if 0 < e.ExpireAtUnixMs then s.ttlMap ++ [(e.Key, e.ExpireAtUnixMs)]
          else s.ttlMap } := by
  have hskip : ¬ (0 < e.ExpireAtUnixMs ∧ e.ExpireAtUnixMs ≤ now) := by
    rcases hexp with h0 | h1 <;> omega
  have hadd : ∀ v : DataEntity, s.cacheAdd now e.Key v =
      { s with cache := { s.cache with
          entries := ⟨e.Key, v, 0⟩ :: s.cache.entries,
          nbytes := s.cache.nbytes + (e.Key.length : Int) + (v.Len : Int) } } :=
    fun v => cacheAdd_fresh_zero s now e.Key v hmax hfc
  rw [applySnapshotStep, if_neg hskip, rdbValue]
  dsimp only
  cases hTy : e.Typ <;> dsimp only <;> rw [hadd] <;> dsimp only <;>
    by_cases hpos : 0 < e.ExpireAtUnixMs
  all_goals first
  | (rw [if_pos hpos, if_pos hpos, assocSet, if_neg (by rw [hft]; simp)])
  | (rw [if_neg hpos, if_neg hpos])

theorem applySnapshot_fold_spec (now : Int) :
    ∀ (entries : List rdb.Entry) (s : DBState),
      s.cache.maxBytes = 0 →
      (∀ e ∈ entries, s.cache.entries.find? (fun x => x.key == e.Key) = none) →
      (∀ e ∈ entries, s.ttlMap.find? (fun p => p.1 == e.Key) = none) →
      entries.Pairwise (fun a b => a.Key ≠ b.Key) →
      (∀ e ∈ entries, e.ExpireAtUnixMs = 0 ∨ now < e.ExpireAtUnixMs) →
      (entries.foldl (applySnapshotStep now) s).cache.entries
          = (entries.map (fun e => (⟨e.Key, rdbValue e, 0⟩ : LruEntry))).reverse
              ++ s.cache.entries ∧
      (entries.foldl (applySnapshotStep now) s).ttlMap
          = s.ttlMap ++ (entries.filter (fun e => 0 < e.ExpireAtUnixMs)).map
              (fun e => (e.Key, e.ExpireAtUnixMs)) ∧
      (entries.foldl (applySnapshotStep now) s).cache.maxBytes = 0 := by
  intro entries
  induction entries with
  | nil =>
    intro s hmax _ _ _ _
    exact ⟨by simp, by simp, hmax⟩
  | cons e tl ih =>
    intro s hmax hfc hft hnd hexp
    rcases List.pairwise_cons.mp hnd with ⟨hhead, htl⟩
    have hexp1 : ∀ e2 ∈ tl, e2.ExpireAtUnixMs = 0 ∨ now < e2.ExpireAtUnixMs :=
      fun e2 he2 => hexp e2 (List.mem_cons_of_mem _ he2)
    have hfc1 : ∀ e2 ∈ tl,
        ((⟨e.Key, rdbValue e, 0⟩ : LruEntry) :: s.cache.entries).find?
          (fun x => x.key == e2.Key) = none := by
      intro e2 he2
      rw [find?_cons_neg (fun x : LruEntry => x.key == e2.Key) s.cache.entries
        (by simp; exact hhead e2 he2)]
      exact hfc e2 (List.mem_cons_of_mem _ he2)
    have hft1 : ∀ e2 ∈ tl,
        ((if 0 < e.ExpireAtUnixMs then s.ttlMap ++ [(e.Key, e.ExpireAtUnixMs)]
            else s.ttlMap).find? (fun p => p.1 == e2.Key)) = none := by
      intro e2 he2
      by_cases hpos : 0 < e.ExpireAtUnixMs
      · rw [if_pos hpos,
          find?_append_none _ (hft e2 (List.mem_cons_of_mem _ he2)),
          find?_cons_neg (fun p : Bytes × Int => p.1 == e2.Key) []
            (by simp; exact hhead e2 he2)]
        rfl
      · rw [if_neg hpos]
        exact hft e2 (List.mem_cons_of_mem _ he2)
    rw [List.foldl_cons,
      applySnapshotStep_spec now s e hmax (hfc e (List.mem_cons_self _ _))
        (hft e (List.mem_cons_self _ _)) (hexp e (List.mem_cons_self _ _))]
    have ihR := ih
      ({ s with
        cache := { s.cache with
          entries := ⟨e.Key, rdbValue e, 0⟩ :: s.cache.entries,
          nbytes := s.cache.nbytes + (e.Key.length : Int) + ((rdbValue e).Len : Int) },
        ttlMap :=
          if 0 < e.ExpireAtUnixMs then s.ttlMap ++ [(e.Key, e.ExpireAtUnixMs)]
          else s.ttlMap } : DBState)
      hmax hfc1 hft1 htl hexp1
    refine ⟨?_, ?_, ?_⟩
    · rw [List.map_cons, List.reverse_cons, List.append_assoc]
      exact ihR.1
    · rw [ihR.2.1]
      dsimp only
      by_cases hpos : 0 < e.ExpireAtUnixMs
      · rw [if_pos hpos, List.filter_cons, if_pos (by simpa using hpos),
          List.map_cons, List.append_assoc]
        rfl
      · rw [if_neg hpos, List.filter_cons, if_neg (by simpa using hpos)]
    · exact ihR.2.2

theorem applySnapshot_state (st : DBState) (entries : List rdb.Entry) (now : Int)
    (hmax : st.cache.maxBytes = 0)
    (hndc : st.cache.entries.Pairwise (fun a b => a.key ≠ b.key))
    (hnde : entries.Pairwise (fun a b => a.Key ≠ b.Key))
    (hexp : ∀ e ∈ entries, e.ExpireAtUnixMs = 0 ∨ now < e.ExpireAtUnixMs) :
    (st.applySnapshot entries now).cache.entries
        = (entries.map (fun e => (⟨e.Key, rdbValue e, 0⟩ : LruEntry))).reverse ∧
    (st.applySnapshot entries now).ttlMap
        = (entries.filter (fun e => 0 < e.ExpireAtUnixMs)).map
            (fun e => (e.Key, e.ExpireAtUnixMs)) ∧
    (st.applySnapshot entries now).cache.maxBytes = 0 := by
  obtain ⟨hcl1, hcl2⟩ := clearFold_spec st.cache.entries st rfl hndc
  have hs2max : (({ ((st.cache.entries.map (fun e => e.key)).foldl
        (fun s k => s.cacheRemove k) st) with ttlMap := [] } : DBState)).cache.maxBytes
      = 0 := hcl2.trans hmax
  have hfc0 : ∀ e ∈ entries,
      (({ ((st.cache.entries.map (fun e => e.key)).foldl
          (fun s k => s.cacheRemove k) st) with ttlMap := [] } : DBState)).cache.entries.find?
        (fun x => x.key == e.Key) = none := by
    intro e _
    dsimp only
    rw [hcl1]
    rfl
  have hft0 : ∀ e ∈ entries,
      (({ ((st.cache.entries.map (fun e => e.key)).foldl
          (fun s k => s.cacheRemove k) st) with ttlMap := [] } : DBState)).ttlMap.find?
        (fun p => p.1 == e.Key) = none :=
    fun e _ => rfl
  obtain ⟨hf1, hf2, hf3⟩ := applySnapshot_fold_spec now entries
    ({ ((st.cache.entries.map (fun e => e.key)).foldl
        (fun s k => s.cacheRemove k) st) with ttlMap := [] } : DBState)
    hs2max hfc0 hft0 hnde hexp
  rw [DBState.applySnapshot]
  refine ⟨?_, ?_, hf3⟩
  · rw [hf1]
    dsimp only
    rw [hcl1, List.append_nil]
  · rw [hf2]
    dsimp only
    rw [List.nil_append]

theorem purge_fold_noop (now : Int) :
    ∀ (l : List (Bytes × Int)) (st : DBState), (∀ p ∈ l, ¬ p.2 ≤ now) →
      l.foldl (fun s p => if p.2 ≤ now then s.cacheRemove p.1 else s) st = st := by
  intro l
  induction l with
  | nil => intro st _; rfl
  | cons p tl ih =>
    intro st h
    rw [List.foldl_cons, if_neg (h p (List.mem_cons_self _ _))]
    exact ih st (fun q hq => h q (List.mem_cons_of_mem _ hq))

theorem purgeExpiredAll_noop (st : DBState) (now : Int)
    (h : ∀ p ∈ st.ttlMap, ¬ p.2 ≤ now) : st.purgeExpiredAll now = st := by
  rw [DBState.purgeExpiredAll]
  exact purge_fold_noop now st.ttlMap st h

/-- Looking up a snapshot key in the TTL table `applySnapshot` rebuilds:
present with its instant exactly when the entry carries a positive
expiration. -/
theorem find?_ttl_reconstruction :
    ∀ (entries : List rdb.Entry), entries.Pairwise (fun a b => a.Key ≠ b.Key) →
      ∀ e ∈ entries,
        ((entries.filter (fun x => 0 < x.ExpireAtUnixMs)).map
          (fun x => (x.Key, x.ExpireAtUnixMs))).find? (fun p => p.1 == e.Key)
        = if 0 < e.ExpireAtUnixMs then some (e.Key, e.ExpireAtUnixMs) else none := by
  intro entries
  induction entries with
  | nil =>
    intro _ e he
    exact absurd he (List.not_mem_nil e)
  | cons a tl ih =>
    intro hnd e he
    rcases List.pairwise_cons.mp hnd with ⟨hhead, htl⟩
    rcases List.mem_cons.mp he with rfl | he2
    · rw [List.filter_cons]
      by_cases hpos : 0 < e.ExpireAtUnixMs
      · rw [if_pos (by simpa using hpos), List.map_cons,
          find?_cons_pos (fun p : Bytes × Int => p.1 == e.Key) _ (by simp),
          if_pos hpos]
      · rw [if_neg (by simpa using hpos), if_neg hpos]
        apply List.find?_eq_none.mpr
        intro x hx
        rcases List.mem_map.mp hx with ⟨y, hy, rfl⟩
        have hyt : y ∈ tl := List.mem_of_mem_filter hy
        intro hc
        simp only [beq_iff_eq] at hc
        exact hhead y hyt hc.symm
    · rw [List.filter_cons]
      by_cases hpos : 0 < a.ExpireAtUnixMs
      · rw [if_pos (by simpa using hpos), List.map_cons,
          find?_cons_neg (fun p : Bytes × Int => p.1 == e.Key) _
            (by simp; exact hhead e he2)]
        exact ih htl e he2
      · rw [if_neg (by simpa using hpos)]
        exact ih htl e he2

theorem filterMap_reverse_eq {α β : Type} (f : α → Option β) :
    ∀ l : List α, l.reverse.filterMap f = (l.filterMap f).reverse := by
  intro l
  induction l with
  | nil => rfl
  | cons a tl ih =>
    simp only [List.reverse_cons, List.filterMap_append, List.filterMap_cons, ih]
    cases hf : f a <;> simp [hf]

theorem filterMap_map_eq {α β γ : Type} (g : α → β) (f : β → Option γ) :
    ∀ l : List α, (l.map g).filterMap f = l.filterMap (fun a => f (g a)) := by
  intro l
  induction l with
  | nil => rfl
  | cons a tl ih =>
    rw [List.map_cons, List.filterMap_cons, List.filterMap_cons, ih]

theorem filterMap_eq_self_of_some {α : Type} (f : α → Option α) :
    ∀ l : List α, (∀ a ∈ l, f a = some a) → l.filterMap f = l := by
  intro l
  induction l with
  | nil => intro _; rfl
  | cons a tl ih =>
    intro h
    rw [List.filterMap_cons, h a (List.mem_cons_self _ _),
      ih (fun x hx => h x (List.mem_cons_of_mem _ hx))]

/-- Reading back an inserted snapshot entry reproduces it exactly, given
its canonical shape and the rebuilt TTL entry. -/
theorem snapshotEntryOf_reconstruct (st3 : DBState) (now : Int) (hnow : 0 ≤ now)
    (e : rdb.Entry) (hcan : e.Canonical now)
    (httl : st3.ttlLookup e.Key =
      if 0 < e.ExpireAtUnixMs then some e.ExpireAtUnixMs else none) :
    snapshotEntryOf st3 now ⟨e.Key, rdbValue e, 0⟩ = some e := by
  rcases hcan with ⟨hexp, hshape⟩
  rw [snapshotEntryOf]
  dsimp only
  rw [httl]
  by_cases hpos : 0 < e.ExpireAtUnixMs
  · rw [if_pos hpos]
    have hfut : now < e.ExpireAtUnixMs := by rcases hexp with h0 | h1 <;> omega
    dsimp only
    rw [if_neg (by omega)]
    dsimp only
    rcases e with ⟨K, T, X, S, L, H, Se⟩
    cases T
    · have hshape2 : L = [] ∧ H = [] ∧ Se = [] := hshape
      rcases hshape2 with ⟨hL, hH, hSe⟩
      subst hL; subst hH; subst hSe
      rfl
    · have hshape2 : S = [] ∧ H = [] ∧ Se = [] := hshape
      rcases hshape2 with ⟨hS, hH, hSe⟩
      subst hS; subst hH; subst hSe
      rfl
    · have hshape2 : S = [] ∧ L = [] ∧ Se = [] := hshape
      rcases hshape2 with ⟨hS, hL, hSe⟩
      subst hS; subst hL; subst hSe
      rfl
    · have hshape2 : S = [] ∧ L = [] ∧ H = [] ∧ sortByLt bytesLt Se = Se := hshape
      rcases hshape2 with ⟨hS, hL, hH, hSe⟩
      subst hS; subst hL; subst hH
      show some
          ({ Key := K, Typ := rdb.EntryType.TypeSet, ExpireAtUnixMs := X,
             EString := [], EList := [], EHash := [],
             ESet := sortByLt bytesLt Se } : rdb.Entry)
        = some
          ({ Key := K, Typ := rdb.EntryType.TypeSet, ExpireAtUnixMs := X,
             EString := [], EList := [], EHash := [],
             ESet := Se } : rdb.Entry)
      rw [hSe]
  · rw [if_neg hpos]
    have hX : e.ExpireAtUnixMs = 0 := by rcases hexp with h0 | h1 <;> omega
    dsimp only
    rcases e with ⟨K, T, X, S, L, H, Se⟩
    have hX2 : X = 0 := hX
    subst hX2
    cases T
    · have hshape2 : L = [] ∧ H = [] ∧ Se = [] := hshape
      rcases hshape2 with ⟨hL, hH, hSe⟩
      subst hL; subst hH; subst hSe
      rfl
    · have hshape2 : S = [] ∧ H = [] ∧ Se = [] := hshape
      rcases hshape2 with ⟨hS, hH, hSe⟩
      subst hS; subst hH; subst hSe
      rfl
    · have hshape2 : S = [] ∧ L = [] ∧ Se = [] := hshape
      rcases hshape2 with ⟨hS, hL, hSe⟩
      subst hS; subst hL; subst hSe
      rfl
    · have hshape2 : S = [] ∧ L = [] ∧ H = [] ∧ sortByLt bytesLt Se = Se := hshape
      rcases hshape2 with ⟨hS, hL, hH, hSe⟩
      subst hS; subst hL; subst hH
      show some
          ({ Key := K, Typ := rdb.EntryType.TypeSet, ExpireAtUnixMs := 0,
             EString := [], EList := [], EHash := [],
             ESet := sortByLt bytesLt Se } : rdb.Entry)
        = some
          ({ Key := K, Typ := rdb.EntryType.TypeSet, ExpireAtUnixMs := 0,
             EString := [], EList := [], EHash := [],
             ESet := Se } : rdb.Entry)
      rw [hSe]

theorem snapshotEntries_fst (st : DBState) (now : Int) :
    (st.snapshotEntries now).1
      = sortByLt (fun a b => bytesLt a.Key b.Key)
          ((st.purgeExpiredAll now).cache.entries.filterMap
            (snapshotEntryOf (st.purgeExpiredAll now) now)) := rfl

/-- Snapshot → apply → snapshot reproduces the entry list exactly (at a
nonnegative instant, for a well-formed state with an unlimited cache). -/
theorem applySnapshot_roundtrip (st : DBState) (now : Int) (hnow : 0 ≤ now)
    (hmax : st.cache.maxBytes = 0) (hwf : st.Wf) :
    ((st.applySnapshot (st.snapshotEntries now).1 now).snapshotEntries now).1
      = (st.snapshotEntries now).1 := by
  obtain ⟨hexp0, hndc, hndt⟩ := hwf
  have hnde := snapshotEntries_keys_pairwise st now hndc
  have hcan := snapshotEntries_canonical st now
  have hsorted := snapshotEntries_sorted_le st now
  have hexp : ∀ e ∈ (st.snapshotEntries now).1,
      e.ExpireAtUnixMs = 0 ∨ now < e.ExpireAtUnixMs :=
    fun e he => (hcan e he).1
  obtain ⟨hA1, hA2, hA3⟩ :=
    applySnapshot_state st (st.snapshotEntries now).1 now hmax hndc hnde hexp
  have hpurge : (st.applySnapshot (st.snapshotEntries now).1 now).purgeExpiredAll now
      = st.applySnapshot (st.snapshotEntries now).1 now := by
    apply purgeExpiredAll_noop
    intro p hp
    rw [hA2] at hp
    rcases List.mem_map.mp hp with ⟨y, hy, rfl⟩
    have hyt : y ∈ (st.snapshotEntries now).1 := List.mem_of_mem_filter hy
    have hy2 : 0 < y.ExpireAtUnixMs := by simpa using List.of_mem_filter hy
    have hy3 := (hcan y hyt).1
    show ¬ y.ExpireAtUnixMs ≤ now
    rcases hy3 with h0 | h1 <;> omega
  have httl : ∀ e ∈ (st.snapshotEntries now).1,
      (st.applySnapshot (st.snapshotEntries now).1 now).ttlLookup e.Key
        = if 0 < e.ExpireAtUnixMs then some e.ExpireAtUnixMs else none := by
    intro e he
    rw [DBState.ttlLookup, hA2, find?_ttl_reconstruction _ hnde e he]
    by_cases hpos : 0 < e.ExpireAtUnixMs
    · rw [if_pos hpos, if_pos hpos]
      rfl
    · rw [if_neg hpos, if_neg hpos]
      rfl
  have hsome : ∀ e ∈ (st.snapshotEntries now).1,
      snapshotEntryOf (st.applySnapshot (st.snapshotEntries now).1 now) now
        (⟨e.Key, rdbValue e, 0⟩ : LruEntry) = some e :=
    fun e he => snapshotEntryOf_reconstruct _ now hnow e (hcan e he) (httl e he)
  rw [snapshotEntries_fst (st.applySnapshot (st.snapshotEntries now).1 now) now]
  rw [hpurge, hA1, filterMap_reverse_eq, filterMap_map_eq,
    filterMap_eq_self_of_some _ _ hsome]
  exact eq_of_perm_of_strict_sorted (fun a b : rdb.Entry => bytesLt a.Key b.Key)
    (fun a b h => bytesLt_asymm _ _ h) _ _
    ((sortByLt_perm _ _).trans (List.reverse_perm _))
    (pairwise_strict_of_le_ne rdb.Entry.Key _
      (sortByLt_pairwise_le (fun a b : rdb.Entry => bytesLt a.Key b.Key)
        (fun a b h => bytesLt_asymm _ _ h)
        (fun a b c h1 h2 => bytesLt_trans _ _ _ h1 h2) _)
      (((sortByLt_perm (fun a b : rdb.Entry => bytesLt a.Key b.Key) _).pairwise_iff
          (by intro a b h he; exact h he.symm)).mpr
        (List.pairwise_reverse.mpr (hnde.imp (fun h => Ne.symm h)))))
    (pairwise_strict_of_le_ne rdb.Entry.Key _ hsorted hnde)

/-- C3 (amended): snapshot save → apply → save yields byte-identical
snapshot files *with the same creation stamp*.  For a well-formed keyspace
over an unlimited cache, at a nonnegative instant, applying the saved
entries and saving again writes exactly the same bytes whenever both
saves embed the same `createdAt` — the entry payload reproduces exactly;
only the wall-clock header field can differ between the two files. -/
theorem C3_snapshot_save_apply_save (st : DBState) (now createdAt : Int)
    (hnow : 0 ≤ now) (hmax : st.cache.maxBytes = 0) (hwf : st.Wf) :
    rdb.SaveToWriter
        (((st.applySnapshot (st.snapshotEntries now).1 now).snapshotEntries now).1)
        createdAt
      = rdb.SaveToWriter ((st.snapshotEntries now).1) createdAt := by
  rw [applySnapshot_roundtrip st now hnow hmax hwf]

theorem C3_snapshot_save_apply_save_witness :
    0 ≤ (0 : Int) ∧ wsK.cache.maxBytes = 0 ∧ wsK.Wf ∧
    rdb.SaveToWriter
        (((wsK.applySnapshot (wsK.snapshotEntries 0).1 0).snapshotEntries 0).1) 5
      = rdb.SaveToWriter ((wsK.snapshotEntries 0).1) 5 :=
  ⟨by decide, by decide, by decide,
   C3_snapshot_save_apply_save wsK 0 5 (by decide) (by decide) (by decide)⟩

/-- C3 counterexample: the claim as stated — two byte-identical snapshot
*files* — fails, because `SaveToWriter` stamps `time.Now().UnixMilli()`
into the header at each save and the second save happens later.  On the
one-key keyspace `wsK` the save → apply → save pipeline reproduces the
entry list exactly, yet the file saved at instant 0 and the re-save at
instant 1 differ (in the 8 header bytes of `createdAt`). -/
theorem C3_counterexample :
    ((wsK.applySnapshot (wsK.snapshotEntries 0).1 0).snapshotEntries 0).1
        = (wsK.snapshotEntries 0).1 ∧
    rdb.SaveToWriter ((wsK.snapshotEntries 0).1) 0
      ≠ rdb.SaveToWriter
          (((wsK.applySnapshot (wsK.snapshotEntries 0).1 0).snapshotEntries 0).1) 1 := by
  constructor
  · decide
  · decide

end MyRedis
